import Mathlib

/-!
Verification development for the go-orderbook repository.

The Go source (package orderbook) is shallowly embedded here:

* `float64` prices, quantities and weights are modelled as exact rationals `ℚ`.
* Go heap memory is modelled as an explicit `Store` of order cells and node
  cells addressed by natural-number pointers; this captures the aliasing
  between a side book's `OrdersMap` (map from key to `*Node`) and its
  `BaseHeap` (slice of `*Node`), where `Swap` writes the `index` field through
  the shared pointer.
* The `Item` interface (`Peek() *Order`) is modelled by each node carrying the
  current resolution of its quote source: `some p` for a source that presently
  yields the concrete order stored at pointer `p` (a leaf `*Order`, or the
  current best order of a nested side book), or `none` for a source that
  presently yields no quote (for example an emptied nested book).
* Fallible operations return `Option`; a `none` result of `Book.Pop`,
  `Book.Remove`, `Book.Fix`, `Book.volume`, `OrderBook.Midpoint`,
  `OrderBook.Spread` or `Copy` models a Go runtime panic
  (index out of range, or nil-pointer dereference), as noted at each
  definition.
* `container/heap`'s `up` and `down` loops are implemented with an explicit
  fuel argument (the loop variable strictly decreases / increases, so fuel
  `j` resp. `n` is always sufficient); all definitions are executable.
-/

namespace OB

/-- `type Order struct { Price; Quantity; OrderId; Country }` (floats as `ℚ`). -/
structure Order where
  Price : ℚ
  Quantity : ℚ
  OrderId : String
  Country : String
deriving DecidableEq

/-- `type Node struct { Item; Key string; Weight float64; index int }`.
`item` is the current resolution of the embedded `Item` quote source:
`some p` when `Peek()` presently returns the order cell `p`, `none` when
`Peek()` presently returns nil. -/
structure Node where
  item : Option ℕ
  Key : String
  Weight : ℚ
  index : ℕ
deriving DecidableEq

/-- The zero `Node` used as the out-of-range default of store reads. -/
def node0 : Node := ⟨none, "", 0, 0⟩

/-- The Go heap memory: order cells and node cells, addressed by index. -/
structure Store where
  orders : List Order
  nodes : List Node
deriving DecidableEq

/-- Read a node cell (out-of-range reads return `node0`; they never occur on
well-formed states). -/
def getNode (s : Store) (p : ℕ) : Node := s.nodes.getD p node0

/-- Write the `index` field of node cell `p` (the only node mutation the heap
algorithms perform: `h[i].index = i`). -/
def setNodeIndex (s : Store) (p i : ℕ) : Store :=
  { s with nodes := s.nodes.set p { getNode s p with index := i } }

/-- Replace a whole node cell (models an external in-place mutation of any
field of an entry). -/
def setNode (s : Store) (p : ℕ) (nd : Node) : Store :=
  { s with nodes := s.nodes.set p nd }

/-- Replace a whole order cell (models an external in-place mutation of any
field of an order). -/
def setOrder (s : Store) (q : ℕ) (o : Order) : Store :=
  { s with orders := s.orders.set q o }

/-- `n.Peek()`: the concrete order the node's quote source currently yields,
or `none` for nil. -/
def nodeQuote (s : Store) (p : ℕ) : Option Order :=
  (getNode s p).item.bind (fun q => s.orders[q]?)

/-- `BaseHeap` is a slice of `*Node`: a list of node pointers. -/
abbrev BaseHeap := List ℕ

/-- `func (ob AskOrders) Less(i, j int) bool` (part_000 lines 88-99):
nil quotes sort strictly after quotes; otherwise ascending price×weight. -/
def AskOrders.Less (s : Store) (arr : BaseHeap) (i j : ℕ) : Bool :=
  match nodeQuote s (arr.getD i 0), nodeQuote s (arr.getD j 0) with
  | none, none => false
  | some _, none => true
  | none, some _ => false
  | some l, some r =>
      decide (l.Price * (getNode s (arr.getD i 0)).Weight
              < r.Price * (getNode s (arr.getD j 0)).Weight)

/-- `func (ob BidOrders) Less(i, j int) bool` (part_000 lines 101-112):
nil quotes sort strictly after quotes; otherwise descending price×weight. -/
def BidOrders.Less (s : Store) (arr : BaseHeap) (i j : ℕ) : Bool :=
  match nodeQuote s (arr.getD i 0), nodeQuote s (arr.getD j 0) with
  | none, none => false
  | some _, none => true
  | none, some _ => false
  | some l, some r =>
      decide (l.Price * (getNode s (arr.getD i 0)).Weight
              > r.Price * (getNode s (arr.getD j 0)).Weight)

/-- `func (h BaseHeap) Swap(i, j int)`: swap the slice slots, then write both
`index` fields through the node pointers. -/
def hswap (s : Store) (arr : BaseHeap) (i j : ℕ) : Store × BaseHeap :=
  let pi := arr.getD i 0
  let pj := arr.getD j 0
  let arr2 := (arr.set i pj).set j pi
  let s2 := setNodeIndex (setNodeIndex s (arr2.getD i 0) i) (arr2.getD j 0) j
  (s2, arr2)

/-- `container/heap`'s `up` loop, with explicit fuel (the loop index strictly
decreases, so fuel `j` always suffices; see `up`). -/
def upGo (less : Store → BaseHeap → ℕ → ℕ → Bool) :
    ℕ → Store → BaseHeap → ℕ → Store × BaseHeap
  | 0, s, arr, _ => (s, arr)
  | fuel + 1, s, arr, j =>
    let i := (j - 1) / 2
    if i = j ∨ ¬ less s arr j i then (s, arr)
    else
      let p := hswap s arr i j
      upGo less fuel p.1 p.2 i

/-- `func up(h Interface, j int)`. -/
def up (less : Store → BaseHeap → ℕ → ℕ → Bool) (s : Store) (arr : BaseHeap)
    (j : ℕ) : Store × BaseHeap :=
  upGo less j s arr j

/-- `container/heap`'s `down` loop with explicit fuel (the loop index strictly
increases below `n`, so fuel `n` always suffices; see `down`).  Returns the
final loop index. -/
def downGo (less : Store → BaseHeap → ℕ → ℕ → Bool) :
    ℕ → Store → BaseHeap → ℕ → ℕ → (Store × BaseHeap) × ℕ
  | 0, s, arr, i, _ => ((s, arr), i)
  | fuel + 1, s, arr, i, n =>
    let j1 := 2 * i + 1
    if n ≤ j1 then ((s, arr), i)
    else
      let j2 := j1 + 1
      let j := if j2 < n ∧ less s arr j2 j1 then j2 else j1
      if ¬ less s arr j i then ((s, arr), i)
      else
        let p := hswap s arr i j
        downGo less fuel p.1 p.2 j n

/-- `func down(h Interface, i0, n int) bool`: the pair after sifting down from
`i0` within the first `n` slots, and whether the element moved (`i > i0`). -/
def down (less : Store → BaseHeap → ℕ → ℕ → Bool) (s : Store) (arr : BaseHeap)
    (i0 n : ℕ) : (Store × BaseHeap) × Bool :=
  let d := downGo less n s arr i0 n
  (d.1, decide (i0 < d.2))

/-- `heap.Push`: `BaseHeap.Push` (append, set the new node's index) followed by
`up(h, h.Len()-1)`. -/
def heapPush (less : Store → BaseHeap → ℕ → ℕ → Bool) (s : Store)
    (arr : BaseHeap) (p : ℕ) : Store × BaseHeap :=
  let arr1 := arr ++ [p]
  let s1 := setNodeIndex s p (arr1.length - 1)
  up less s1 arr1 (arr1.length - 1)

/-- `heap.Pop`: `Swap(0, n)`, `down(0, n)`, then `BaseHeap.Pop` (read and drop
the last slot).  On an empty heap Go executes `h.Swap(0, -1)` and panics with
an index-out-of-range runtime error; that panic is modelled as `none`. -/
def heapPop (less : Store → BaseHeap → ℕ → ℕ → Bool) (s : Store)
    (arr : BaseHeap) : Option ((Store × BaseHeap) × ℕ) :=
  if arr.length = 0 then none
  else
    let n := arr.length - 1
    let p1 := hswap s arr 0 n
    let d := downGo less n p1.1 p1.2 0 n
    some ((d.1.1, d.1.2.take n), d.1.2.getD n 0)

/-- `heap.Remove(h, i)`: if `i` is not the last slot, `Swap(i, n)` then
`down(i, n)` and, if the element did not move down, `up(i)`; finally
`BaseHeap.Pop`.  An out-of-range `i` (which includes every call on an empty
heap, where Go computes `n = -1`) panics in `Swap`; modelled as `none`. -/
def heapRemove (less : Store → BaseHeap → ℕ → ℕ → Bool) (s : Store)
    (arr : BaseHeap) (i : ℕ) : Option ((Store × BaseHeap) × ℕ) :=
  if arr.length ≤ i then none
  else
    let n := arr.length - 1
    if i = n then some ((s, arr.take n), arr.getD n 0)
    else
      let p1 := hswap s arr i n
      let d := downGo less n p1.1 p1.2 i n
      let r := if i < d.2 then d.1 else up less d.1.1 d.1.2 i
      some ((r.1, r.2.take n), r.2.getD n 0)

/-- `heap.Fix(h, i)`: `down(i, h.Len())`, and if the element did not move
down, `up(i)`. -/
def heapFix (less : Store → BaseHeap → ℕ → ℕ → Bool) (s : Store)
    (arr : BaseHeap) (i : ℕ) : Store × BaseHeap :=
  let d := downGo less arr.length s arr i arr.length
  if i < d.2 then d.1 else up less d.1.1 d.1.2 i

/-- `type OrdersMap map[string]*Node`, modelled as an association list from
key to node pointer (Go map iteration order is unspecified; the list order is
one admissible schedule). -/
abbrev OrdersMap := List (String × ℕ)

/-- Go map read `m[key]`. -/
def mapLookup (m : OrdersMap) (k : String) : Option ℕ :=
  (m.find? (fun e => e.1 == k)).map (fun e => e.2)

/-- Go `delete(m, key)`. -/
def mapDel (m : OrdersMap) (k : String) : OrdersMap :=
  m.filter (fun e => ! (e.1 == k))

/-- Go map write `m[key] = p` (in every call site the key was just deleted). -/
def mapSet (m : OrdersMap) (k : String) (p : ℕ) : OrdersMap :=
  mapDel m k ++ [(k, p)]

/-- One side book: `Orders` (the `BaseHeap` of node pointers) plus the
`OrdersMap`.  `AskBook` and `BidBook` differ only in the comparator passed to
the operations. -/
structure Book where
  arr : BaseHeap
  omap : OrdersMap
deriving DecidableEq

/-- A freshly initialized (empty) side book. -/
def emptyBook : Book := ⟨[], []⟩

/-- `func (bb *Book) Len() int`. -/
def Book.Len (b : Book) : ℕ := b.arr.length

/-- `Peek()`: the root node's quote when the side is non-empty, else nil. -/
def Book.Peek (s : Store) (b : Book) : Option Order :=
  if 0 < b.arr.length then nodeQuote s (b.arr.getD 0 0) else none

/-- The data of a node passed to `Push` (`NewNode`: key, item, weight; the
`index` field starts at its zero value and is managed by the heap). -/
structure NodeSpec where
  item : Option ℕ
  Key : String
  Weight : ℚ
deriving DecidableEq

/-- `Remove(key)`: if the key is mapped, `heap.Remove` at the node's stored
index and delete the key; otherwise a silent no-op.  `none` models the Go
panic when the mapped node's stored index is out of range (never reachable
from a well-formed book). -/
def Book.Remove (less : Store → BaseHeap → ℕ → ℕ → Bool) (s : Store) (b : Book)
    (k : String) : Option (Store × Book) :=
  match mapLookup b.omap k with
  | none => some (s, b)
  | some p =>
    (heapRemove less s b.arr (getNode s p).index).map
      (fun r => (r.1.1, ⟨r.1.2, mapDel b.omap k⟩))

/-- `Push(n)`: allocate the node, `Remove(n.Key)`, `heap.Push`, then index the
key in the map. -/
def Book.Push (less : Store → BaseHeap → ℕ → ℕ → Bool) (s : Store) (b : Book)
    (nd : NodeSpec) : Option (Store × Book) :=
  let p := s.nodes.length
  let s0 : Store := { s with nodes := s.nodes ++ [⟨nd.item, nd.Key, nd.Weight, 0⟩] }
  (Book.Remove less s0 b nd.Key).map
    (fun r =>
      let h := heapPush less r.1 r.2.arr p
      (h.1, ⟨h.2, mapSet r.2.omap nd.Key p⟩))

/-- `Pop()`: `heap.Pop` then delete the popped node's key.  `none` models the
Go panic on an empty side. -/
def Book.Pop (less : Store → BaseHeap → ℕ → ℕ → Bool) (s : Store) (b : Book) :
    Option ((Store × Book) × ℕ) :=
  (heapPop less s b.arr).map
    (fun r => ((r.1.1, ⟨r.1.2, mapDel b.omap (getNode r.1.1 r.2).Key⟩), r.2))

/-- `Fix(key)`: if the key is mapped, `heap.Fix` at the node's stored index;
otherwise a silent no-op.  A stored index that is out of range and nonzero
would make Go's `up` panic indexing the heap slice; modelled as `none`
(never reachable from a well-formed book). -/
def Book.Fix (less : Store → BaseHeap → ℕ → ℕ → Bool) (s : Store) (b : Book)
    (k : String) : Option (Store × Book) :=
  match mapLookup b.omap k with
  | none => some (s, b)
  | some p =>
    let i := (getNode s p).index
    if i < b.arr.length ∨ i = 0 then
      let h := heapFix less s b.arr i
      some (h.1, ⟨h.2, b.omap⟩)
    else none

/-- `volume()`: `total += node.Peek().Quantity` over the heap slice; a node
whose quote source yields nil makes Go dereference a nil pointer and panic,
modelled as `none`. -/
def Book.volume (s : Store) (b : Book) : Option ℚ :=
  b.arr.foldl
    (fun acc p => acc.bind (fun t => (nodeQuote s p).map (fun o => t + o.Quantity)))
    (some 0)

/-- `type OrderBook struct { AskBook; BidBook; ... }` (the notification
channels carry no book state and are external collaborators). -/
structure OrderBook where
  ask : Book
  bid : Book
deriving DecidableEq

/-- `NewOrderBook` / `Init`: both sides empty. -/
def NewOrderBook : OrderBook := ⟨emptyBook, emptyBook⟩

/-- `HasBoth()`. -/
def OrderBook.HasBoth (ob : OrderBook) : Bool :=
  decide (0 < ob.ask.arr.length) && decide (0 < ob.bid.arr.length)

/-- `Midpoint()`: `0` without both sides, else the mean of the two peeked
prices; a nil peek on either side makes Go panic (`none`). -/
def OrderBook.Midpoint (s : Store) (ob : OrderBook) : Option ℚ :=
  if ¬ ob.HasBoth then some 0
  else
    match Book.Peek s ob.ask, Book.Peek s ob.bid with
    | some a, some b => some ((a.Price + b.Price) / 2)
    | _, _ => none

/-- `Spread()`: `0` without both sides, else the difference of the two peeked
prices; a nil peek on either side makes Go panic (`none`). -/
def OrderBook.Spread (s : Store) (ob : OrderBook) : Option ℚ :=
  if ¬ ob.HasBoth then some 0
  else
    match Book.Peek s ob.ask, Book.Peek s ob.bid with
    | some a, some b => some (a.Price - b.Price)
    | _, _ => none

/-- `OrderBook.Volume()`: the sum of the two sides' volumes (each can panic). -/
def OrderBook.Volume (s : Store) (ob : OrderBook) : Option ℚ :=
  match Book.volume s ob.ask, Book.volume s ob.bid with
  | some a, some b => some (a + b)
  | _, _ => none

/-- One iteration batch of `Copy`'s per-side loop: for each map entry, copy
the node value, materialize `o := *n.Peek()` into a freshly allocated order
cell (a nil `Peek` makes Go panic: `none`), point the copied node at it and
push it into the destination side. -/
def copySide (less : Store → BaseHeap → ℕ → ℕ → Bool) :
    OrdersMap → Store → Book → Option (Store × Book)
  | [], s, b => some (s, b)
  | e :: rest, s, b =>
    match nodeQuote s e.2 with
    | none => none
    | some o =>
      let nd := getNode s e.2
      let q := s.orders.length
      let s1 : Store := { s with orders := s.orders ++ [o] }
      match Book.Push less s1 b ⟨some q, nd.Key, nd.Weight⟩ with
      | none => none
      | some r => copySide less rest r.1 r.2

/-- `func Copy(src, dst *OrderBook)`: copy the ask side then the bid side. -/
def Copy (s : Store) (src dst : OrderBook) : Option (Store × OrderBook) :=
  match copySide AskOrders.Less src.ask.omap s dst.ask with
  | none => none
  | some ra =>
    match copySide BidOrders.Less src.bid.omap ra.1 dst.bid with
    | none => none
    | some rb => some (rb.1, ⟨ra.2, rb.2⟩)

/-- A sequence of `Push` calls on one side, starting from a given state. -/
def runPushes (less : Store → BaseHeap → ℕ → ℕ → Bool) :
    Store → Book → List NodeSpec → Option (Store × Book)
  | s, b, [] => some (s, b)
  | s, b, nd :: rest =>
    match Book.Push less s b nd with
    | none => none
    | some r => runPushes less r.1 r.2 rest

/-- Two stores agree on everything except the `index` fields of node cells:
same orders, same number of node cells, and every node cell keeps its quote
source, key and weight.  Every heap operation relates its input and output
stores this way. -/
def fieldsEq (s s2 : Store) : Prop :=
  s2.orders = s.orders ∧ s2.nodes.length = s.nodes.length ∧
  ∀ q, (getNode s2 q).item = (getNode s q).item ∧
       (getNode s2 q).Key = (getNode s q).Key ∧
       (getNode s2 q).Weight = (getNode s q).Weight

/-- Well-formedness of a side book over a store: the heap slice holds valid,
pairwise distinct node pointers; the stored `index` of the node at every heap
position `i` equals `i`; the lookup map and the heap hold exactly the same
entries (equal size, keys correct and unique, every mapped node in the heap,
every heap node found by looking up its key). -/
def WF (s : Store) (b : Book) : Prop :=
  (∀ i, i < b.arr.length → b.arr.getD i 0 < s.nodes.length) ∧
  (∀ i, i < b.arr.length → ∀ j, j < b.arr.length →
      b.arr.getD i 0 = b.arr.getD j 0 → i = j) ∧
  (∀ i, i < b.arr.length → (getNode s (b.arr.getD i 0)).index = i) ∧
  (∀ e ∈ b.omap, (getNode s e.2).Key = e.1) ∧
  (∀ e ∈ b.omap, ∃ i, i < b.arr.length ∧ b.arr.getD i 0 = e.2) ∧
  (∀ i, i < b.arr.length →
      mapLookup b.omap ((getNode s (b.arr.getD i 0)).Key) = some (b.arr.getD i 0)) ∧
  (b.omap.map Prod.fst).Nodup ∧
  b.omap.length = b.arr.length

instance (s : Store) (b : Book) : Decidable (WF s b) := by
  unfold WF; infer_instance

/-- Heap parent position. -/
def hpar (c : ℕ) : ℕ := (c - 1) / 2

/-- The heap-order property of the first `n` slots under a slot-key map `K`
on node pointers: every child's key is at least its parent's key. -/
def heapOn {α : Type} [LinearOrder α] (K : ℕ → α) (arr : BaseHeap) (n : ℕ) :
    Prop :=
  ∀ c, 0 < c → c < n → K (arr.getD (hpar c) 0) ≤ K (arr.getD c 0)

/-- The ask-side ordering key of node pointer `p`: price×weight, with a
quote-less node at `⊤` (it compares strictly worse than every quoting node).
`AskOrders.Less` is exactly `<` on this key. -/
def askKey (s : Store) (p : ℕ) : WithTop ℚ :=
  match nodeQuote s p with
  | none => ⊤
  | some o => ((o.Price * (getNode s p).Weight : ℚ) : WithTop ℚ)

/-- The bid-side ordering key of node pointer `p` in the order-dual of
`WithBot ℚ`: price×weight, with a quote-less node at `⊥` of the base order
(worst).  `BidOrders.Less` is exactly `<` on this key. -/
def bidKey (s : Store) (p : ℕ) : (WithBot ℚ)ᵒᵈ :=
  OrderDual.toDual
    (match nodeQuote s p with
     | none => ⊥
     | some o => ((o.Price * (getNode s p).Weight : ℚ) : WithBot ℚ))

/-- Everything one can observe of a side book through its heap slice: each
entry's key, weight and currently resolved quote, in heap-array order.
`Peek`, `volume`, `Midpoint` and `Spread` all factor through this view. -/
def bookRead (s : Store) (b : Book) : List (String × ℚ × Option Order) :=
  b.arr.map (fun p => ((getNode s p).Key, (getNode s p).Weight, nodeQuote s p))

/-- The node pointers a book reaches (its heap slice). -/
def nodePtrs (b : Book) : List ℕ := b.arr

/-- Whether a book reaches order cell `q` (through some entry's quote source). -/
def reachesOrder (s : Store) (b : Book) (q : ℕ) : Prop :=
  ∃ p ∈ b.arr, (getNode s p).item = some q

/-- Membership of a node pointer in a heap slice, stated positionally. -/
def slotMem (arr : BaseHeap) (x : ℕ) : Prop :=
  ∃ k, k < arr.length ∧ arr.getD k 0 = x

/-- The mechanical side of the side-book invariant restricted to the heap
slice: valid pointers, pairwise-distinct pointers, stored index equal to the
slot position. -/
def MechInv (s : Store) (arr : BaseHeap) : Prop :=
  (∀ k, k < arr.length → arr.getD k 0 < s.nodes.length) ∧
  (∀ i, i < arr.length → ∀ j, j < arr.length →
      arr.getD i 0 = arr.getD j 0 → i = j) ∧
  (∀ k, k < arr.length → (getNode s (arr.getD k 0)).index = k)

/-- What one sifting pass (`up`, `down`, `Fix`) does to a store/heap pair: it
permutes the slice in place (same length, same pointers), only rewrites
`index` fields in the store, preserves `MechInv`, and leaves every node cell
outside the slice untouched. -/
def SiftOk (s : Store) (arr : BaseHeap) (s2 : Store) (arr2 : BaseHeap) : Prop :=
  fieldsEq s s2 ∧ arr2.length = arr.length ∧
  (∀ x, slotMem arr x ↔ slotMem arr2 x) ∧
  (MechInv s arr → MechInv s2 arr2) ∧
  (∀ q, ¬ slotMem arr q → getNode s2 q = getNode s q)

/-- Invariant of `up` at hole `j` (within the first `n` slots): every parent
edge not pointing at `j` holds, and `j`'s parent key bounds `j`'s children
(so the element sifting up may stop anywhere above). -/
def upInv {α : Type} [LinearOrder α] (K : ℕ → α) (arr : BaseHeap) (n j : ℕ) :
    Prop :=
  (∀ c, 0 < c → c < n → c ≠ j →
     K (arr.getD (hpar c) 0) ≤ K (arr.getD c 0)) ∧
  (0 < j → ∀ c, 0 < c → c < n → hpar c = j →
     K (arr.getD (hpar j) 0) ≤ K (arr.getD c 0))

/-- Invariant of `down` at hole `i`: every parent edge not incident to `i`
holds, and `i`'s parent key bounds `i`'s children. -/
def downInv {α : Type} [LinearOrder α] (K : ℕ → α) (arr : BaseHeap) (n i : ℕ) :
    Prop :=
  (∀ c, 0 < c → c < n → hpar c ≠ i → c ≠ i →
     K (arr.getD (hpar c) 0) ≤ K (arr.getD c 0)) ∧
  (0 < i → ∀ c, 0 < c → c < n → hpar c = i →
     K (arr.getD (hpar i) 0) ≤ K (arr.getD c 0))

/-- The keys (in heap-slice order) of a side book's entries. -/
def bookKeys (s : Store) (b : Book) : List String :=
  b.arr.map (fun p => (getNode s p).Key)

/-- The index/map invariant exactly as the specification words it: the entry
stored at every valid heap position carries that position as its stored
index; the key→entry map and the heap are the same size; every mapped entry
is found in the heap at its stored index; and every heap entry is found by
looking up its key. -/
def IndexMapInv (s : Store) (b : Book) : Prop :=
  (∀ i, i < b.arr.length → (getNode s (b.arr.getD i 0)).index = i) ∧
  b.omap.length = b.arr.length ∧
  (∀ e ∈ b.omap, (getNode s e.2).index < b.arr.length ∧
    b.arr.getD (getNode s e.2).index 0 = e.2) ∧
  (∀ i, i < b.arr.length →
    mapLookup b.omap ((getNode s (b.arr.getD i 0)).Key) = some (b.arr.getD i 0))

/-- The quantity of the order a node currently yields (`0` if none; only used
where every node is known to yield a quote). -/
def quoteQty (s : Store) (p : ℕ) : ℚ :=
  ((nodeQuote s p).map Order.Quantity).getD 0

/-! ### Basic list and store lemmas -/

theorem getD_set_char (l : List ℕ) (i a k : ℕ) :
    (l.set i a).getD k 0 = if k = i ∧ i < l.length then a else l.getD k 0 := by
  by_cases hi : i < l.length
  · by_cases hk : k = i
    · subst hk
      simp [List.getD_eq_getElem?_getD, List.getElem?_set_self hi, hi]
    · simp [List.getD_eq_getElem?_getD, List.getElem?_set_ne (fun h => hk h.symm), hk]
  · rw [List.set_eq_of_length_le (Nat.le_of_not_lt hi)]
    simp [hi]

theorem getD_append_lt (l m : List ℕ) (k : ℕ) (h : k < l.length) :
    (l ++ m).getD k 0 = l.getD k 0 := by
  rw [List.getD_eq_getElem?_getD, List.getD_eq_getElem?_getD,
    List.getElem?_append]
  simp [h]

theorem getD_append_self (l : List ℕ) (a : ℕ) :
    (l ++ [a]).getD l.length 0 = a := by
  rw [List.getD_eq_getElem?_getD]
  simp

theorem getD_take_lt (l : List ℕ) (n k : ℕ) (h : k < n) :
    (l.take n).getD k 0 = l.getD k 0 := by
  rw [List.getD_eq_getElem?_getD, List.getD_eq_getElem?_getD,
    List.getElem?_take]
  simp [h]

theorem mem_iff_slotMem (arr : BaseHeap) (x : ℕ) : x ∈ arr ↔ slotMem arr x := by
  constructor
  · intro hx
    rcases List.mem_iff_getElem.mp hx with ⟨i, hi, he⟩
    exact ⟨i, hi, by rw [List.getD_eq_getElem _ _ hi]; exact he⟩
  · rintro ⟨i, hi, he⟩
    rw [List.getD_eq_getElem _ _ hi] at he
    exact List.mem_iff_getElem.mpr ⟨i, hi, he⟩

theorem orders_setNodeIndex (s : Store) (p i : ℕ) :
    (setNodeIndex s p i).orders = s.orders := rfl

theorem nodesLen_setNodeIndex (s : Store) (p i : ℕ) :
    (setNodeIndex s p i).nodes.length = s.nodes.length := by
  simp [setNodeIndex]

theorem getNode_setNodeIndex (s : Store) (p i q : ℕ) :
    getNode (setNodeIndex s p i) q =
      if q = p ∧ p < s.nodes.length then { getNode s p with index := i }
      else getNode s q := by
  by_cases hp : p < s.nodes.length
  · by_cases hq : q = p
    · rw [if_pos ⟨hq, hp⟩]
      subst hq
      show (s.nodes.set q _).getD q node0 = _
      rw [List.getD_eq_getElem?_getD, List.getElem?_set_self hp]
      rfl
    · rw [if_neg (fun h => hq h.1)]
      show (s.nodes.set p _).getD q node0 = s.nodes.getD q node0
      rw [List.getD_eq_getElem?_getD, List.getElem?_set_ne (fun h => hq h.symm),
        ← List.getD_eq_getElem?_getD]
  · rw [if_neg (fun h => absurd h.2 hp)]
    show (s.nodes.set p _).getD q node0 = s.nodes.getD q node0
    rw [List.set_eq_of_length_le (Nat.le_of_not_lt hp)]

theorem fieldsEq_refl (s : Store) : fieldsEq s s := ⟨rfl, rfl, fun _ => ⟨rfl, rfl, rfl⟩⟩

theorem fieldsEq_trans {s t u : Store} (h1 : fieldsEq s t) (h2 : fieldsEq t u) :
    fieldsEq s u := by
  refine ⟨h2.1.trans h1.1, h2.2.1.trans h1.2.1, fun q => ?_⟩
  exact ⟨(h2.2.2 q).1.trans (h1.2.2 q).1, (h2.2.2 q).2.1.trans (h1.2.2 q).2.1,
    (h2.2.2 q).2.2.trans (h1.2.2 q).2.2⟩

theorem fieldsEq_setNodeIndex (s : Store) (p i : ℕ) :
    fieldsEq s (setNodeIndex s p i) := by
  refine ⟨rfl, nodesLen_setNodeIndex s p i, fun q => ?_⟩
  rw [getNode_setNodeIndex]
  by_cases h : q = p ∧ p < s.nodes.length
  · simp [h]
  · simp [h]

theorem nodeQuote_fieldsEq {s s2 : Store} (h : fieldsEq s s2) (p : ℕ) :
    nodeQuote s2 p = nodeQuote s p := by
  unfold nodeQuote
  rw [(h.2.2 p).1, h.1]

theorem getNode_orders_set (s : Store) (q : ℕ) (o : Order) (p : ℕ) :
    getNode (setOrder s q o) p = getNode s p := rfl

/-! ### `hswap` lemmas -/

theorem hswap_orders (s : Store) (arr : BaseHeap) (i j : ℕ) :
    (hswap s arr i j).1.orders = s.orders := rfl

theorem hswap_arr (s : Store) (arr : BaseHeap) (i j : ℕ) :
    (hswap s arr i j).2 = (arr.set i (arr.getD j 0)).set j (arr.getD i 0) := rfl

theorem hswap_len (s : Store) (arr : BaseHeap) (i j : ℕ) :
    (hswap s arr i j).2.length = arr.length := by
  rw [hswap_arr]; simp

theorem hswap_getD (s : Store) (arr : BaseHeap) (i j : ℕ) (hi : i < arr.length)
    (hj : j < arr.length) (k : ℕ) :
    (hswap s arr i j).2.getD k 0 =
      if k = j then arr.getD i 0
      else if k = i then arr.getD j 0 else arr.getD k 0 := by
  rw [hswap_arr, getD_set_char, getD_set_char]
  simp only [List.length_set]
  by_cases hkj : k = j
  · rw [if_pos ⟨hkj, hj⟩, if_pos hkj]
  · rw [if_neg (fun h => hkj h.1), if_neg hkj]
    by_cases hki : k = i
    · rw [if_pos ⟨hki, hi⟩, if_pos hki]
    · rw [if_neg (fun h => hki h.1), if_neg hki]

theorem hswap_fieldsEq (s : Store) (arr : BaseHeap) (i j : ℕ) :
    fieldsEq s (hswap s arr i j).1 := by
  unfold hswap
  exact fieldsEq_trans (fieldsEq_setNodeIndex ..) (fieldsEq_setNodeIndex ..)

theorem hswap_slotMem (s : Store) (arr : BaseHeap) (i j : ℕ) (hi : i < arr.length)
    (hj : j < arr.length) (x : ℕ) :
    slotMem arr x ↔ slotMem (hswap s arr i j).2 x := by
  constructor
  · rintro ⟨k, hk, he⟩
    by_cases hki : k = i
    · refine ⟨j, by rw [hswap_len]; exact hj, ?_⟩
      rw [hswap_getD s arr i j hi hj, if_pos rfl, ← hki]
      exact he
    · by_cases hkj : k = j
      · have hij : ¬ i = j := fun h => hki (hkj.trans h.symm)
        refine ⟨i, by rw [hswap_len]; exact hi, ?_⟩
        rw [hswap_getD s arr i j hi hj, if_neg hij, if_pos rfl, ← hkj]
        exact he
      · refine ⟨k, by rw [hswap_len]; exact hk, ?_⟩
        rw [hswap_getD s arr i j hi hj, if_neg hkj, if_neg hki]
        exact he
  · rintro ⟨k, hk, he⟩
    rw [hswap_len] at hk
    rw [hswap_getD s arr i j hi hj] at he
    by_cases hkj : k = j
    · rw [if_pos hkj] at he
      exact ⟨i, hi, he⟩
    · rw [if_neg hkj] at he
      by_cases hki : k = i
      · rw [if_pos hki] at he
        exact ⟨j, hj, he⟩
      · rw [if_neg hki] at he
        exact ⟨k, hk, he⟩

theorem getNode_setNodeIndex_ne (s : Store) (p i q : ℕ) (h : q ≠ p) :
    getNode (setNodeIndex s p i) q = getNode s q := by
  rw [getNode_setNodeIndex, if_neg (fun hc => h hc.1)]

theorem getNode_hswap_outside (s : Store) (arr : BaseHeap) (i j : ℕ)
    (hi : i < arr.length) (hj : j < arr.length) (q : ℕ) (hq : ¬ slotMem arr q) :
    getNode (hswap s arr i j).1 q = getNode s q := by
  have hqi : q ≠ arr.getD i 0 := fun h => hq ⟨i, hi, h.symm⟩
  have hqj : q ≠ arr.getD j 0 := fun h => hq ⟨j, hj, h.symm⟩
  have h1 : (hswap s arr i j).2.getD i 0 = arr.getD j 0 ∨
      (hswap s arr i j).2.getD i 0 = arr.getD i 0 := by
    rw [hswap_getD s arr i j hi hj]
    by_cases hij : i = j
    · rw [if_pos hij, hij]
      exact Or.inr rfl
    · rw [if_neg hij, if_pos rfl]
      exact Or.inl rfl
  have h2 : (hswap s arr i j).2.getD j 0 = arr.getD i 0 := by
    rw [hswap_getD s arr i j hi hj, if_pos rfl]
  have hne1 : q ≠ (hswap s arr i j).2.getD i 0 := by
    rcases h1 with h | h <;> rw [h] <;> assumption
  have hne2 : q ≠ (hswap s arr i j).2.getD j 0 := by rw [h2]; exact hqi
  show getNode (setNodeIndex (setNodeIndex s ((hswap s arr i j).2.getD i 0) i)
    ((hswap s arr i j).2.getD j 0) j) q = getNode s q
  rw [getNode_setNodeIndex_ne _ _ _ _ hne2, getNode_setNodeIndex_ne _ _ _ _ hne1]

theorem getNode_setNodeIndex_self (s : Store) (p i : ℕ) (h : p < s.nodes.length) :
    getNode (setNodeIndex s p i) p = { getNode s p with index := i } := by
  rw [getNode_setNodeIndex, if_pos ⟨rfl, h⟩]

theorem hswap_getD_other (s : Store) (arr : BaseHeap) (i j k : ℕ) (hki : k ≠ i)
    (hkj : k ≠ j) : (hswap s arr i j).2.getD k 0 = arr.getD k 0 := by
  rw [hswap_arr, getD_set_char, getD_set_char]
  rw [if_neg (fun h => hkj h.1), if_neg (fun h => hki h.1)]

theorem hswap_mech (s : Store) (arr : BaseHeap) (i j : ℕ) (hi : i < arr.length)
    (hj : j < arr.length) (hm : MechInv s arr) :
    MechInv (hswap s arr i j).1 (hswap s arr i j).2 := by
  obtain ⟨hv, hinj, hidx⟩ := hm
  have hlen := hswap_len s arr i j
  have hfe := hswap_fieldsEq s arr i j
  have hgd : ∀ k, (hswap s arr i j).2.getD k 0 =
      arr.getD (if k = j then i else if k = i then j else k) 0 := by
    intro k
    rw [hswap_getD s arr i j hi hj]
    by_cases h1 : k = j
    · rw [if_pos h1, if_pos h1]
    · rw [if_neg h1, if_neg h1]
      by_cases h2 : k = i
      · rw [if_pos h2, if_pos h2]
      · rw [if_neg h2, if_neg h2]
  have hσlt : ∀ k, k < arr.length →
      (if k = j then i else if k = i then j else k) < arr.length := by
    intro k hk
    by_cases h1 : k = j
    · rw [if_pos h1]; exact hi
    · rw [if_neg h1]
      by_cases h2 : k = i
      · rw [if_pos h2]; exact hj
      · rw [if_neg h2]; exact hk
  have hinv : ∀ k, (if (if k = j then i else if k = i then j else k) = j then i
      else if (if k = j then i else if k = i then j else k) = i then j
      else (if k = j then i else if k = i then j else k)) = k := by
    intro k
    by_cases h1 : k = j
    · rw [if_pos h1]
      by_cases h2 : i = j
      · rw [if_pos h2]
        exact h2.trans h1.symm
      · rw [if_neg h2, if_pos rfl]
        exact h1.symm
    · rw [if_neg h1]
      by_cases h2 : k = i
      · rw [if_pos h2, if_pos rfl]
        exact h2.symm
      · rw [if_neg h2, if_neg h1, if_neg h2]
  have hσinj : ∀ a b, (if a = j then i else if a = i then j else a) =
      (if b = j then i else if b = i then j else b) → a = b := by
    intro a b h
    have hh := hinv a
    rw [h, hinv b] at hh
    exact hh.symm
  refine ⟨?_, ?_, ?_⟩
  · intro k hk
    rw [hlen] at hk
    rw [hfe.2.1, hgd k]
    exact hv _ (hσlt k hk)
  · intro a ha b hb he
    rw [hlen] at ha hb
    rw [hgd a, hgd b] at he
    exact hσinj a b (hinj _ (hσlt a ha) _ (hσlt b hb) he)
  · intro k hk
    rw [hlen] at hk
    rw [hgd k]
    by_cases h1 : k = j
    · rw [if_pos h1]
      have hvi := hv i hi
      show (getNode (setNodeIndex (setNodeIndex s ((hswap s arr i j).2.getD i 0) i)
        ((hswap s arr i j).2.getD j 0) j) (arr.getD i 0)).index = k
      have h2 : (hswap s arr i j).2.getD j 0 = arr.getD i 0 := by
        rw [hswap_getD s arr i j hi hj, if_pos rfl]
      rw [h2, getNode_setNodeIndex_self _ _ _ (by rw [nodesLen_setNodeIndex]; exact hvi)]
      exact h1.symm
    · rw [if_neg h1]
      by_cases h2 : k = i
      · rw [if_pos h2]
        have hij : ¬ i = j := fun h => h1 (h2.trans h)
        have hvj := hv j hj
        show (getNode (setNodeIndex (setNodeIndex s ((hswap s arr i j).2.getD i 0) i)
          ((hswap s arr i j).2.getD j 0) j) (arr.getD j 0)).index = k
        have e1 : (hswap s arr i j).2.getD i 0 = arr.getD j 0 := by
          rw [hswap_getD s arr i j hi hj, if_neg hij, if_pos rfl]
        have e2 : (hswap s arr i j).2.getD j 0 = arr.getD i 0 := by
          rw [hswap_getD s arr i j hi hj, if_pos rfl]
        have hne : arr.getD j 0 ≠ arr.getD i 0 := by
          intro h
          exact hij (hinj i hi j hj h.symm)
        rw [e2, getNode_setNodeIndex_ne _ _ _ _ hne, e1,
          getNode_setNodeIndex_self _ _ _ hvj]
        exact h2.symm
      · rw [if_neg h2]
        have hout : ¬ slotMem arr (arr.getD k 0) → False := fun h => h ⟨k, hk, rfl⟩
        have hne1 : arr.getD k 0 ≠ arr.getD i 0 := by
          intro h
          exact h2 (hinj k hk i hi h)
        have hne2 : arr.getD k 0 ≠ arr.getD j 0 := by
          intro h
          exact h1 (hinj k hk j hj h)
        show (getNode (setNodeIndex (setNodeIndex s ((hswap s arr i j).2.getD i 0) i)
          ((hswap s arr i j).2.getD j 0) j) (arr.getD k 0)).index = k
        have e2 : (hswap s arr i j).2.getD j 0 = arr.getD i 0 := by
          rw [hswap_getD s arr i j hi hj, if_pos rfl]
        have e1 : (hswap s arr i j).2.getD i 0 = arr.getD j 0 ∨
            (hswap s arr i j).2.getD i 0 = arr.getD i 0 := by
          rw [hswap_getD s arr i j hi hj]
          by_cases hij : i = j
          · rw [if_pos hij, hij]
            exact Or.inr rfl
          · rw [if_neg hij, if_pos rfl]
            exact Or.inl rfl
        have hne1f : arr.getD k 0 ≠ (hswap s arr i j).2.getD i 0 := by
          rcases e1 with h | h <;> rw [h] <;> assumption
        have hne2f : arr.getD k 0 ≠ (hswap s arr i j).2.getD j 0 := by
          rw [e2]; exact hne1
        rw [getNode_setNodeIndex_ne _ _ _ _ hne2f, getNode_setNodeIndex_ne _ _ _ _ hne1f]
        exact hidx k hk

/-! ### `SiftOk` machinery: the mechanical effect of the sift loops -/

theorem SiftOk_refl (s : Store) (arr : BaseHeap) : SiftOk s arr s arr :=
  ⟨fieldsEq_refl s, rfl, fun _ => Iff.rfl, id, fun _ _ => rfl⟩

theorem SiftOk_trans {s1 : Store} {a1 : BaseHeap} {s2 : Store} {a2 : BaseHeap}
    {s3 : Store} {a3 : BaseHeap} (h1 : SiftOk s1 a1 s2 a2)
    (h2 : SiftOk s2 a2 s3 a3) : SiftOk s1 a1 s3 a3 := by
  obtain ⟨f1, l1, m1, i1, o1⟩ := h1
  obtain ⟨f2, l2, m2, i2, o2⟩ := h2
  refine ⟨fieldsEq_trans f1 f2, l2.trans l1, fun x => (m1 x).trans (m2 x),
    fun h => i2 (i1 h), fun q hq => ?_⟩
  rw [o2 q (fun h => hq ((m1 q).mpr h)), o1 q hq]

theorem hswap_siftOk (s : Store) (arr : BaseHeap) (i j : ℕ) (hi : i < arr.length)
    (hj : j < arr.length) : SiftOk s arr (hswap s arr i j).1 (hswap s arr i j).2 :=
  ⟨hswap_fieldsEq s arr i j, hswap_len s arr i j, hswap_slotMem s arr i j hi hj,
    hswap_mech s arr i j hi hj, getNode_hswap_outside s arr i j hi hj⟩

theorem upGo_zero (less : Store → BaseHeap → ℕ → ℕ → Bool) (s : Store)
    (arr : BaseHeap) (j : ℕ) : upGo less 0 s arr j = (s, arr) := rfl

theorem upGo_succ (less : Store → BaseHeap → ℕ → ℕ → Bool) (fuel : ℕ)
    (s : Store) (arr : BaseHeap) (j : ℕ) :
    upGo less (fuel + 1) s arr j =
      if (j - 1) / 2 = j ∨ ¬ less s arr j ((j - 1) / 2) then (s, arr)
      else upGo less fuel (hswap s arr ((j - 1) / 2) j).1
        (hswap s arr ((j - 1) / 2) j).2 ((j - 1) / 2) := rfl

theorem downGo_zero (less : Store → BaseHeap → ℕ → ℕ → Bool) (s : Store)
    (arr : BaseHeap) (i n : ℕ) : downGo less 0 s arr i n = ((s, arr), i) := rfl

theorem downGo_succ (less : Store → BaseHeap → ℕ → ℕ → Bool) (fuel : ℕ)
    (s : Store) (arr : BaseHeap) (i n : ℕ) :
    downGo less (fuel + 1) s arr i n =
      if n ≤ 2 * i + 1 then ((s, arr), i)
      else
        let j := if 2 * i + 2 < n ∧ less s arr (2 * i + 2) (2 * i + 1)
          then 2 * i + 2 else 2 * i + 1
        if ¬ less s arr j i then ((s, arr), i)
        else downGo less fuel (hswap s arr i j).1 (hswap s arr i j).2 j n := rfl

theorem upGo_siftOk (less : Store → BaseHeap → ℕ → ℕ → Bool) :
    ∀ (fuel : ℕ) (s : Store) (arr : BaseHeap) (j : ℕ), j < arr.length →
      SiftOk s arr (upGo less fuel s arr j).1 (upGo less fuel s arr j).2 := by
  intro fuel
  induction fuel with
  | zero => intro s arr j _; exact SiftOk_refl s arr
  | succ fuel ih =>
    intro s arr j hj
    rw [upGo_succ]
    by_cases h : (j - 1) / 2 = j ∨ ¬ less s arr j ((j - 1) / 2)
    · rw [if_pos h]; exact SiftOk_refl s arr
    · rw [if_neg h]
      have hne : (j - 1) / 2 ≠ j := fun he => h (Or.inl he)
      have hij : (j - 1) / 2 < j := by omega
      have hi : (j - 1) / 2 < arr.length := lt_trans hij hj
      have hsw := hswap_siftOk s arr ((j - 1) / 2) j hi hj
      have hlen := hswap_len s arr ((j - 1) / 2) j
      exact SiftOk_trans hsw (ih _ _ _ (by rw [hlen]; exact hi))

theorem upGo_stable (less : Store → BaseHeap → ℕ → ℕ → Bool) :
    ∀ (fuel : ℕ) (s : Store) (arr : BaseHeap) (j k : ℕ), j < k →
      (upGo less fuel s arr j).2.getD k 0 = arr.getD k 0 := by
  intro fuel
  induction fuel with
  | zero => intro s arr j k _; rfl
  | succ fuel ih =>
    intro s arr j k hk
    rw [upGo_succ]
    by_cases h : (j - 1) / 2 = j ∨ ¬ less s arr j ((j - 1) / 2)
    · rw [if_pos h]
    · rw [if_neg h]
      have hne : (j - 1) / 2 ≠ j := fun he => h (Or.inl he)
      have hij : (j - 1) / 2 < j := by omega
      rw [ih _ _ _ _ (lt_trans hij hk)]
      exact hswap_getD_other s arr _ j k (by omega) (by omega)

theorem downGo_final_ge (less : Store → BaseHeap → ℕ → ℕ → Bool) :
    ∀ (fuel : ℕ) (s : Store) (arr : BaseHeap) (i n : ℕ),
      i ≤ (downGo less fuel s arr i n).2 := by
  intro fuel
  induction fuel with
  | zero => intro s arr i n; exact le_refl i
  | succ fuel ih =>
    intro s arr i n
    rw [downGo_succ]
    by_cases h1 : n ≤ 2 * i + 1
    · rw [if_pos h1]
    · rw [if_neg h1]
      set j := if 2 * i + 2 < n ∧ less s arr (2 * i + 2) (2 * i + 1)
        then 2 * i + 2 else 2 * i + 1 with hjdef
      by_cases h2 : ¬ less s arr j i
      · rw [if_pos h2]
      · rw [if_neg h2]
        have hij : i < j := by
          rw [hjdef]
          by_cases hc : 2 * i + 2 < n ∧ less s arr (2 * i + 2) (2 * i + 1)
          · rw [if_pos hc]; omega
          · rw [if_neg hc]; omega
        exact le_trans (le_of_lt hij) (ih _ _ _ _)

theorem downGo_final_lt (less : Store → BaseHeap → ℕ → ℕ → Bool) :
    ∀ (fuel : ℕ) (s : Store) (arr : BaseHeap) (i n : ℕ), i < n →
      (downGo less fuel s arr i n).2 < n := by
  intro fuel
  induction fuel with
  | zero => intro s arr i n h; exact h
  | succ fuel ih =>
    intro s arr i n h
    rw [downGo_succ]
    by_cases h1 : n ≤ 2 * i + 1
    · rw [if_pos h1]; exact h
    · rw [if_neg h1]
      set j := if 2 * i + 2 < n ∧ less s arr (2 * i + 2) (2 * i + 1)
        then 2 * i + 2 else 2 * i + 1 with hjdef
      by_cases h2 : ¬ less s arr j i
      · rw [if_pos h2]; exact h
      · rw [if_neg h2]
        have hjn : j < n := by
          rw [hjdef]
          by_cases hc : 2 * i + 2 < n ∧ less s arr (2 * i + 2) (2 * i + 1)
          · rw [if_pos hc]; exact hc.1
          · rw [if_neg hc]; omega
        exact ih _ _ _ _ hjn

theorem downGo_siftOk (less : Store → BaseHeap → ℕ → ℕ → Bool) :
    ∀ (fuel : ℕ) (s : Store) (arr : BaseHeap) (i n : ℕ), n ≤ arr.length →
      SiftOk s arr (downGo less fuel s arr i n).1.1
        (downGo less fuel s arr i n).1.2 := by
  intro fuel
  induction fuel with
  | zero => intro s arr i n _; exact SiftOk_refl s arr
  | succ fuel ih =>
    intro s arr i n hn
    rw [downGo_succ]
    by_cases h1 : n ≤ 2 * i + 1
    · rw [if_pos h1]; exact SiftOk_refl s arr
    · rw [if_neg h1]
      set j := if 2 * i + 2 < n ∧ less s arr (2 * i + 2) (2 * i + 1)
        then 2 * i + 2 else 2 * i + 1 with hjdef
      by_cases h2 : ¬ less s arr j i
      · rw [if_pos h2]; exact SiftOk_refl s arr
      · rw [if_neg h2]
        have hjn : j < n := by
          rw [hjdef]
          by_cases hc : 2 * i + 2 < n ∧ less s arr (2 * i + 2) (2 * i + 1)
          · rw [if_pos hc]; exact hc.1
          · rw [if_neg hc]; omega
        have hin : i < n := by omega
        have hsw := hswap_siftOk s arr i j (lt_of_lt_of_le hin hn)
          (lt_of_lt_of_le hjn hn)
        have hlen := hswap_len s arr i j
        exact SiftOk_trans hsw (ih _ _ _ _ (by rw [hlen]; exact hn))

theorem downGo_stable (less : Store → BaseHeap → ℕ → ℕ → Bool) :
    ∀ (fuel : ℕ) (s : Store) (arr : BaseHeap) (i n k : ℕ), n ≤ k →
      (downGo less fuel s arr i n).1.2.getD k 0 = arr.getD k 0 := by
  intro fuel
  induction fuel with
  | zero => intro s arr i n k _; rfl
  | succ fuel ih =>
    intro s arr i n k hk
    rw [downGo_succ]
    by_cases h1 : n ≤ 2 * i + 1
    · rw [if_pos h1]
    · rw [if_neg h1]
      set j := if 2 * i + 2 < n ∧ less s arr (2 * i + 2) (2 * i + 1)
        then 2 * i + 2 else 2 * i + 1 with hjdef
      by_cases h2 : ¬ less s arr j i
      · rw [if_pos h2]
      · rw [if_neg h2]
        have hjn : j < n := by
          rw [hjdef]
          by_cases hc : 2 * i + 2 < n ∧ less s arr (2 * i + 2) (2 * i + 1)
          · rw [if_pos hc]; exact hc.1
          · rw [if_neg hc]; omega
        have hin : i < n := by omega
        rw [ih _ _ _ _ _ hk]
        exact hswap_getD_other s arr i j k (by omega) (by omega)

/-! ### Mechanical specifications of the four heap operations -/

theorem slotMem_append (arr : BaseHeap) (p x : ℕ) :
    slotMem (arr ++ [p]) x ↔ x = p ∨ slotMem arr x := by
  constructor
  · rintro ⟨k, hk, he⟩
    rw [List.length_append, List.length_singleton] at hk
    by_cases hkl : k < arr.length
    · rw [getD_append_lt arr [p] k hkl] at he
      exact Or.inr ⟨k, hkl, he⟩
    · have : k = arr.length := by omega
      subst this
      rw [getD_append_self] at he
      exact Or.inl he.symm
  · rintro (h | ⟨k, hk, he⟩)
    · exact ⟨arr.length, by simp, by rw [getD_append_self]; exact h.symm⟩
    · exact ⟨k, by simp; omega, by rw [getD_append_lt arr [p] k hk]; exact he⟩

theorem slotMem_take (arr : BaseHeap) (n x : ℕ) (hn : n ≤ arr.length) :
    slotMem (arr.take n) x ↔ ∃ k, k < n ∧ arr.getD k 0 = x := by
  constructor
  · rintro ⟨k, hk, he⟩
    rw [List.length_take] at hk
    have hkn : k < n := lt_of_lt_of_le hk (min_le_left n arr.length)
    rw [getD_take_lt arr n k hkn] at he
    exact ⟨k, hkn, he⟩
  · rintro ⟨k, hk, he⟩
    exact ⟨k, by rw [List.length_take]; omega,
      by rw [getD_take_lt arr n k hk]; exact he⟩

theorem MechInv_take (s : Store) (arr : BaseHeap) (n : ℕ) (hn : n ≤ arr.length)
    (hm : MechInv s arr) : MechInv s (arr.take n) := by
  obtain ⟨hv, hinj, hidx⟩ := hm
  have hl : (arr.take n).length = n := by rw [List.length_take]; omega
  refine ⟨?_, ?_, ?_⟩
  · intro k hk
    rw [hl] at hk
    rw [getD_take_lt arr n k hk]
    exact hv k (lt_of_lt_of_le hk hn)
  · intro a ha b hb he
    rw [hl] at ha hb
    rw [getD_take_lt arr n a ha, getD_take_lt arr n b hb] at he
    exact hinj a (lt_of_lt_of_le ha hn) b (lt_of_lt_of_le hb hn) he
  · intro k hk
    rw [hl] at hk
    rw [getD_take_lt arr n k hk]
    exact hidx k (lt_of_lt_of_le hk hn)

theorem up_eq_upGo (less : Store → BaseHeap → ℕ → ℕ → Bool) (s : Store)
    (arr : BaseHeap) (j : ℕ) : up less s arr j = upGo less j s arr j := rfl

theorem heapFix_siftOk (less : Store → BaseHeap → ℕ → ℕ → Bool) (s : Store)
    (arr : BaseHeap) (i : ℕ) (hi : i < arr.length) :
    SiftOk s arr (heapFix less s arr i).1 (heapFix less s arr i).2 := by
  have hd := downGo_siftOk less arr.length s arr i arr.length (le_refl _)
  simp only [heapFix, up_eq_upGo]
  by_cases h : i < (downGo less arr.length s arr i arr.length).2
  · rw [if_pos h]
    exact hd
  · rw [if_neg h]
    have hi2 : i < (downGo less arr.length s arr i arr.length).1.2.length := by
      rw [hd.2.1]; exact hi
    exact SiftOk_trans hd (upGo_siftOk less i _ _ i hi2)

theorem heapPush_spec (less : Store → BaseHeap → ℕ → ℕ → Bool) (s : Store)
    (arr : BaseHeap) (p : ℕ) (hm : MechInv s arr) (hp : p < s.nodes.length)
    (hfresh : ¬ slotMem arr p) :
    fieldsEq s (heapPush less s arr p).1 ∧
    (heapPush less s arr p).2.length = arr.length + 1 ∧
    (∀ x, slotMem (heapPush less s arr p).2 x ↔ (x = p ∨ slotMem arr x)) ∧
    MechInv (heapPush less s arr p).1 (heapPush less s arr p).2 ∧
    (∀ q, ¬ slotMem arr q → q ≠ p →
      getNode (heapPush less s arr p).1 q = getNode s q) := by
  have hlen1 : (arr ++ [p]).length = arr.length + 1 := by simp
  have hlast : (arr ++ [p]).length - 1 = arr.length := by simp
  set s1 := setNodeIndex s p ((arr ++ [p]).length - 1) with hs1
  have hfe1 : fieldsEq s s1 := fieldsEq_setNodeIndex ..
  have hm1 : MechInv s1 (arr ++ [p]) := by
    obtain ⟨hv, hinj, hidx⟩ := hm
    refine ⟨?_, ?_, ?_⟩
    · intro k hk
      rw [hlen1] at hk
      by_cases hkl : k < arr.length
      · rw [getD_append_lt arr [p] k hkl, hfe1.2.1]
        exact hv k hkl
      · have : k = arr.length := by omega
        subst this
        rw [getD_append_self, hfe1.2.1]
        exact hp
    · intro a ha b hb he
      rw [hlen1] at ha hb
      by_cases hal : a < arr.length <;> by_cases hbl : b < arr.length
      · rw [getD_append_lt arr [p] a hal, getD_append_lt arr [p] b hbl] at he
        exact hinj a hal b hbl he
      · have : b = arr.length := by omega
        subst this
        rw [getD_append_lt arr [p] a hal, getD_append_self] at he
        exact (hfresh ⟨a, hal, he⟩).elim
      · have : a = arr.length := by omega
        subst this
        rw [getD_append_self, getD_append_lt arr [p] b hbl] at he
        exact (hfresh ⟨b, hbl, he.symm⟩).elim
      · omega
    · intro k hk
      rw [hlen1] at hk
      by_cases hkl : k < arr.length
      · rw [getD_append_lt arr [p] k hkl, hs1,
          getNode_setNodeIndex_ne _ _ _ _ (fun h => hfresh ⟨k, hkl, h⟩)]
        exact hidx k hkl
      · have : k = arr.length := by omega
        subst this
        rw [getD_append_self, hs1, getNode_setNodeIndex_self _ _ _ hp]
        exact hlast
  have hdef : heapPush less s arr p =
      upGo less ((arr ++ [p]).length - 1) s1 (arr ++ [p])
        ((arr ++ [p]).length - 1) := rfl
  have hjlt : (arr ++ [p]).length - 1 < (arr ++ [p]).length := by
    rw [hlen1]; omega
  have hup := upGo_siftOk less ((arr ++ [p]).length - 1) s1 (arr ++ [p])
    ((arr ++ [p]).length - 1) hjlt
  obtain ⟨huf, hul, hum, humech, huloc⟩ := hup
  rw [hdef]
  refine ⟨fieldsEq_trans hfe1 huf, by rw [hul, hlen1], fun x => ?_, humech hm1,
    fun q hq hqp => ?_⟩
  · rw [← hum x, slotMem_append]
  · have hq1 : ¬ slotMem (arr ++ [p]) q := by
      rw [slotMem_append]
      rintro (h | h)
      · exact hqp h
      · exact hq h
    rw [huloc q hq1, hs1, getNode_setNodeIndex_ne _ _ _ _ hqp]

theorem heapRemove_spec (less : Store → BaseHeap → ℕ → ℕ → Bool) (s : Store)
    (arr : BaseHeap) (i : ℕ) (hm : MechInv s arr) (hi : i < arr.length) :
    ∃ r, heapRemove less s arr i = some r ∧
      fieldsEq s r.1.1 ∧
      r.1.2.length = arr.length - 1 ∧
      r.2 = arr.getD i 0 ∧
      (∀ x, slotMem r.1.2 x ↔ (slotMem arr x ∧ x ≠ arr.getD i 0)) ∧
      MechInv r.1.1 r.1.2 ∧
      (∀ q, ¬ slotMem arr q → getNode r.1.1 q = getNode s q) := by
  have hnotle : ¬ arr.length ≤ i := by omega
  by_cases hii : i = arr.length - 1
  · refine ⟨((s, arr.take (arr.length - 1)), arr.getD (arr.length - 1) 0), ?_,
      fieldsEq_refl s, ?_, ?_, ?_, ?_, ?_⟩
    · simp only [heapRemove]
      rw [if_neg hnotle, if_pos hii]
    · rw [List.length_take]; omega
    · rw [hii]
    · intro x
      rw [slotMem_take arr (arr.length - 1) x (by omega)]
      constructor
      · rintro ⟨k, hk, he⟩
        refine ⟨⟨k, by omega, he⟩, fun hxe => ?_⟩
        have := hm.2.1 k (by omega) i hi (he.trans hxe)
        omega
      · rintro ⟨⟨k, hk, he⟩, hne⟩
        refine ⟨k, ?_, he⟩
        rcases Nat.lt_or_ge k (arr.length - 1) with h | h
        · exact h
        · have : k = i := by omega
          exact (hne (this ▸ he).symm).elim
    · exact MechInv_take s arr (arr.length - 1) (by omega) hm
    · intro q _; rfl
  · have hin : i < arr.length - 1 := by omega
    have hswlen : (hswap s arr i (arr.length - 1)).2.length = arr.length :=
      hswap_len ..
    have hsw := hswap_siftOk s arr i (arr.length - 1) hi (by omega)
    have hdsift := downGo_siftOk less (arr.length - 1)
      (hswap s arr i (arr.length - 1)).1 (hswap s arr i (arr.length - 1)).2 i
      (arr.length - 1) (by rw [hswlen]; omega)
    set D := downGo less (arr.length - 1) (hswap s arr i (arr.length - 1)).1
      (hswap s arr i (arr.length - 1)).2 i (arr.length - 1) with hD
    set G := if i < D.2 then D.1 else upGo less i D.1.1 D.1.2 i with hG
    have hsd : SiftOk s arr D.1.1 D.1.2 := SiftOk_trans hsw hdsift
    have hsift : SiftOk s arr G.1 G.2 := by
      rw [hG]
      by_cases hmv : i < D.2
      · rw [if_pos hmv]
        exact hsd
      · rw [if_neg hmv]
        have hilen : i < D.1.2.length := by rw [hsd.2.1]; exact hi
        exact SiftOk_trans hsd (upGo_siftOk less i D.1.1 D.1.2 i hilen)
    have h1 : (hswap s arr i (arr.length - 1)).2.getD (arr.length - 1) 0 =
        arr.getD i 0 := by
      rw [hswap_getD s arr i (arr.length - 1) hi (by omega), if_pos rfl]
    have h2 : D.1.2.getD (arr.length - 1) 0 = arr.getD i 0 := by
      rw [hD, downGo_stable less _ _ _ _ _ _ (le_refl _)]
      exact h1
    have hstab : G.2.getD (arr.length - 1) 0 = arr.getD i 0 := by
      rw [hG]
      by_cases hmv : i < D.2
      · rw [if_pos hmv]
        exact h2
      · rw [if_neg hmv]
        rw [upGo_stable less i D.1.1 D.1.2 i (arr.length - 1) hin]
        exact h2
    have heq : heapRemove less s arr i =
        some ((G.1, G.2.take (arr.length - 1)), G.2.getD (arr.length - 1) 0) := by
      simp only [heapRemove, up_eq_upGo]
      rw [if_neg hnotle, if_neg hii, ← hD, ← hG]
    have hlenF : G.2.length = arr.length := hsift.2.1
    have hmF : MechInv G.1 G.2 := hsift.2.2.2.1 hm
    refine ⟨_, heq, hsift.1, ?_, hstab, ?_, ?_, hsift.2.2.2.2⟩
    · rw [List.length_take, hlenF]; omega
    · intro x
      rw [slotMem_take G.2 (arr.length - 1) x (by rw [hlenF]; omega)]
      constructor
      · rintro ⟨k, hk, he⟩
        refine ⟨(hsift.2.2.1 x).mpr ⟨k, by omega, he⟩, fun hxe => ?_⟩
        have hke : G.2.getD k 0 = G.2.getD (arr.length - 1) 0 := by
          rw [he, hstab, hxe]
        have := hmF.2.1 k (by omega) (arr.length - 1) (by omega) hke
        omega
      · rintro ⟨hx, hne⟩
        obtain ⟨k, hk, he⟩ := (hsift.2.2.1 x).mp hx
        refine ⟨k, ?_, he⟩
        rcases Nat.lt_or_ge k (arr.length - 1) with h | h
        · exact h
        · have hkn : k = arr.length - 1 := by omega
          rw [hkn] at he
          exact (hne (he.symm.trans hstab)).elim
    · exact MechInv_take G.1 G.2 (arr.length - 1) (by rw [hlenF]; omega) hmF

theorem heapPop_spec (less : Store → BaseHeap → ℕ → ℕ → Bool) (s : Store)
    (arr : BaseHeap) (hm : MechInv s arr) (h0 : 0 < arr.length) :
    ∃ r, heapPop less s arr = some r ∧
      fieldsEq s r.1.1 ∧
      r.1.2.length = arr.length - 1 ∧
      r.2 = arr.getD 0 0 ∧
      (∀ x, slotMem r.1.2 x ↔ (slotMem arr x ∧ x ≠ arr.getD 0 0)) ∧
      MechInv r.1.1 r.1.2 ∧
      (∀ q, ¬ slotMem arr q → getNode r.1.1 q = getNode s q) := by
  have hne0 : ¬ arr.length = 0 := by omega
  have hn : arr.length - 1 < arr.length := by omega
  have hswlen : (hswap s arr 0 (arr.length - 1)).2.length = arr.length :=
    hswap_len ..
  have hsw := hswap_siftOk s arr 0 (arr.length - 1) h0 hn
  have hdsift := downGo_siftOk less (arr.length - 1)
    (hswap s arr 0 (arr.length - 1)).1 (hswap s arr 0 (arr.length - 1)).2 0
    (arr.length - 1) (by rw [hswlen]; omega)
  set D := downGo less (arr.length - 1) (hswap s arr 0 (arr.length - 1)).1
    (hswap s arr 0 (arr.length - 1)).2 0 (arr.length - 1) with hD
  have hsift : SiftOk s arr D.1.1 D.1.2 := SiftOk_trans hsw hdsift
  have h1 : (hswap s arr 0 (arr.length - 1)).2.getD (arr.length - 1) 0 =
      arr.getD 0 0 := by
    rw [hswap_getD s arr 0 (arr.length - 1) h0 hn, if_pos rfl]
  have hstab : D.1.2.getD (arr.length - 1) 0 = arr.getD 0 0 := by
    rw [hD, downGo_stable less _ _ _ _ _ _ (le_refl _)]
    exact h1
  have heq : heapPop less s arr =
      some ((D.1.1, D.1.2.take (arr.length - 1)), D.1.2.getD (arr.length - 1) 0) := by
    simp only [heapPop]
    rw [if_neg hne0, ← hD]
  have hlenF : D.1.2.length = arr.length := hsift.2.1
  have hmF : MechInv D.1.1 D.1.2 := hsift.2.2.2.1 hm
  refine ⟨_, heq, hsift.1, ?_, hstab, ?_, ?_, hsift.2.2.2.2⟩
  · rw [List.length_take, hlenF]; omega
  · intro x
    rw [slotMem_take D.1.2 (arr.length - 1) x (by rw [hlenF]; omega)]
    constructor
    · rintro ⟨k, hk, he⟩
      refine ⟨(hsift.2.2.1 x).mpr ⟨k, by omega, he⟩, fun hxe => ?_⟩
      have hke : D.1.2.getD k 0 = D.1.2.getD (arr.length - 1) 0 := by
        rw [he, hstab, hxe]
      have := hmF.2.1 k (by omega) (arr.length - 1) (by omega) hke
      omega
    · rintro ⟨hx, hne⟩
      obtain ⟨k, hk, he⟩ := (hsift.2.2.1 x).mp hx
      refine ⟨k, ?_, he⟩
      rcases Nat.lt_or_ge k (arr.length - 1) with h | h
      · exact h
      · have hkn : k = arr.length - 1 := by omega
        rw [hkn] at he
        exact (hne (he.symm.trans hstab)).elim
  · exact MechInv_take D.1.1 D.1.2 (arr.length - 1) (by rw [hlenF]; omega) hmF


/-! ### `OrdersMap` lemmas -/

theorem beq_key_true {a b : String} (h : a = b) : (a == b) = true :=
  beq_iff_eq.mpr h

theorem beq_key_false {a b : String} (h : ¬ a = b) : (a == b) = false := by
  rw [Bool.eq_false_iff]
  intro hc
  exact h (beq_iff_eq.mp hc)

theorem mapLookup_eq_none (m : OrdersMap) (k : String) :
    mapLookup m k = none ↔ ∀ e ∈ m, e.1 ≠ k := by
  constructor
  · intro h e he hk
    cases hf : List.find? (fun e => e.1 == k) m with
    | none => exact absurd (beq_key_true hk) (List.find?_eq_none.mp hf e he)
    | some e2 =>
      unfold mapLookup at h
      rw [hf] at h
      exact Option.noConfusion h
  · intro h
    have hf : List.find? (fun e => e.1 == k) m = none := by
      rw [List.find?_eq_none]
      intro e he hc
      exact h e he (beq_iff_eq.mp hc)
    unfold mapLookup
    rw [hf]
    rfl

theorem mapLookup_eq_some (m : OrdersMap) (k : String) (p : ℕ)
    (h : mapLookup m k = some p) : (k, p) ∈ m := by
  unfold mapLookup at h
  cases hf : List.find? (fun e => e.1 == k) m with
  | none =>
    rw [hf] at h
    exact Option.noConfusion h
  | some e =>
    rw [hf] at h
    have hp : e.2 = p := Option.some.inj h
    have hmem := List.mem_of_find?_eq_some hf
    have hpred := List.find?_some hf
    have h1 : e.1 = k := beq_iff_eq.mp hpred
    have he : e = (k, p) := by
      cases e
      simp only at h1 hp
      rw [h1, hp]
    exact he ▸ hmem

theorem mem_mapDel (m : OrdersMap) (k : String) (e : String × ℕ) :
    e ∈ mapDel m k ↔ e ∈ m ∧ e.1 ≠ k := by
  unfold mapDel
  rw [List.mem_filter]
  constructor
  · rintro ⟨h1, h2⟩
    refine ⟨h1, fun hc => ?_⟩
    rw [beq_key_true hc] at h2
    exact Bool.noConfusion h2
  · rintro ⟨h1, h2⟩
    refine ⟨h1, ?_⟩
    rw [beq_key_false h2]
    rfl

theorem mapDel_eq_self (m : OrdersMap) (k : String)
    (h : mapLookup m k = none) : mapDel m k = m := by
  apply List.filter_eq_self.mpr
  intro e he
  rw [beq_key_false ((mapLookup_eq_none m k).mp h e he)]
  rfl

theorem mapLookup_mapDel_self (m : OrdersMap) (k : String) :
    mapLookup (mapDel m k) k = none := by
  rw [mapLookup_eq_none]
  intro e he
  exact ((mem_mapDel m k e).mp he).2

theorem mapLookup_mapDel_ne (m : OrdersMap) (k k2 : String) (h : k2 ≠ k) :
    mapLookup (mapDel m k) k2 = mapLookup m k2 := by
  induction m with
  | nil => rfl
  | cons e t ih =>
    show mapLookup (List.filter _ (e :: t)) k2 = _
    rw [List.filter_cons]
    by_cases hek : e.1 = k
    · rw [beq_key_true hek]
      simp only [Bool.not_true, Bool.false_eq_true, if_false]
      have hne2 : ¬ ((e.1 == k2) = true) := by
        intro hc
        exact h ((beq_iff_eq.mp hc).symm.trans hek)
      have hstep : mapLookup (e :: t) k2 = mapLookup t k2 := by
        unfold mapLookup
        rw [List.find?_cons_of_neg (p := fun x : String × Nat => x.1 == k2) _ hne2]
      rw [hstep]
      exact ih
    · rw [beq_key_false hek]
      simp only [Bool.not_false, if_true]
      by_cases he2 : e.1 = k2
      · have hp2 : ((e.1 == k2) = true) := beq_key_true he2
        unfold mapLookup
        rw [List.find?_cons_of_pos (p := fun x : String × Nat => x.1 == k2) _ hp2,
          List.find?_cons_of_pos (p := fun x : String × Nat => x.1 == k2) _ hp2]
      · have hp2 : ¬ ((e.1 == k2) = true) := fun hc => he2 (beq_iff_eq.mp hc)
        unfold mapLookup
        rw [List.find?_cons_of_neg (p := fun x : String × Nat => x.1 == k2) _ hp2,
          List.find?_cons_of_neg (p := fun x : String × Nat => x.1 == k2) _ hp2]
        exact ih

theorem mapLookup_append (m1 m2 : OrdersMap) (k : String) :
    mapLookup (m1 ++ m2) k =
      (mapLookup m1 k).orElse (fun _ => mapLookup m2 k) := by
  unfold mapLookup
  rw [List.find?_append]
  cases List.find? (fun e => e.1 == k) m1 with
  | none => rfl
  | some e => rfl

theorem mapLookup_mapSet_self (m : OrdersMap) (k : String) (p : ℕ) :
    mapLookup (mapSet m k p) k = some p := by
  unfold mapSet
  rw [mapLookup_append, mapLookup_mapDel_self]
  show mapLookup [(k, p)] k = some p
  unfold mapLookup
  rw [List.find?_cons_of_pos (p := fun x : String × Nat => x.1 == k) _ (beq_key_true rfl)]
  rfl

theorem mapLookup_mapSet_ne (m : OrdersMap) (k k2 : String) (p : ℕ)
    (h : k2 ≠ k) : mapLookup (mapSet m k p) k2 = mapLookup m k2 := by
  unfold mapSet
  rw [mapLookup_append, mapLookup_mapDel_ne m k k2 h]
  have h2 : mapLookup [(k, p)] k2 = none := by
    rw [mapLookup_eq_none]
    intro e he
    rw [List.mem_singleton] at he
    rw [he]
    exact fun hc => h hc.symm
  cases hc : mapLookup m k2 with
  | none =>
    show mapLookup [(k, p)] k2 = none
    exact h2
  | some q => rfl

theorem keys_mapDel_sublist (m : OrdersMap) (k : String) :
    ((mapDel m k).map Prod.fst).Sublist (m.map Prod.fst) :=
  List.Sublist.map Prod.fst (List.filter_sublist m)

theorem keys_mapSet_nodup (m : OrdersMap) (k : String) (p : ℕ)
    (h : (m.map Prod.fst).Nodup) : ((mapSet m k p).map Prod.fst).Nodup := by
  unfold mapSet
  rw [List.map_append]
  apply List.nodup_append.mpr
  refine ⟨(keys_mapDel_sublist m k).nodup h, List.nodup_singleton _, ?_⟩
  intro a ha
  obtain ⟨e, he, hea⟩ := List.mem_map.mp ha
  have hmd := (mem_mapDel m k e).mp he
  intro hc
  have hak : a = k := by simpa using hc
  exact hmd.2 (hea.trans hak)

theorem mapDel_length_present (m : OrdersMap) (k : String) (p : ℕ)
    (hl : mapLookup m k = some p) (hn : (m.map Prod.fst).Nodup) :
    (mapDel m k).length + 1 = m.length := by
  induction m with
  | nil => exact Option.noConfusion hl
  | cons e t ih =>
    rw [List.map_cons, List.nodup_cons] at hn
    show (List.filter _ (e :: t)).length + 1 = t.length + 1
    rw [List.filter_cons]
    by_cases hek : e.1 = k
    · rw [beq_key_true hek]
      simp only [Bool.not_true, Bool.false_eq_true, if_false]
      have hdel : mapDel t k = t := by
        apply List.filter_eq_self.mpr
        intro e2 he2
        have hne : ¬ e2.1 = k := by
          intro hc
          apply hn.1
          rw [hek, ← hc]
          exact List.mem_map.mpr ⟨e2, he2, rfl⟩
        rw [beq_key_false hne]
        rfl
      show (mapDel t k).length + 1 = t.length + 1
      rw [hdel]
    · rw [beq_key_false hek]
      simp only [Bool.not_false, if_true, List.length_cons]
      have hlt : mapLookup t k = some p := by
        unfold mapLookup at hl ⊢
        rw [List.find?_cons_of_neg (p := fun x : String × Nat => x.1 == k) _
          (fun hc => hek (beq_iff_eq.mp hc))] at hl
        exact hl
      have hih := ih hlt hn.2
      unfold mapDel at hih
      omega

theorem mapSet_length (m : OrdersMap) (k : String) (p : ℕ) :
    (mapSet m k p).length = (mapDel m k).length + 1 := by
  unfold mapSet
  rw [List.length_append, List.length_singleton]

theorem mem_mapSet (m : OrdersMap) (k : String) (p : ℕ) (e : String × ℕ) :
    e ∈ mapSet m k p ↔ (e ∈ m ∧ e.1 ≠ k) ∨ e = (k, p) := by
  unfold mapSet
  rw [List.mem_append, List.mem_singleton, mem_mapDel]

/-! ### Side-book operation specifications (well-formedness preservation) -/

theorem WF_to_MechInv {s : Store} {b : Book} (h : WF s b) : MechInv s b.arr :=
  ⟨h.1, h.2.1, h.2.2.1⟩

theorem WF_mapped {s : Store} {b : Book} {k : String} {p : ℕ} (hwf : WF s b)
    (hc : mapLookup b.omap k = some p) :
    (getNode s p).index < b.arr.length ∧
    b.arr.getD (getNode s p).index 0 = p ∧ (getNode s p).Key = k := by
  obtain ⟨hv, hinj, hidx, hmk, hmm, hak, hkn, hlen⟩ := hwf
  have hmem := mapLookup_eq_some _ _ _ hc
  obtain ⟨i, hi, hie⟩ := hmm (k, p) hmem
  have hie2 : b.arr.getD i 0 = p := hie
  have hkey : (getNode s p).Key = k := hmk (k, p) hmem
  have hix : (getNode s p).index = i := by rw [← hie2]; exact hidx i hi
  rw [hix, hie2]
  exact ⟨hi, rfl, hkey⟩

theorem WF_arr_key_mem {s : Store} {b : Book} {x : ℕ} (hwf : WF s b)
    (hx : slotMem b.arr x) (hk : (getNode s x).Key = k) :
    mapLookup b.omap k = some x := by
  obtain ⟨i, hi, hie⟩ := hx
  have := hwf.2.2.2.2.2.1 i hi
  rw [hie, hk] at this
  exact this

theorem bookRemove_spec (less : Store → BaseHeap → ℕ → ℕ → Bool) (s : Store)
    (b : Book) (k : String) (hwf : WF s b) :
    ∃ s2 b2, Book.Remove less s b k = some (s2, b2) ∧ WF s2 b2 ∧
      fieldsEq s s2 ∧
      (∀ q, ¬ slotMem b.arr q → getNode s2 q = getNode s q) ∧
      (∀ x, slotMem b2.arr x ↔ (slotMem b.arr x ∧ (getNode s x).Key ≠ k)) ∧
      (∀ k2, mapLookup b2.omap k2 =
        if k2 = k then none else mapLookup b.omap k2) ∧
      (mapLookup b.omap k = none → s2 = s ∧ b2 = b) ∧
      (mapLookup b.omap k ≠ none → b2.arr.length + 1 = b.arr.length) := by
  cases hc : mapLookup b.omap k with
  | none =>
    refine ⟨s, b, ?_, hwf, fieldsEq_refl s, fun q _ => rfl, ?_, ?_,
      fun _ => ⟨rfl, rfl⟩, fun hne => (hne rfl).elim⟩
    · unfold Book.Remove
      rw [hc]
    · intro x
      constructor
      · intro hx
        refine ⟨hx, fun hk => ?_⟩
        rw [WF_arr_key_mem hwf hx hk] at hc
        exact Option.noConfusion hc
      · exact fun hx => hx.1
    · intro k2
      by_cases hk2 : k2 = k
      · rw [if_pos hk2, hk2]
        exact hc
      · rw [if_neg hk2]
  | some p =>
    have hmp := WF_mapped hwf hc
    have hkeyp : (getNode s p).Key = k := hmp.2.2
    obtain ⟨r, hr, hfe, hrlen, hrval, hrmem, hrmech, hrloc⟩ :=
      heapRemove_spec less s b.arr (getNode s p).index (WF_to_MechInv hwf) hmp.1
    have heval : Book.Remove less s b k = some (r.1.1, ⟨r.1.2, mapDel b.omap k⟩) := by
      unfold Book.Remove
      rw [hc]
      show (heapRemove less s b.arr (getNode s p).index).map
        (fun r => (r.1.1, (⟨r.1.2, mapDel b.omap k⟩ : Book))) = _
      rw [hr]
      rfl
    have hgd : b.arr.getD (getNode s p).index 0 = p := hmp.2.1
    rw [hgd] at hrval hrmem
    have hkeq : ∀ x, slotMem b.arr x → ((getNode s x).Key = k ↔ x = p) := by
      intro x hx
      constructor
      · intro hk
        have := WF_arr_key_mem hwf hx hk
        rw [hc] at this
        exact (Option.some.inj this).symm
      · intro he
        rw [he]
        exact hkeyp
    have hmemchar : ∀ x, slotMem r.1.2 x ↔
        (slotMem b.arr x ∧ (getNode s x).Key ≠ k) := by
      intro x
      rw [hrmem x]
      constructor
      · rintro ⟨h1, h2⟩
        exact ⟨h1, fun hk => h2 ((hkeq x h1).mp hk)⟩
      · rintro ⟨h1, h2⟩
        exact ⟨h1, fun hk => h2 ((hkeq x h1).mpr hk)⟩
    obtain ⟨hv, hinj, hidx, hmk, hmm, hak, hkn, hlen⟩ := hwf
    have hwf2 : WF r.1.1 ⟨r.1.2, mapDel b.omap k⟩ := by
      refine ⟨?_, hrmech.2.1, hrmech.2.2, ?_, ?_, ?_, ?_, ?_⟩
      · intro i hi
        exact hrmech.1 i hi
      · intro e he
        have hme := (mem_mapDel b.omap k e).mp he
        rw [(hfe.2.2 e.2).2.1]
        exact hmk e hme.1
      · intro e he
        have hme := (mem_mapDel b.omap k e).mp he
        have hep : e.2 ≠ p := by
          intro hep
          apply hme.2
          rw [← hmk e hme.1, hep]
          exact hkeyp
        obtain ⟨i, hi, hie⟩ := hmm e hme.1
        have hsm : slotMem r.1.2 e.2 := (hrmem e.2).mpr ⟨⟨i, hi, hie⟩, hep⟩
        exact hsm
      · intro i hi
        set x := r.1.2.getD i 0 with hx
        have hsm : slotMem r.1.2 x := ⟨i, hi, rfl⟩
        have hold := (hmemchar x).mp hsm
        obtain ⟨i0, hi0, hie0⟩ := hold.1
        have hlk : mapLookup b.omap ((getNode s x).Key) = some x := by
          have := hak i0 hi0
          rw [hie0] at this
          exact this
        rw [(hfe.2.2 x).2.1]
        rw [mapLookup_mapDel_ne b.omap k _ hold.2, hlk]
      · exact (keys_mapDel_sublist b.omap k).nodup hkn
      · show (mapDel b.omap k).length = r.1.2.length
        have hdl := mapDel_length_present b.omap k p hc hkn
        have hpos : 0 < b.arr.length := lt_of_le_of_lt (Nat.zero_le _) hmp.1
        rw [hrlen]
        omega
    refine ⟨r.1.1, ⟨r.1.2, mapDel b.omap k⟩, heval, hwf2, hfe, hrloc,
      hmemchar, ?_, ?_, ?_⟩
    · intro k2
      by_cases hk2 : k2 = k
      · rw [if_pos hk2, hk2]
        exact mapLookup_mapDel_self b.omap k
      · rw [if_neg hk2]
        exact mapLookup_mapDel_ne b.omap k k2 hk2
    · intro h
      exact Option.noConfusion h
    · intro _
      rw [hrlen]
      have : 0 < b.arr.length := lt_of_le_of_lt (Nat.zero_le _) hmp.1
      omega

theorem getNode_appendNode (s : Store) (nd : Node) (q : ℕ)
    (h : q < s.nodes.length) :
    getNode { s with nodes := s.nodes ++ [nd] } q = getNode s q := by
  show (s.nodes ++ [nd]).getD q node0 = s.nodes.getD q node0
  rw [List.getD_eq_getElem?_getD, List.getD_eq_getElem?_getD,
    List.getElem?_append]
  simp [h]

theorem getNode_appendNode_self (s : Store) (nd : Node) :
    getNode { s with nodes := s.nodes ++ [nd] } s.nodes.length = nd := by
  show (s.nodes ++ [nd]).getD s.nodes.length node0 = nd
  rw [List.getD_eq_getElem?_getD]
  simp

theorem WF_appendNode (s : Store) (b : Book) (nd : Node) (hwf : WF s b) :
    WF { s with nodes := s.nodes ++ [nd] } b := by
  obtain ⟨hv, hinj, hidx, hmk, hmm, hak, hkn, hlen⟩ := hwf
  have hgn : ∀ q, q < s.nodes.length →
      getNode { s with nodes := s.nodes ++ [nd] } q = getNode s q :=
    fun q hq => getNode_appendNode s nd q hq
  refine ⟨?_, hinj, ?_, ?_, hmm, ?_, hkn, hlen⟩
  · intro i hi
    show b.arr.getD i 0 < (s.nodes ++ [nd]).length
    rw [List.length_append, List.length_singleton]
    exact lt_of_lt_of_le (hv i hi) (by omega)
  · intro i hi
    rw [hgn _ (hv i hi)]
    exact hidx i hi
  · intro e he
    obtain ⟨i, hi, hie⟩ := hmm e he
    have : e.2 < s.nodes.length := by rw [← hie]; exact hv i hi
    rw [hgn _ this]
    exact hmk e he
  · intro i hi
    rw [hgn _ (hv i hi)]
    exact hak i hi

theorem bookPush_spec (less : Store → BaseHeap → ℕ → ℕ → Bool) (s : Store)
    (b : Book) (nd : NodeSpec) (hwf : WF s b) :
    ∃ s2 b2, Book.Push less s b nd = some (s2, b2) ∧ WF s2 b2 ∧
      s2.orders = s.orders ∧
      s2.nodes.length = s.nodes.length + 1 ∧
      (∀ q, q < s.nodes.length → ¬ slotMem b.arr q →
        getNode s2 q = getNode s q) ∧
      (getNode s2 s.nodes.length).item = nd.item ∧
      (getNode s2 s.nodes.length).Key = nd.Key ∧
      (getNode s2 s.nodes.length).Weight = nd.Weight ∧
      (∀ x, slotMem b2.arr x ↔
        (x = s.nodes.length ∨ (slotMem b.arr x ∧ (getNode s x).Key ≠ nd.Key))) ∧
      (∀ k2, mapLookup b2.omap k2 =
        if k2 = nd.Key then some s.nodes.length else mapLookup b.omap k2) ∧
      b2.arr.length = (if mapLookup b.omap nd.Key = none
        then b.arr.length + 1 else b.arr.length) ∧
      (∀ q, q < s.nodes.length →
        (getNode s2 q).item = (getNode s q).item ∧
        (getNode s2 q).Key = (getNode s q).Key ∧
        (getNode s2 q).Weight = (getNode s q).Weight) := by
  set ndc : Node := ⟨nd.item, nd.Key, nd.Weight, 0⟩ with hndc
  set s0 : Store := { s with nodes := s.nodes ++ [ndc] } with hs0
  have hs0len : s0.nodes.length = s.nodes.length + 1 := by
    rw [hs0]
    show (s.nodes ++ [ndc]).length = s.nodes.length + 1
    rw [List.length_append, List.length_singleton]
  have hs0ord : s0.orders = s.orders := rfl
  have hwf0 : WF s0 b := WF_appendNode s b ndc hwf
  obtain ⟨s1, b1, hrem, hwf1, hfe1, hloc1, hmem1, hmap1, hnone1, hsome1⟩ :=
    bookRemove_spec less s0 b nd.Key hwf0
  set p := s.nodes.length with hp
  have hp1 : p < s1.nodes.length := by
    rw [hfe1.2.1, hs0len]
    omega
  have hfreshb1 : ¬ slotMem b1.arr p := by
    intro hsm
    have := ((hmem1 p).mp hsm).1
    obtain ⟨i, hi, hie⟩ := this
    have := hwf.1 i hi
    omega
  obtain ⟨hpfe, hplen, hpmem, hpmech, hploc⟩ :=
    heapPush_spec less s1 b1.arr p (WF_to_MechInv hwf1) hp1 hfreshb1
  set H := heapPush less s1 b1.arr p with hH
  have heval : Book.Push less s b nd =
      some (H.1, ⟨H.2, mapSet b1.omap nd.Key p⟩) := by
    unfold Book.Push
    rw [← hs0]
    show Option.map
      (fun r => ((heapPush less r.1 r.2.arr p).1,
        (⟨(heapPush less r.1 r.2.arr p).2, mapSet r.2.omap nd.Key p⟩ : Book)))
      (Book.Remove less s0 b nd.Key) = some (H.1, ⟨H.2, mapSet b1.omap nd.Key p⟩)
    rw [hrem]
    rfl
  -- field values of the fresh node, through the whole pipeline
  have hndfields : (getNode H.1 p).item = nd.item ∧
      (getNode H.1 p).Key = nd.Key ∧ (getNode H.1 p).Weight = nd.Weight := by
    have h0 : getNode s0 p = ndc := getNode_appendNode_self s ndc
    have h1i := (hfe1.2.2 p).1
    have h1k := (hfe1.2.2 p).2.1
    have h1w := (hfe1.2.2 p).2.2
    have h2i := (hpfe.2.2 p).1
    have h2k := (hpfe.2.2 p).2.1
    have h2w := (hpfe.2.2 p).2.2
    rw [h2i, h1i, h0, h2k, h1k, h0, h2w, h1w, h0]
    exact ⟨rfl, rfl, rfl⟩
  have hkey_s0 : ∀ x, slotMem b.arr x → (getNode s0 x).Key = (getNode s x).Key := by
    intro x hx
    obtain ⟨i, hi, hie⟩ := hx
    have : x < s.nodes.length := by rw [← hie]; exact hwf.1 i hi
    rw [getNode_appendNode s ndc x this]
  have hkey_s1 : ∀ x, (getNode s1 x).Key = (getNode s0 x).Key :=
    fun x => (hfe1.2.2 x).2.1
  have hb1lookup : mapLookup b1.omap nd.Key = none := by
    rw [hmap1 nd.Key, if_pos rfl]
  -- membership characterization of the final heap slice
  have hmemchar : ∀ x, slotMem H.2 x ↔
      (x = p ∨ (slotMem b.arr x ∧ (getNode s x).Key ≠ nd.Key)) := by
    intro x
    rw [hpmem x]
    constructor
    · rintro (h | h)
      · exact Or.inl h
      · have := (hmem1 x).mp h
        refine Or.inr ⟨this.1, ?_⟩
        rw [← hkey_s0 x this.1]
        exact this.2
    · rintro (h | h)
      · exact Or.inl h
      · refine Or.inr ((hmem1 x).mpr ⟨h.1, ?_⟩)
        rw [hkey_s0 x h.1]
        exact h.2
  have hwf2 : WF H.1 ⟨H.2, mapSet b1.omap nd.Key p⟩ := by
    obtain ⟨hv1, hinj1, hidx1, hmk1, hmm1, hak1, hkn1, hlen1⟩ := hwf1
    refine ⟨hpmech.1, hpmech.2.1, hpmech.2.2, ?_, ?_, ?_, ?_, ?_⟩
    · intro e he
      rcases (mem_mapSet b1.omap nd.Key p e).mp he with ⟨he1, _⟩ | he1
      · rw [(hpfe.2.2 e.2).2.1]
        exact hmk1 e he1
      · rw [he1]
        exact hndfields.2.1
    · intro e he
      rcases (mem_mapSet b1.omap nd.Key p e).mp he with ⟨he1, _⟩ | he1
      · obtain ⟨i, hi, hie⟩ := hmm1 e he1
        have : slotMem H.2 e.2 := (hpmem e.2).mpr (Or.inr ⟨i, hi, hie⟩)
        exact this
      · rw [he1]
        exact (hpmem p).mpr (Or.inl rfl)
    · intro i hi
      have hsm : slotMem H.2 (H.2.getD i 0) := ⟨i, hi, rfl⟩
      rcases (hpmem _).mp hsm with h | h
      · show mapLookup (mapSet b1.omap nd.Key p) (getNode H.1 (H.2.getD i 0)).Key =
          some (H.2.getD i 0)
        rw [h, hndfields.2.1, mapLookup_mapSet_self]
      · obtain ⟨i1, hi1, hie1⟩ := h
        have hkx : (getNode H.1 (H.2.getD i 0)).Key =
            (getNode s1 (H.2.getD i 0)).Key := (hpfe.2.2 _).2.1
        have hakx : mapLookup b1.omap ((getNode s1 (H.2.getD i 0)).Key) =
            some (H.2.getD i 0) := by
          have := hak1 i1 hi1
          rw [hie1] at this
          exact this
        have hne : (getNode s1 (H.2.getD i 0)).Key ≠ nd.Key := by
          intro hc
          rw [hc, hb1lookup] at hakx
          exact Option.noConfusion hakx
        show mapLookup (mapSet b1.omap nd.Key p) (getNode H.1 (H.2.getD i 0)).Key =
          some (H.2.getD i 0)
        rw [hkx, mapLookup_mapSet_ne b1.omap nd.Key _ p hne, hakx]
    · exact keys_mapSet_nodup b1.omap nd.Key p hkn1
    · show (mapSet b1.omap nd.Key p).length = H.2.length
      rw [mapSet_length, mapDel_eq_self b1.omap nd.Key hb1lookup, hplen, hlen1]
  refine ⟨H.1, ⟨H.2, mapSet b1.omap nd.Key p⟩, heval, hwf2, ?_, ?_, ?_,
    hndfields.1, hndfields.2.1, hndfields.2.2, hmemchar, ?_, ?_, ?_⟩
  · rw [hpfe.1, hfe1.1, hs0ord]
  · rw [hpfe.2.1, hfe1.2.1, hs0len]
  · intro q hq hqm
    have hq1 : ¬ slotMem b1.arr q := by
      intro hsm
      exact hqm ((hmem1 q).mp hsm).1
    rw [hploc q hq1 (by omega), hloc1 q hqm, getNode_appendNode s ndc q hq]
  · intro k2
    by_cases hk2 : k2 = nd.Key
    · rw [if_pos hk2, hk2]
      show mapLookup (mapSet b1.omap nd.Key p) nd.Key = some p
      exact mapLookup_mapSet_self b1.omap nd.Key p
    · rw [if_neg hk2]
      show mapLookup (mapSet b1.omap nd.Key p) k2 = mapLookup b.omap k2
      rw [mapLookup_mapSet_ne b1.omap nd.Key k2 p hk2, hmap1 k2, if_neg hk2]
  · show H.2.length = _
    rw [hplen]
    by_cases hlk : mapLookup b.omap nd.Key = none
    · rw [if_pos hlk]
      have := (hnone1 hlk).2
      rw [this]
    · rw [if_neg hlk]
      have := hsome1 hlk
      omega
  · intro q hq
    have hfec : fieldsEq s0 H.1 := fieldsEq_trans hfe1 hpfe
    have hgn := getNode_appendNode s ndc q hq
    rw [← hs0] at hgn
    rw [(hfec.2.2 q).1, (hfec.2.2 q).2.1, (hfec.2.2 q).2.2, hgn]
    exact ⟨rfl, rfl, rfl⟩

theorem bookPop_spec (less : Store → BaseHeap → ℕ → ℕ → Bool) (s : Store)
    (b : Book) (hwf : WF s b) (h0 : 0 < b.arr.length) :
    ∃ r, Book.Pop less s b = some r ∧ WF r.1.1 r.1.2 ∧ fieldsEq s r.1.1 ∧
      r.2 = b.arr.getD 0 0 ∧
      (∀ x, slotMem r.1.2.arr x ↔ (slotMem b.arr x ∧ x ≠ b.arr.getD 0 0)) ∧
      r.1.2.arr.length + 1 = b.arr.length ∧
      (∀ q, ¬ slotMem b.arr q → getNode r.1.1 q = getNode s q) := by
  obtain ⟨rr, hr, hrfe, hrlen, hrval, hrmem, hrmech, hrloc⟩ :=
    heapPop_spec less s b.arr (WF_to_MechInv hwf) h0
  set x0 := b.arr.getD 0 0 with hx0
  set k0 := (getNode s x0).Key with hk0
  have hkk : (getNode rr.1.1 rr.2).Key = k0 := by
    rw [hrval]
    exact (hrfe.2.2 _).2.1
  have heval : Book.Pop less s b =
      some ((rr.1.1, ⟨rr.1.2, mapDel b.omap k0⟩), rr.2) := by
    unfold Book.Pop
    rw [hr, ← hkk]
    rfl
  have hlk0 : mapLookup b.omap k0 = some x0 := hwf.2.2.2.2.2.1 0 h0
  have hkeq : ∀ x, slotMem b.arr x → ((getNode s x).Key = k0 ↔ x = x0) := by
    intro x hx
    constructor
    · intro hk
      have := WF_arr_key_mem hwf hx hk
      rw [hlk0] at this
      exact (Option.some.inj this).symm
    · intro he
      rw [he]
  obtain ⟨hv, hinj, hidx, hmk, hmm, hak, hkn, hlen⟩ := hwf
  have hwf2 : WF rr.1.1 ⟨rr.1.2, mapDel b.omap k0⟩ := by
    refine ⟨?_, hrmech.2.1, hrmech.2.2, ?_, ?_, ?_, ?_, ?_⟩
    · intro i hi
      exact hrmech.1 i hi
    · intro e he
      have hme := (mem_mapDel b.omap k0 e).mp he
      rw [(hrfe.2.2 e.2).2.1]
      exact hmk e hme.1
    · intro e he
      have hme := (mem_mapDel b.omap k0 e).mp he
      have hep : e.2 ≠ x0 := by
        intro hep
        apply hme.2
        rw [← hmk e hme.1, hep]
      obtain ⟨i, hi, hie⟩ := hmm e hme.1
      exact (hrmem e.2).mpr ⟨⟨i, hi, hie⟩, hep⟩
    · intro i hi
      have hsm : slotMem rr.1.2 (rr.1.2.getD i 0) := ⟨i, hi, rfl⟩
      have hold := (hrmem _).mp hsm
      obtain ⟨i0, hi0, hie0⟩ := hold.1
      have hlk : mapLookup b.omap ((getNode s (rr.1.2.getD i 0)).Key) =
          some (rr.1.2.getD i 0) := by
        have := hak i0 hi0
        rw [hie0] at this
        exact this
      have hne : (getNode s (rr.1.2.getD i 0)).Key ≠ k0 := by
        intro hc
        exact hold.2 ((hkeq _ hold.1).mp hc)
      show mapLookup (mapDel b.omap k0) (getNode rr.1.1 (rr.1.2.getD i 0)).Key =
        some (rr.1.2.getD i 0)
      rw [(hrfe.2.2 _).2.1, mapLookup_mapDel_ne b.omap k0 _ hne, hlk]
    · exact (keys_mapDel_sublist b.omap k0).nodup hkn
    · show (mapDel b.omap k0).length = rr.1.2.length
      have hdl := mapDel_length_present b.omap k0 x0 hlk0 hkn
      rw [hrlen]
      omega
  refine ⟨((rr.1.1, ⟨rr.1.2, mapDel b.omap k0⟩), rr.2), heval, hwf2, hrfe,
    hrval, ?_, ?_, hrloc⟩
  · intro x
    exact hrmem x
  · show rr.1.2.length + 1 = b.arr.length
    rw [hrlen]
    omega

theorem bookPop_empty (less : Store → BaseHeap → ℕ → ℕ → Bool) (s : Store)
    (b : Book) (h0 : b.arr.length = 0) : Book.Pop less s b = none := by
  unfold Book.Pop heapPop
  rw [if_pos h0]
  rfl

theorem bookFix_spec (less : Store → BaseHeap → ℕ → ℕ → Bool) (s : Store)
    (b : Book) (k : String) (hwf : WF s b) :
    ∃ s2 b2, Book.Fix less s b k = some (s2, b2) ∧ WF s2 b2 ∧ fieldsEq s s2 ∧
      b2.omap = b.omap ∧ b2.arr.length = b.arr.length ∧
      (∀ x, slotMem b2.arr x ↔ slotMem b.arr x) ∧
      (∀ q, ¬ slotMem b.arr q → getNode s2 q = getNode s q) ∧
      (mapLookup b.omap k = none → s2 = s ∧ b2 = b) := by
  cases hc : mapLookup b.omap k with
  | none =>
    refine ⟨s, b, ?_, hwf, fieldsEq_refl s, rfl, rfl, fun _ => Iff.rfl,
      fun _ _ => rfl, fun _ => ⟨rfl, rfl⟩⟩
    unfold Book.Fix
    rw [hc]
  | some p =>
    have hmp := WF_mapped hwf hc
    set i := (getNode s p).index with hi
    set F := heapFix less s b.arr i with hF
    have hsift := heapFix_siftOk less s b.arr i hmp.1
    have heval : Book.Fix less s b k = some (F.1, ⟨F.2, b.omap⟩) := by
      unfold Book.Fix
      rw [hc]
      show (if i < b.arr.length ∨ i = 0 then
        some ((heapFix less s b.arr i).1,
          (⟨(heapFix less s b.arr i).2, b.omap⟩ : Book)) else none) = _
      rw [if_pos (Or.inl hmp.1), ← hF]
    obtain ⟨hffe, hflen, hfmem, hfmech, hfloc⟩ := hsift
    obtain ⟨hv, hinj, hidx, hmk, hmm, hak, hkn, hlen⟩ := hwf
    have hwf2 : WF F.1 ⟨F.2, b.omap⟩ := by
      refine ⟨?_, (hfmech ⟨hv, hinj, hidx⟩).2.1, (hfmech ⟨hv, hinj, hidx⟩).2.2,
        ?_, ?_, ?_, hkn, ?_⟩
      · intro i2 hi2
        exact (hfmech ⟨hv, hinj, hidx⟩).1 i2 hi2
      · intro e he
        rw [(hffe.2.2 e.2).2.1]
        exact hmk e he
      · intro e he
        obtain ⟨i2, hi2, hie2⟩ := hmm e he
        exact (hfmem e.2).mp ⟨i2, hi2, hie2⟩
      · intro i2 hi2
        have hsm : slotMem F.2 (F.2.getD i2 0) := ⟨i2, hi2, rfl⟩
        obtain ⟨i0, hi0, hie0⟩ := (hfmem _).mpr hsm
        have := hak i0 hi0
        rw [hie0] at this
        show mapLookup b.omap (getNode F.1 (F.2.getD i2 0)).Key =
          some (F.2.getD i2 0)
        rw [(hffe.2.2 _).2.1]
        exact this
      · show b.omap.length = F.2.length
        rw [hflen]
        exact hlen
    refine ⟨F.1, ⟨F.2, b.omap⟩, heval, hwf2, hffe, rfl, hflen,
      fun x => (hfmem x).symm, hfloc, ?_⟩
    intro h
    exact Option.noConfusion h

/-! ### Claim theorems: invariants and error handling -/

theorem WF_empty (s : Store) : WF s emptyBook := by
  refine ⟨?_, ?_, ?_, ?_, ?_, ?_, List.nodup_nil, rfl⟩ <;>
    intro x hx <;> simp [emptyBook] at hx

theorem WF_implies_IndexMapInv {s : Store} {b : Book} (hwf : WF s b) :
    IndexMapInv s b := by
  obtain ⟨hv, hinj, hidx, hmk, hmm, hak, hkn, hlen⟩ := hwf
  refine ⟨hidx, hlen, ?_, hak⟩
  intro e he
  obtain ⟨i, hi, hie⟩ := hmm e he
  have hix : (getNode s e.2).index = i := by
    rw [← hie]
    exact hidx i hi
  rw [hix]
  exact ⟨hi, hie⟩

/-- **C5**: after every `Push`, `Pop`, `Remove` or `Fix` operation returns on a
well-formed side book (either side: the comparator is arbitrary), the result
again satisfies the side-book invariant: every valid heap position stores a
node whose stored index equals that position, and the key→node map and the
heap hold exactly the same entries — equal size, every mapped entry found at
its stored position, every heap entry found by key lookup. -/
theorem C5_index_map_invariant (less : Store → BaseHeap → ℕ → ℕ → Bool)
    (s : Store) (b : Book) (hwf : WF s b) :
    (∀ nd s2 b2, Book.Push less s b nd = some (s2, b2) →
      WF s2 b2 ∧ IndexMapInv s2 b2) ∧
    (∀ r, Book.Pop less s b = some r →
      WF r.1.1 r.1.2 ∧ IndexMapInv r.1.1 r.1.2) ∧
    (∀ k s2 b2, Book.Remove less s b k = some (s2, b2) →
      WF s2 b2 ∧ IndexMapInv s2 b2) ∧
    (∀ k s2 b2, Book.Fix less s b k = some (s2, b2) →
      WF s2 b2 ∧ IndexMapInv s2 b2) := by
  refine ⟨?_, ?_, ?_, ?_⟩
  · intro nd s2 b2 h
    obtain ⟨s2x, b2x, heq, hwf2, _⟩ := bookPush_spec less s b nd hwf
    rw [heq] at h
    obtain ⟨h1, h2⟩ := Prod.mk.injEq .. ▸ Option.some.inj h
    rw [← h1, ← h2]
    exact ⟨hwf2, WF_implies_IndexMapInv hwf2⟩
  · intro r h
    rcases Nat.eq_zero_or_pos b.arr.length with h0 | h0
    · rw [bookPop_empty less s b h0] at h
      exact Option.noConfusion h
    · obtain ⟨rx, heq, hwf2, _⟩ := bookPop_spec less s b hwf h0
      rw [heq] at h
      rw [← Option.some.inj h]
      exact ⟨hwf2, WF_implies_IndexMapInv hwf2⟩
  · intro k s2 b2 h
    obtain ⟨s2x, b2x, heq, hwf2, _⟩ := bookRemove_spec less s b k hwf
    rw [heq] at h
    obtain ⟨h1, h2⟩ := Prod.mk.injEq .. ▸ Option.some.inj h
    rw [← h1, ← h2]
    exact ⟨hwf2, WF_implies_IndexMapInv hwf2⟩
  · intro k s2 b2 h
    obtain ⟨s2x, b2x, heq, hwf2, _⟩ := bookFix_spec less s b k hwf
    rw [heq] at h
    obtain ⟨h1, h2⟩ := Prod.mk.injEq .. ▸ Option.some.inj h
    rw [← h1, ← h2]
    exact ⟨hwf2, WF_implies_IndexMapInv hwf2⟩

/-- Witness for C5 at a concrete input: the empty ask side is well formed, and
pushing one node yields a state satisfying the invariant. -/
theorem C5_witness :
    WF ⟨[], []⟩ emptyBook ∧
    (WF ⟨[], [⟨none, "k", 1, 0⟩]⟩ ⟨[0], [("k", 0)]⟩ ∧
      IndexMapInv ⟨[], [⟨none, "k", 1, 0⟩]⟩ ⟨[0], [("k", 0)]⟩) :=
  ⟨WF_empty ⟨[], []⟩,
    (C5_index_map_invariant AskOrders.Less ⟨[], []⟩ emptyBook
      (WF_empty ⟨[], []⟩)).1 ⟨none, "k", 1⟩ _ _ rfl⟩

/-- **C9**: `Remove` and `Fix` on a key absent from the lookup map are silent
no-ops: they return with the store and the book (heap slice, all positions,
and map) completely unchanged. -/
theorem C9_remove_fix_noop (less : Store → BaseHeap → ℕ → ℕ → Bool)
    (s : Store) (b : Book) (k : String) (h : mapLookup b.omap k = none) :
    Book.Remove less s b k = some (s, b) ∧ Book.Fix less s b k = some (s, b) := by
  constructor
  · unfold Book.Remove
    rw [h]
  · unfold Book.Fix
    rw [h]

/-- Witness for C9 at a concrete input. -/
theorem C9_witness :
    mapLookup emptyBook.omap "a" = none ∧
    (Book.Remove AskOrders.Less ⟨[], []⟩ emptyBook "a" = some (⟨[], []⟩, emptyBook) ∧
     Book.Fix AskOrders.Less ⟨[], []⟩ emptyBook "a" = some (⟨[], []⟩, emptyBook)) :=
  ⟨rfl, C9_remove_fix_noop AskOrders.Less ⟨[], []⟩ emptyBook "a" rfl⟩

/-- **C2** counterexample: `Pop()` on an empty side does not signal "empty"
via a no-value result — it reaches `container/heap.Pop`, which executes
`h.Swap(0, -1)` on the empty slice and panics with an index-out-of-range
runtime error (`heapPop`'s `none` models exactly this panic), on both sides. -/
theorem C2_counterexample :
    Book.Pop AskOrders.Less ⟨[], []⟩ emptyBook = none ∧
    Book.Pop BidOrders.Less ⟨[], []⟩ emptyBook = none := ⟨rfl, rfl⟩

/-- **C2** amended: `Pop()` on an empty side panics (index out of range in
`container/heap`) instead of returning an explicit no-value; `Peek()` on an
empty side does return the explicit no-value (nil) without panicking; and on
a well-formed non-empty side `Pop()` returns normally. -/
theorem C2_amended (less : Store → BaseHeap → ℕ → ℕ → Bool) (s : Store)
    (b : Book) (hwf : WF s b) :
    (b.Len = 0 → Book.Pop less s b = none ∧ Book.Peek s b = none) ∧
    (0 < b.Len → ∃ r, Book.Pop less s b = some r) := by
  constructor
  · intro h
    have h0 : b.arr.length = 0 := h
    refine ⟨bookPop_empty less s b h0, ?_⟩
    unfold Book.Peek
    rw [if_neg (by omega)]
  · intro h
    obtain ⟨r, hr, _⟩ := bookPop_spec less s b hwf h
    exact ⟨r, hr⟩

/-- Witness for C2's amended claim at a concrete input (the empty book). -/
theorem C2_witness :
    WF ⟨[], []⟩ emptyBook ∧
    ((emptyBook.Len = 0 →
        Book.Pop AskOrders.Less ⟨[], []⟩ emptyBook = none ∧
        Book.Peek ⟨[], []⟩ emptyBook = none) ∧
     (0 < emptyBook.Len →
        ∃ r, Book.Pop AskOrders.Less ⟨[], []⟩ emptyBook = some r)) :=
  ⟨WF_empty ⟨[], []⟩,
    C2_amended AskOrders.Less ⟨[], []⟩ emptyBook (WF_empty ⟨[], []⟩)⟩

/-- **C8**: in both comparators a quote-less entry is strictly worse than any
quoting entry — the quote-less one is never `Less` than the quoting one and
the quoting one is always `Less` than it — and two quote-less entries compare
equal (neither is `Less` than the other). -/
theorem C8_empty_quote_ordering (s : Store) (arr : BaseHeap) (i j : ℕ)
    (hni : nodeQuote s (arr.getD i 0) = none)
    (hsj : (nodeQuote s (arr.getD j 0)).isSome = true) :
    AskOrders.Less s arr i j = false ∧ AskOrders.Less s arr j i = true ∧
    BidOrders.Less s arr i j = false ∧ BidOrders.Less s arr j i = true ∧
    (∀ a b, nodeQuote s (arr.getD a 0) = none →
      nodeQuote s (arr.getD b 0) = none →
      AskOrders.Less s arr a b = false ∧ BidOrders.Less s arr a b = false) := by
  obtain ⟨o, ho⟩ := Option.isSome_iff_exists.mp hsj
  refine ⟨?_, ?_, ?_, ?_, ?_⟩
  · unfold AskOrders.Less
    rw [hni, ho]
  · unfold AskOrders.Less
    rw [hni, ho]
  · unfold BidOrders.Less
    rw [hni, ho]
  · unfold BidOrders.Less
    rw [hni, ho]
  · intro a b ha hb
    constructor
    · unfold AskOrders.Less
      rw [ha, hb]
    · unfold BidOrders.Less
      rw [ha, hb]

/-- Witness for C8 at a concrete input: pointer 0 holds a quote-less node,
pointer 1 a quoting one. -/
theorem C8_witness :
    nodeQuote ⟨[⟨1, 1, "a", "us"⟩], [⟨none, "x", 1, 0⟩, ⟨some 0, "y", 1, 1⟩]⟩
      ([0, 1].getD 0 0) = none ∧
    (nodeQuote ⟨[⟨1, 1, "a", "us"⟩], [⟨none, "x", 1, 0⟩, ⟨some 0, "y", 1, 1⟩]⟩
      ([0, 1].getD 1 0)).isSome = true ∧
    AskOrders.Less ⟨[⟨1, 1, "a", "us"⟩], [⟨none, "x", 1, 0⟩, ⟨some 0, "y", 1, 1⟩]⟩
      [0, 1] 0 1 = false ∧
    AskOrders.Less ⟨[⟨1, 1, "a", "us"⟩], [⟨none, "x", 1, 0⟩, ⟨some 0, "y", 1, 1⟩]⟩
      [0, 1] 1 0 = true := by
  have h := C8_empty_quote_ordering
    ⟨[⟨1, 1, "a", "us"⟩], [⟨none, "x", 1, 0⟩, ⟨some 0, "y", 1, 1⟩]⟩ [0, 1] 0 1
    rfl rfl
  exact ⟨rfl, rfl, h.1, h.2.1⟩

/-! ### Claim theorems: volume, midpoint and spread -/

theorem volume_foldl_all_some (s : Store) :
    ∀ (arr : List ℕ) (t : ℚ), (∀ p ∈ arr, (nodeQuote s p).isSome = true) →
      arr.foldl
        (fun acc p => acc.bind (fun tt => (nodeQuote s p).map (fun o => tt + o.Quantity)))
        (some t) = some (t + (arr.map (quoteQty s)).sum) := by
  intro arr
  induction arr with
  | nil => intro t _; simp
  | cons p rest ih =>
    intro t hall
    obtain ⟨o, ho⟩ := Option.isSome_iff_exists.mp (hall p (List.mem_cons_self p rest))
    show List.foldl _ ((some t).bind fun tt => (nodeQuote s p).map fun o => tt + o.Quantity) rest = _
    rw [show ((some t).bind fun tt => (nodeQuote s p).map fun o => tt + o.Quantity)
        = some (t + o.Quantity) by rw [Option.some_bind, ho]; rfl]
    rw [ih (t + o.Quantity) (fun q hq => hall q (List.mem_cons_of_mem p hq))]
    have hq : quoteQty s p = o.Quantity := by
      unfold quoteQty
      rw [ho]
      rfl
    rw [List.map_cons, List.sum_cons, hq]
    ring_nf

theorem volume_eq_sum (s : Store) (b : Book)
    (h : ∀ p ∈ b.arr, (nodeQuote s p).isSome = true) :
    Book.volume s b = some ((b.arr.map (quoteQty s)).sum) := by
  unfold Book.volume
  rw [volume_foldl_all_some s b.arr 0 h, zero_add]

/-- **C6** counterexample: `volume()` does not skip entries whose quote source
currently yields no quote — it dereferences `node.Peek().Quantity`
unconditionally, so a single quote-less entry (reachable by one `Push`) makes
it panic on a nil pointer (modelled `none`) instead of contributing nothing. -/
theorem C6_counterexample :
    Book.Push AskOrders.Less ⟨[], []⟩ emptyBook ⟨none, "k", 1⟩ =
      some (⟨[], [⟨none, "k", 1, 0⟩]⟩, ⟨[0], [("k", 0)]⟩) ∧
    Book.volume ⟨[], [⟨none, "k", 1, 0⟩]⟩ ⟨[0], [("k", 0)]⟩ = none := ⟨rfl, rfl⟩

/-- **C6** amended: `volume()` sums the quantities of **all** entries on the
side, assuming every entry's quote source currently yields a quote; if some
entry yields no quote the function panics (nil dereference) rather than
skipping it.  Under the all-quoting assumption, each side's volume is the sum
of its entries' quantities and `OrderBook.Volume()` is the ask side's volume
plus the bid side's volume. -/
theorem C6_amended (s : Store) (ob : OrderBook)
    (ha : ∀ p ∈ ob.ask.arr, (nodeQuote s p).isSome = true)
    (hb : ∀ p ∈ ob.bid.arr, (nodeQuote s p).isSome = true) :
    Book.volume s ob.ask = some ((ob.ask.arr.map (quoteQty s)).sum) ∧
    Book.volume s ob.bid = some ((ob.bid.arr.map (quoteQty s)).sum) ∧
    OrderBook.Volume s ob =
      some ((ob.ask.arr.map (quoteQty s)).sum + (ob.bid.arr.map (quoteQty s)).sum) := by
  have hva := volume_eq_sum s ob.ask ha
  have hvb := volume_eq_sum s ob.bid hb
  refine ⟨hva, hvb, ?_⟩
  unfold OrderBook.Volume
  rw [hva, hvb]

/-- Witness for C6's amended claim at a concrete one-entry-per-side book. -/
theorem C6_witness :
    (∀ p ∈ ([0] : BaseHeap),
      (nodeQuote ⟨[⟨3, 5, "a", ""⟩, ⟨2, 7, "b", ""⟩],
        [⟨some 0, "x", 1, 0⟩, ⟨some 1, "y", 1, 0⟩]⟩ p).isSome = true) ∧
    (∀ p ∈ ([1] : BaseHeap),
      (nodeQuote ⟨[⟨3, 5, "a", ""⟩, ⟨2, 7, "b", ""⟩],
        [⟨some 0, "x", 1, 0⟩, ⟨some 1, "y", 1, 0⟩]⟩ p).isSome = true) ∧
    OrderBook.Volume ⟨[⟨3, 5, "a", ""⟩, ⟨2, 7, "b", ""⟩],
        [⟨some 0, "x", 1, 0⟩, ⟨some 1, "y", 1, 0⟩]⟩
      ⟨⟨[0], [("x", 0)]⟩, ⟨[1], [("y", 1)]⟩⟩ =
      some ((([0] : BaseHeap).map (quoteQty ⟨[⟨3, 5, "a", ""⟩, ⟨2, 7, "b", ""⟩],
        [⟨some 0, "x", 1, 0⟩, ⟨some 1, "y", 1, 0⟩]⟩)).sum +
        (([1] : BaseHeap).map (quoteQty ⟨[⟨3, 5, "a", ""⟩, ⟨2, 7, "b", ""⟩],
        [⟨some 0, "x", 1, 0⟩, ⟨some 1, "y", 1, 0⟩]⟩)).sum) := by
  refine ⟨by decide, by decide, ?_⟩
  exact (C6_amended ⟨[⟨3, 5, "a", ""⟩, ⟨2, 7, "b", ""⟩],
    [⟨some 0, "x", 1, 0⟩, ⟨some 1, "y", 1, 0⟩]⟩
    ⟨⟨[0], [("x", 0)]⟩, ⟨[1], [("y", 1)]⟩⟩ (by decide) (by decide)).2.2

/-- **C7** counterexample: an `OrderBook` whose two sides each hold one entry
(reachable by one `Push` per side) whose quote source yields no quote has
`HasBoth() = true`, yet `Midpoint()` and `Spread()` do not return the price
formulas — they dereference the nil `Peek()` result and panic (`none`). -/
theorem C7_counterexample :
    Book.Push AskOrders.Less ⟨[], []⟩ emptyBook ⟨none, "x", 1⟩ =
      some (⟨[], [⟨none, "x", 1, 0⟩]⟩, ⟨[0], [("x", 0)]⟩) ∧
    Book.Push BidOrders.Less ⟨[], [⟨none, "x", 1, 0⟩]⟩ emptyBook ⟨none, "y", 1⟩ =
      some (⟨[], [⟨none, "x", 1, 0⟩, ⟨none, "y", 1, 0⟩]⟩, ⟨[1], [("y", 1)]⟩) ∧
    OrderBook.HasBoth ⟨⟨[0], [("x", 0)]⟩, ⟨[1], [("y", 1)]⟩⟩ = true ∧
    OrderBook.Midpoint ⟨[], [⟨none, "x", 1, 0⟩, ⟨none, "y", 1, 0⟩]⟩
      ⟨⟨[0], [("x", 0)]⟩, ⟨[1], [("y", 1)]⟩⟩ = none ∧
    OrderBook.Spread ⟨[], [⟨none, "x", 1, 0⟩, ⟨none, "y", 1, 0⟩]⟩
      ⟨⟨[0], [("x", 0)]⟩, ⟨[1], [("y", 1)]⟩⟩ = none := by
  refine ⟨rfl, rfl, rfl, rfl, rfl⟩

/-- **C7** amended: when either side is empty (`HasBoth() = false`),
`Midpoint()` and `Spread()` return the defined sentinel `0` without panicking.
When `HasBoth()` holds **and both sides' `Peek()` yield a concrete order**,
`Midpoint()` returns `(bestAsk.Price + bestBid.Price) / 2` and `Spread()`
returns `bestAsk.Price - bestBid.Price`.  When `HasBoth()` holds but either
root entry currently yields no quote, both functions dereference a nil
pointer and panic (`none`). -/
theorem C7_amended (s : Store) (ob : OrderBook) :
    (ob.HasBoth = false →
      OrderBook.Midpoint s ob = some 0 ∧ OrderBook.Spread s ob = some 0) ∧
    (∀ a b, ob.HasBoth = true → Book.Peek s ob.ask = some a →
      Book.Peek s ob.bid = some b →
      OrderBook.Midpoint s ob = some ((a.Price + b.Price) / 2) ∧
      OrderBook.Spread s ob = some (a.Price - b.Price)) ∧
    (ob.HasBoth = true →
      (Book.Peek s ob.ask = none ∨ Book.Peek s ob.bid = none) →
      OrderBook.Midpoint s ob = none ∧ OrderBook.Spread s ob = none) := by
  refine ⟨?_, ?_, ?_⟩
  · intro h
    unfold OrderBook.Midpoint OrderBook.Spread
    rw [if_pos (by rw [h]; exact Bool.false_ne_true), if_pos (by rw [h]; exact Bool.false_ne_true)]
    exact ⟨rfl, rfl⟩
  · intro a b hhb hpa hpb
    unfold OrderBook.Midpoint OrderBook.Spread
    rw [if_neg (by rw [hhb]; exact fun hc => hc rfl),
      if_neg (by rw [hhb]; exact fun hc => hc rfl), hpa, hpb]
    exact ⟨rfl, rfl⟩
  · intro hhb hor
    unfold OrderBook.Midpoint OrderBook.Spread
    rw [if_neg (by rw [hhb]; exact fun hc => hc rfl),
      if_neg (by rw [hhb]; exact fun hc => hc rfl)]
    rcases hor with h | h
    · rw [h]
      cases Book.Peek s ob.bid <;> exact ⟨rfl, rfl⟩
    · rw [h]
      cases Book.Peek s ob.ask <;> exact ⟨rfl, rfl⟩

/-- Witness for C7's amended claim: one concrete quoting book hits the
formula branch. -/
theorem C7_witness :
    OrderBook.HasBoth ⟨⟨[0], [("x", 0)]⟩, ⟨[1], [("y", 1)]⟩⟩ = true ∧
    Book.Peek ⟨[⟨10, 1, "a", ""⟩, ⟨8, 1, "b", ""⟩],
      [⟨some 0, "x", 1, 0⟩, ⟨some 1, "y", 1, 0⟩]⟩
      (OrderBook.ask ⟨⟨[0], [("x", 0)]⟩, ⟨[1], [("y", 1)]⟩⟩) =
      some ⟨10, 1, "a", ""⟩ ∧
    OrderBook.Midpoint ⟨[⟨10, 1, "a", ""⟩, ⟨8, 1, "b", ""⟩],
      [⟨some 0, "x", 1, 0⟩, ⟨some 1, "y", 1, 0⟩]⟩
      ⟨⟨[0], [("x", 0)]⟩, ⟨[1], [("y", 1)]⟩⟩ =
      some (((⟨10, 1, "a", ""⟩ : Order).Price + (⟨8, 1, "b", ""⟩ : Order).Price) / 2) ∧
    OrderBook.Spread ⟨[⟨10, 1, "a", ""⟩, ⟨8, 1, "b", ""⟩],
      [⟨some 0, "x", 1, 0⟩, ⟨some 1, "y", 1, 0⟩]⟩
      ⟨⟨[0], [("x", 0)]⟩, ⟨[1], [("y", 1)]⟩⟩ =
      some ((⟨10, 1, "a", ""⟩ : Order).Price - (⟨8, 1, "b", ""⟩ : Order).Price) := by
  have h := (C7_amended ⟨[⟨10, 1, "a", ""⟩, ⟨8, 1, "b", ""⟩],
    [⟨some 0, "x", 1, 0⟩, ⟨some 1, "y", 1, 0⟩]⟩
    ⟨⟨[0], [("x", 0)]⟩, ⟨[1], [("y", 1)]⟩⟩).2.1 ⟨10, 1, "a", ""⟩ ⟨8, 1, "b", ""⟩
    rfl rfl rfl
  exact ⟨rfl, rfl, h.1, h.2⟩

/-! ### Claim theorems: key uniqueness over push sequences -/

theorem mem_bookKeys (s : Store) (b : Book) (k : String) :
    k ∈ bookKeys s b ↔ ∃ x, slotMem b.arr x ∧ (getNode s x).Key = k := by
  unfold bookKeys
  rw [List.mem_map]
  constructor
  · rintro ⟨x, hx, he⟩
    exact ⟨x, (mem_iff_slotMem b.arr x).mp hx, he⟩
  · rintro ⟨x, hx, he⟩
    exact ⟨x, (mem_iff_slotMem b.arr x).mpr hx, he⟩

theorem WF_arr_nodup {s : Store} {b : Book} (hwf : WF s b) : b.arr.Nodup := by
  apply List.nodup_iff_injective_get.mpr
  rintro ⟨i, hi⟩ ⟨j, hj⟩ h
  apply Fin.ext
  apply hwf.2.1 i hi j hj
  rw [List.getD_eq_getElem _ _ hi, List.getD_eq_getElem _ _ hj]
  rw [List.get_eq_getElem, List.get_eq_getElem] at h
  exact h

theorem WF_bookKeys_nodup {s : Store} {b : Book} (hwf : WF s b) :
    (bookKeys s b).Nodup := by
  apply List.Nodup.map_on ?_ (WF_arr_nodup hwf)
  intro x hx y hy he
  have h1 := WF_arr_key_mem hwf ((mem_iff_slotMem b.arr x).mp hx) rfl
  have h2 := WF_arr_key_mem hwf ((mem_iff_slotMem b.arr y).mp hy) rfl
  rw [he] at h1
  rw [h1] at h2
  exact Option.some.inj h2

theorem push_keyset (less : Store → BaseHeap → ℕ → ℕ → Bool) (s : Store)
    (b : Book) (nd : NodeSpec) (s2 : Store) (b2 : Book) (hwf : WF s b)
    (h : Book.Push less s b nd = some (s2, b2)) :
    (bookKeys s2 b2).toFinset = insert nd.Key (bookKeys s b).toFinset := by
  obtain ⟨s2x, b2x, heq, hwf2, hord, hnlen, hloc, hitem, hkey, hwt, hmem, hmap,
    hlen, hfields⟩ := bookPush_spec less s b nd hwf
  rw [heq] at h
  obtain ⟨h1, h2⟩ := Prod.mk.injEq .. ▸ Option.some.inj h
  rw [← h1, ← h2]
  apply Finset.ext
  intro k
  rw [List.mem_toFinset, Finset.mem_insert, List.mem_toFinset,
    mem_bookKeys, mem_bookKeys]
  constructor
  · rintro ⟨x, hx, he⟩
    rcases (hmem x).mp hx with h | h
    · subst h
      rw [← he, hkey]
      exact Or.inl rfl
    · obtain ⟨i, hi, hie⟩ := h.1
      have hxlt : x < s.nodes.length := by
        rw [← hie]
        exact hwf.1 i hi
      right
      refine ⟨x, h.1, ?_⟩
      rw [← he, (hfields x hxlt).2.1]
  · rintro (h | ⟨x, hx, he⟩)
    · refine ⟨s.nodes.length, (hmem _).mpr (Or.inl rfl), ?_⟩
      rw [hkey, h]
    · by_cases hxk : (getNode s x).Key = nd.Key
      · refine ⟨s.nodes.length, (hmem _).mpr (Or.inl rfl), ?_⟩
        rw [hkey, ← hxk, he]
      · have hx2 := hx
        obtain ⟨i, hi, hie⟩ := hx2
        have hxlt : x < s.nodes.length := by
          rw [← hie]
          exact hwf.1 i hi
        refine ⟨x, (hmem x).mpr (Or.inr ⟨hx, hxk⟩), ?_⟩
        rw [(hfields x hxlt).2.1, he]

theorem runPushes_spec (less : Store → BaseHeap → ℕ → ℕ → Bool) :
    ∀ (specs : List NodeSpec) (s : Store) (b : Book), WF s b →
      ∃ s2 b2, runPushes less s b specs = some (s2, b2) ∧ WF s2 b2 ∧
        (bookKeys s2 b2).toFinset =
          (bookKeys s b).toFinset ∪ (specs.map (fun nd => nd.Key)).toFinset := by
  intro specs
  induction specs with
  | nil =>
    intro s b hwf
    exact ⟨s, b, rfl, hwf, by simp⟩
  | cons nd rest ih =>
    intro s b hwf
    obtain ⟨s1, b1, heq1, hwf1, _⟩ := bookPush_spec less s b nd hwf
    have hks := push_keyset less s b nd s1 b1 hwf heq1
    obtain ⟨s2, b2, heq2, hwf2, hks2⟩ := ih s1 b1 hwf1
    refine ⟨s2, b2, ?_, hwf2, ?_⟩
    · show runPushes less s b (nd :: rest) = some (s2, b2)
      unfold runPushes
      rw [heq1]
      exact heq2
    · rw [hks2, hks, List.map_cons, List.toFinset_cons]
      ext k
      simp only [Finset.mem_union, Finset.mem_insert]
      constructor
      · rintro (h | h)
        · rcases h with h | h
          · exact Or.inr (Or.inl h)
          · exact Or.inl h
        · exact Or.inr (Or.inr h)
      · rintro (h | h | h)
        · exact Or.inl (Or.inr h)
        · exact Or.inl (Or.inl h)
        · exact Or.inr h

/-- **C4**: starting from the empty side, after any sequence of `Push` calls
the side's `Len()` equals the number of distinct keys pushed, and for every
pushed key exactly one entry with that key is in the heap and the key is
indexed in the lookup map. -/
theorem C4_len_distinct_keys (less : Store → BaseHeap → ℕ → ℕ → Bool)
    (s0 : Store) (specs : List NodeSpec) (s : Store) (b : Book)
    (h : runPushes less s0 emptyBook specs = some (s, b)) :
    b.Len = (specs.map (fun nd => nd.Key)).dedup.length ∧
    (∀ nd ∈ specs, (bookKeys s b).count nd.Key = 1 ∧
      (mapLookup b.omap nd.Key).isSome = true) := by
  obtain ⟨s2, b2, heq, hwf2x, hksx⟩ := runPushes_spec less specs s0 emptyBook
    (WF_empty s0)
  rw [heq] at h
  obtain ⟨h1, h2⟩ := Prod.mk.injEq .. ▸ Option.some.inj h
  have hwf2 : WF s b := h1 ▸ h2 ▸ hwf2x
  have hks : (bookKeys s b).toFinset =
      (bookKeys s0 emptyBook).toFinset ∪
        (specs.map (fun nd => nd.Key)).toFinset := by
    rw [← h1, ← h2]
    exact hksx
  have hempty : bookKeys s0 emptyBook = [] := rfl
  rw [hempty] at hks
  simp only [List.toFinset_nil, Finset.empty_union] at hks
  have hnd := WF_bookKeys_nodup hwf2
  constructor
  · show b.arr.length = _
    have hl1 : (bookKeys s b).length = b.arr.length := List.length_map ..
    rw [← hl1, ← List.toFinset_card_of_nodup hnd, hks, List.card_toFinset]
  · intro nd hnd2
    have hkmem : nd.Key ∈ (bookKeys s b).toFinset := by
      rw [hks, List.mem_toFinset]
      exact List.mem_map.mpr ⟨nd, hnd2, rfl⟩
    rw [List.mem_toFinset] at hkmem
    refine ⟨List.count_eq_one_of_mem hnd hkmem, ?_⟩
    obtain ⟨x, hx, he⟩ := (mem_bookKeys s b nd.Key).mp hkmem
    rw [WF_arr_key_mem hwf2 hx he]
    rfl

/-- Witness for C4: two pushes with the same key leave one entry. -/
theorem C4_witness :
    runPushes AskOrders.Less ⟨[], []⟩ emptyBook
        [⟨none, "a", 1⟩, ⟨none, "a", 2⟩] =
      some (⟨[], [⟨none, "a", 1, 0⟩, ⟨none, "a", 2, 0⟩]⟩, ⟨[1], [("a", 1)]⟩) ∧
    (Book.Len ⟨[1], [("a", 1)]⟩ =
      (([⟨none, "a", 1⟩, ⟨none, "a", 2⟩] : List NodeSpec).map
        (fun nd => nd.Key)).dedup.length ∧
    (∀ nd ∈ ([⟨none, "a", 1⟩, ⟨none, "a", 2⟩] : List NodeSpec),
      (bookKeys ⟨[], [⟨none, "a", 1, 0⟩, ⟨none, "a", 2, 0⟩]⟩
        ⟨[1], [("a", 1)]⟩).count nd.Key = 1 ∧
      (mapLookup [("a", 1)] nd.Key).isSome = true)) :=
  ⟨rfl, C4_len_distinct_keys AskOrders.Less ⟨[], []⟩
    [⟨none, "a", 1⟩, ⟨none, "a", 2⟩] _ _ rfl⟩

/-! ### Heap-order correctness of the sift loops (generic in the key) -/

theorem hpar_lt (c : ℕ) (h : 0 < c) : hpar c < c := by
  unfold hpar
  omega

theorem hpar_eq_iff (c i : ℕ) (h : 0 < c) :
    hpar c = i ↔ (c = 2 * i + 1 ∨ c = 2 * i + 2) := by
  unfold hpar
  omega

theorem heapOn_congr {α : Type} [LinearOrder α] {K K2 : ℕ → α}
    {arr : BaseHeap} {n : ℕ}
    (hagree : ∀ c, c < n → K2 (arr.getD c 0) = K (arr.getD c 0))
    (h : heapOn K arr n) : heapOn K2 arr n := by
  intro c hc0 hcn
  rw [hagree c hcn, hagree _ (lt_trans (hpar_lt c hc0) hcn)]
  exact h c hc0 hcn

theorem heapOn_root_min {α : Type} [LinearOrder α] (K : ℕ → α) (arr : BaseHeap)
    (n : ℕ) (h : heapOn K arr n) :
    ∀ j, j < n → K (arr.getD 0 0) ≤ K (arr.getD j 0) := by
  intro j
  induction j using Nat.strong_induction_on with
  | _ j ih =>
    intro hj
    rcases Nat.eq_zero_or_pos j with h0 | h0
    · rw [h0]
    · exact le_trans
        (ih (hpar j) (hpar_lt j h0) (lt_trans (hpar_lt j h0) hj))
        (h j h0 hj)

theorem up_heap {α : Type} [LinearOrder α]
    (less : Store → BaseHeap → ℕ → ℕ → Bool) (key : Store → ℕ → α)
    (hless : ∀ s arr i j, less s arr i j =
      decide (key s (arr.getD i 0) < key s (arr.getD j 0)))
    (hkeyF : ∀ s s2, fieldsEq s s2 → ∀ q, key s2 q = key s q)
    (K : ℕ → α) :
    ∀ (fuel : ℕ) (s : Store) (arr : BaseHeap) (j n : ℕ), j ≤ fuel → j < n →
      n ≤ arr.length → (∀ q, key s q = K q) → upInv K arr n j →
      heapOn K (upGo less fuel s arr j).2 n := by
  intro fuel
  induction fuel with
  | zero =>
    intro s arr j n hf hjn hn hK hinv
    have hj0 : j = 0 := by omega
    subst hj0
    intro c hc0 hcn
    exact hinv.1 c hc0 hcn (by omega)
  | succ fuel ih =>
    intro s arr j n hf hjn hn hK hinv
    rw [upGo_succ]
    by_cases hstop : (j - 1) / 2 = j ∨ ¬ less s arr j ((j - 1) / 2)
    · rw [if_pos hstop]
      intro c hc0 hcn
      by_cases hcj : c = j
      · subst hcj
        have hc0j : 0 < c := hc0
        rcases hstop with h | h
        · omega
        · rw [hless] at h
          have hle : ¬ (key s (arr.getD c 0) < key s (arr.getD ((c - 1) / 2) 0)) := by
            intro hc
            exact h (by rw [decide_eq_true hc])
          have := le_of_not_lt hle
          rw [hK, hK] at this
          exact this
      · exact hinv.1 c hc0 hcn hcj
    · rw [if_neg hstop]
      push_neg at hstop
      obtain ⟨hne, hlt0⟩ := hstop
      have hj0 : 0 < j := by
        rcases Nat.eq_zero_or_pos j with h | h
        · subst h
          simp at hne
        · exact h
      have hij : (j - 1) / 2 < j := by omega
      have hjlen : j < arr.length := lt_of_lt_of_le hjn hn
      have hilen : (j - 1) / 2 < arr.length := lt_trans hij hjlen
      have hin : (j - 1) / 2 < n := lt_trans hij hjn
      rw [hless] at hlt0
      have hlt : K (arr.getD j 0) < K (arr.getD ((j - 1) / 2) 0) := by
        have hx := of_decide_eq_true hlt0
        rw [hK, hK] at hx
        exact hx
      set i := (j - 1) / 2 with hidef
      have hpaj : hpar j = i := rfl
      have hgd := hswap_getD s arr i j hilen hjlen
      have hlen2 := hswap_len s arr i j
      have harr2 : ∀ c, c < n → (hswap s arr i j).2.getD c 0 =
          if c = j then arr.getD i 0 else if c = i then arr.getD j 0
          else arr.getD c 0 := fun c _ => hgd c
      have hK2 : ∀ q, key (hswap s arr i j).1 q = K q :=
        fun q => (hkeyF s (hswap s arr i j).1 (hswap_fieldsEq s arr i j) q).trans (hK q)
      have hinv2 : upInv K (hswap s arr i j).2 n i := by
        constructor
        · intro c hc0 hcn hci
          have hpcn : hpar c < n := lt_trans (hpar_lt c hc0) hcn
          rw [harr2 c hcn, harr2 (hpar c) hpcn]
          by_cases hcj : c = j
          · subst hcj
            rw [if_pos rfl, hpaj, if_neg hne, if_pos rfl]
            exact le_of_lt hlt
          · rw [if_neg hcj]
            by_cases hpcj : hpar c = j
            · rw [if_pos hpcj, if_neg hci]
              have hb := hinv.2 hj0 c hc0 hcn hpcj
              rw [hpaj] at hb
              exact hb
            · rw [if_neg hpcj]
              by_cases hpci : hpar c = i
              · rw [if_pos hpci, if_neg hci]
                have hedge := hinv.1 c hc0 hcn hcj
                rw [hpci] at hedge
                exact le_trans (le_of_lt hlt) hedge
              · rw [if_neg hpci, if_neg hci]
                exact hinv.1 c hc0 hcn hcj
        · intro hi0 c hc0 hcn hpci
          have hpin : hpar i < n := lt_trans (hpar_lt i hi0) hin
          rw [harr2 c hcn, harr2 (hpar i) hpin]
          have hpii := hpar_lt i hi0
          have hpij : ¬ hpar i = j := by omega
          have hpinei : ¬ hpar i = i := by omega
          rw [if_neg hpij, if_neg hpinei]
          by_cases hcj : c = j
          · rw [if_pos hcj]
            exact hinv.1 i hi0 hin (by omega)
          · rw [if_neg hcj]
            have hcnei : ¬ c = i := by
              have := hpar_lt c hc0
              omega
            rw [if_neg hcnei]
            have h1 := hinv.1 i hi0 hin (by omega)
            have h2 := hinv.1 c hc0 hcn hcj
            rw [hpci] at h2
            exact le_trans h1 h2
      exact ih (hswap s arr i j).1 (hswap s arr i j).2 i n (by omega) hin
        (by rw [hlen2]; exact hn) hK2 hinv2

theorem down_step {α : Type} [LinearOrder α] (K : ℕ → α) (s : Store)
    (arr : BaseHeap) (i j n : ℕ) (hin : i < n) (hn : n ≤ arr.length)
    (hj : j = 2 * i + 1 ∨ j = 2 * i + 2) (hjn : j < n)
    (hmin : ∀ c, (c = 2 * i + 1 ∨ c = 2 * i + 2) → c < n →
      K (arr.getD j 0) ≤ K (arr.getD c 0))
    (hlt : K (arr.getD j 0) < K (arr.getD i 0))
    (hinv : downInv K arr n i) :
    downInv K (hswap s arr i j).2 n j ∧
    K ((hswap s arr i j).2.getD (hpar j) 0) ≤ K ((hswap s arr i j).2.getD j 0) := by
  have hij : i < j := by omega
  have hpaj : hpar j = i := by unfold hpar; omega
  have hilen : i < arr.length := lt_of_lt_of_le hin hn
  have hjlen : j < arr.length := lt_of_lt_of_le hjn hn
  have hgd := hswap_getD s arr i j hilen hjlen
  have harr2 : ∀ c, (hswap s arr i j).2.getD c 0 =
      if c = j then arr.getD i 0 else if c = i then arr.getD j 0
      else arr.getD c 0 := fun c => hgd c
  have hne : ¬ i = j := by omega
  constructor
  · constructor
    · intro c hc0 hcn hpcj hcj
      rw [harr2 c, harr2 (hpar c)]
      rw [if_neg hcj]
      by_cases hci : c = i
      · subst hci
        have hi0 : 0 < c := hc0
        have hpii := hpar_lt c hi0
        have hpij : ¬ hpar c = j := by omega
        rw [if_pos rfl, if_neg hpij, if_neg (by omega : ¬ hpar c = c)]
        have hb := hinv.2 hi0 j (by omega) hjn (by rw [hpaj])
        exact hb
      · rw [if_neg hci]
        by_cases hpci : hpar c = i
        · have hpcjne : ¬ hpar c = j := by omega
          rw [if_neg hpcjne, if_pos hpci]
          have hcch : c = 2 * i + 1 ∨ c = 2 * i + 2 :=
            (hpar_eq_iff c i hc0).mp hpci
          exact hmin c hcch hcn
        · rw [if_neg hpcj, if_neg hpci]
          exact hinv.1 c hc0 hcn hpci hci
    · intro hj0 c hc0 hcn hpcj
      rw [harr2 c, harr2 (hpar j)]
      have hcgt : j < c := by
        have := hpar_lt c hc0
        omega
      rw [hpaj, if_neg hne, if_pos rfl, if_neg (by omega : ¬ c = j),
        if_neg (by omega : ¬ c = i)]
      have he := hinv.1 c hc0 hcn (by omega : ¬ hpar c = i) (by omega : ¬ c = i)
      rw [hpcj] at he
      exact he
  · rw [harr2 (hpar j), harr2 j, hpaj, if_neg hne, if_pos rfl, if_pos rfl]
    exact le_of_lt hlt

theorem downGo_heap {α : Type} [LinearOrder α]
    (less : Store → BaseHeap → ℕ → ℕ → Bool) (key : Store → ℕ → α)
    (hless : ∀ s arr i j, less s arr i j =
      decide (key s (arr.getD i 0) < key s (arr.getD j 0)))
    (hkeyF : ∀ s s2, fieldsEq s s2 → ∀ q, key s2 q = key s q)
    (K : ℕ → α) :
    ∀ (fuel : ℕ) (s : Store) (arr : BaseHeap) (i n : ℕ), n - i ≤ fuel →
      i < n → n ≤ arr.length → (∀ q, key s q = K q) → downInv K arr n i →
      (0 < i → K (arr.getD (hpar i) 0) ≤ K (arr.getD i 0)) →
      heapOn K (downGo less fuel s arr i n).1.2 n := by
  intro fuel
  induction fuel with
  | zero =>
    intro s arr i n hf hin hn hK hinv hpe
    omega
  | succ fuel ih =>
    intro s arr i n hf hin hn hK hinv hpe
    rw [downGo_succ]
    by_cases h1 : n ≤ 2 * i + 1
    · rw [if_pos h1]
      intro c hc0 hcn
      by_cases hci : c = i
      · subst hci
        exact hpe hc0
      · by_cases hpci : hpar c = i
        · have := (hpar_eq_iff c i hc0).mp hpci
          omega
        · exact hinv.1 c hc0 hcn hpci hci
    · rw [if_neg h1]
      set j := if 2 * i + 2 < n ∧ less s arr (2 * i + 2) (2 * i + 1)
        then 2 * i + 2 else 2 * i + 1 with hjdef
      have hjch : j = 2 * i + 1 ∨ j = 2 * i + 2 := by
        rw [hjdef]
        by_cases hc : 2 * i + 2 < n ∧ less s arr (2 * i + 2) (2 * i + 1)
        · rw [if_pos hc]; exact Or.inr rfl
        · rw [if_neg hc]; exact Or.inl rfl
      have hjn : j < n := by
        rw [hjdef]
        by_cases hc : 2 * i + 2 < n ∧ less s arr (2 * i + 2) (2 * i + 1)
        · rw [if_pos hc]; exact hc.1
        · rw [if_neg hc]; omega
      have hmin : ∀ c, (c = 2 * i + 1 ∨ c = 2 * i + 2) → c < n →
          K (arr.getD j 0) ≤ K (arr.getD c 0) := by
        intro c hcch hcn
        rw [hjdef]
        by_cases hc : 2 * i + 2 < n ∧ less s arr (2 * i + 2) (2 * i + 1)
        · rw [if_pos hc]
          have hlt2 : K (arr.getD (2 * i + 2) 0) < K (arr.getD (2 * i + 1) 0) := by
            have := hc.2
            rw [hless] at this
            have hx := of_decide_eq_true this
            rw [hK, hK] at hx
            exact hx
          rcases hcch with h | h
          · rw [h]; exact le_of_lt hlt2
          · rw [h]
        · rw [if_neg hc]
          rcases hcch with h | h
          · rw [h]
          · rw [h]
            rcases Nat.lt_or_ge (2 * i + 2) n with h2 | h2
            · have hnl : ¬ less s arr (2 * i + 2) (2 * i + 1) := by
                intro hl
                exact hc ⟨h2, hl⟩
              rw [hless] at hnl
              have hle : ¬ (key s (arr.getD (2 * i + 2) 0)
                  < key s (arr.getD (2 * i + 1) 0)) := by
                intro hx
                exact hnl (decide_eq_true hx)
              have := le_of_not_lt hle
              rw [hK, hK] at this
              exact this
            · omega
      by_cases h2 : ¬ less s arr j i
      · rw [if_pos h2]
        have hjile : K (arr.getD i 0) ≤ K (arr.getD j 0) := by
          rw [hless] at h2
          have hle : ¬ (key s (arr.getD j 0) < key s (arr.getD i 0)) := by
            intro hx
            exact h2 (decide_eq_true hx)
          have := le_of_not_lt hle
          rw [hK, hK] at this
          exact this
        intro c hc0 hcn
        by_cases hci : c = i
        · subst hci
          exact hpe hc0
        · by_cases hpci : hpar c = i
          · have hcch := (hpar_eq_iff c i hc0).mp hpci
            rw [hpci]
            exact le_trans hjile (hmin c hcch hcn)
          · exact hinv.1 c hc0 hcn hpci hci
      · rw [if_neg h2]
        have hlt : K (arr.getD j 0) < K (arr.getD i 0) := by
          have h2x : less s arr j i = true := by
            cases hd : less s arr j i with
            | false => exact absurd (by rw [hd]; exact fun hc => Bool.noConfusion hc) h2
            | true => rfl
          rw [hless] at h2x
          have hx := of_decide_eq_true h2x
          rw [hK, hK] at hx
          exact hx
        obtain ⟨hinv2, hpe2⟩ := down_step K s arr i j n hin hn hjch hjn hmin hlt hinv
        have hK2 : ∀ q, key (hswap s arr i j).1 q = K q :=
          fun q => (hkeyF s (hswap s arr i j).1 (hswap_fieldsEq s arr i j) q).trans (hK q)
        exact ih (hswap s arr i j).1 (hswap s arr i j).2 j n (by omega) hjn
          (by rw [hswap_len]; exact hn) hK2 hinv2 (fun _ => hpe2)

theorem downGo_entry {α : Type} [LinearOrder α]
    (less : Store → BaseHeap → ℕ → ℕ → Bool) (key : Store → ℕ → α)
    (hless : ∀ s arr i j, less s arr i j =
      decide (key s (arr.getD i 0) < key s (arr.getD j 0)))
    (hkeyF : ∀ s s2, fieldsEq s s2 → ∀ q, key s2 q = key s q)
    (K : ℕ → α) (fuel : ℕ) (s : Store) (arr : BaseHeap) (i n : ℕ)
    (hf : n - i ≤ fuel) (hin : i < n) (hn : n ≤ arr.length)
    (hK : ∀ q, key s q = K q) (hinv : downInv K arr n i) :
    (i < (downGo less fuel s arr i n).2 →
      heapOn K (downGo less fuel s arr i n).1.2 n) ∧
    (¬ i < (downGo less fuel s arr i n).2 →
      (downGo less fuel s arr i n).1 = (s, arr) ∧
      (∀ c, 0 < c → c < n → hpar c = i →
        K (arr.getD i 0) ≤ K (arr.getD c 0))) := by
  cases fuel with
  | zero => omega
  | succ fuel =>
    rw [downGo_succ]
    by_cases h1 : n ≤ 2 * i + 1
    · rw [if_pos h1]
      refine ⟨fun hc => absurd hc (by omega), fun _ => ⟨rfl, ?_⟩⟩
      intro c hc0 hcn hpci
      have := (hpar_eq_iff c i hc0).mp hpci
      omega
    · rw [if_neg h1]
      set j := if 2 * i + 2 < n ∧ less s arr (2 * i + 2) (2 * i + 1)
        then 2 * i + 2 else 2 * i + 1 with hjdef
      have hjch : j = 2 * i + 1 ∨ j = 2 * i + 2 := by
        rw [hjdef]
        by_cases hc : 2 * i + 2 < n ∧ less s arr (2 * i + 2) (2 * i + 1)
        · rw [if_pos hc]; exact Or.inr rfl
        · rw [if_neg hc]; exact Or.inl rfl
      have hjn : j < n := by
        rw [hjdef]
        by_cases hc : 2 * i + 2 < n ∧ less s arr (2 * i + 2) (2 * i + 1)
        · rw [if_pos hc]; exact hc.1
        · rw [if_neg hc]; omega
      have hmin : ∀ c, (c = 2 * i + 1 ∨ c = 2 * i + 2) → c < n →
          K (arr.getD j 0) ≤ K (arr.getD c 0) := by
        intro c hcch hcn
        rw [hjdef]
        by_cases hc : 2 * i + 2 < n ∧ less s arr (2 * i + 2) (2 * i + 1)
        · rw [if_pos hc]
          have hlt2 : K (arr.getD (2 * i + 2) 0) < K (arr.getD (2 * i + 1) 0) := by
            have := hc.2
            rw [hless] at this
            have hx := of_decide_eq_true this
            rw [hK, hK] at hx
            exact hx
          rcases hcch with h | h
          · rw [h]; exact le_of_lt hlt2
          · rw [h]
        · rw [if_neg hc]
          rcases hcch with h | h
          · rw [h]
          · rw [h]
            rcases Nat.lt_or_ge (2 * i + 2) n with h2 | h2
            · have hnl : ¬ less s arr (2 * i + 2) (2 * i + 1) := by
                intro hl
                exact hc ⟨h2, hl⟩
              rw [hless] at hnl
              have hle : ¬ (key s (arr.getD (2 * i + 2) 0)
                  < key s (arr.getD (2 * i + 1) 0)) := by
                intro hx
                exact hnl (decide_eq_true hx)
              have := le_of_not_lt hle
              rw [hK, hK] at this
              exact this
            · omega
      by_cases h2 : ¬ less s arr j i
      · rw [if_pos h2]
        refine ⟨fun hc => absurd hc (by omega), fun _ => ⟨rfl, ?_⟩⟩
        have hjile : K (arr.getD i 0) ≤ K (arr.getD j 0) := by
          rw [hless] at h2
          have hle : ¬ (key s (arr.getD j 0) < key s (arr.getD i 0)) := by
            intro hx
            exact h2 (decide_eq_true hx)
          have := le_of_not_lt hle
          rw [hK, hK] at this
          exact this
        intro c hc0 hcn hpci
        have hcch := (hpar_eq_iff c i hc0).mp hpci
        exact le_trans hjile (hmin c hcch hcn)
      · rw [if_neg h2]
        have hlt : K (arr.getD j 0) < K (arr.getD i 0) := by
          have h2x : less s arr j i = true := by
            cases hd : less s arr j i with
            | false => exact absurd (by rw [hd]; exact fun hc => Bool.noConfusion hc) h2
            | true => rfl
          rw [hless] at h2x
          have hx := of_decide_eq_true h2x
          rw [hK, hK] at hx
          exact hx
        obtain ⟨hinv2, hpe2⟩ := down_step K s arr i j n hin hn hjch hjn hmin hlt hinv
        have hK2 : ∀ q, key (hswap s arr i j).1 q = K q :=
          fun q => (hkeyF s (hswap s arr i j).1 (hswap_fieldsEq s arr i j) q).trans (hK q)
        have hge := downGo_final_ge less fuel (hswap s arr i j).1
          (hswap s arr i j).2 j n
        constructor
        · intro _
          exact downGo_heap less key hless hkeyF K fuel (hswap s arr i j).1
            (hswap s arr i j).2 j n (by omega) hjn
            (by rw [hswap_len]; exact hn) hK2 hinv2 (fun _ => hpe2)
        · intro hc
          omega

theorem heapOn_mono {α : Type} [LinearOrder α] {K : ℕ → α} {arr : BaseHeap}
    {m n : ℕ} (hnm : n ≤ m) (h : heapOn K arr m) : heapOn K arr n :=
  fun c hc0 hcn => h c hc0 (lt_of_lt_of_le hcn hnm)

theorem heapOn_take {α : Type} [LinearOrder α] (K : ℕ → α) (arr : BaseHeap)
    (n : ℕ) (hn : n ≤ arr.length) (h : heapOn K arr n) :
    heapOn K (arr.take n) n := by
  intro c hc0 hcn
  rw [getD_take_lt arr n c hcn,
    getD_take_lt arr n (hpar c) (lt_trans (hpar_lt c hc0) hcn)]
  exact h c hc0 hcn

theorem heapPush_heap {α : Type} [LinearOrder α]
    (less : Store → BaseHeap → ℕ → ℕ → Bool) (key : Store → ℕ → α)
    (hless : ∀ s arr i j, less s arr i j =
      decide (key s (arr.getD i 0) < key s (arr.getD j 0)))
    (hkeyF : ∀ s s2, fieldsEq s s2 → ∀ q, key s2 q = key s q)
    (s : Store) (arr : BaseHeap) (p : ℕ) (K : ℕ → α)
    (hK : ∀ q, key s q = K q) (hheap : heapOn K arr arr.length) :
    heapOn K (heapPush less s arr p).2 (arr.length + 1) := by
  have hlen1 : (arr ++ [p]).length = arr.length + 1 := by simp
  have hlast : (arr ++ [p]).length - 1 = arr.length := by simp
  have hdef : (heapPush less s arr p).2 =
      (upGo less ((arr ++ [p]).length - 1)
        (setNodeIndex s p ((arr ++ [p]).length - 1)) (arr ++ [p])
        ((arr ++ [p]).length - 1)).2 := rfl
  rw [hdef, hlast]
  have hK1 : ∀ q, key (setNodeIndex s p arr.length) q = K q :=
    fun q => (hkeyF s _ (fieldsEq_setNodeIndex ..) q).trans (hK q)
  have hinv : upInv K (arr ++ [p]) (arr.length + 1) arr.length := by
    constructor
    · intro c hc0 hcn hcl
      have hclen : c < arr.length := by omega
      have hpclen : hpar c < arr.length := lt_trans (hpar_lt c hc0) hclen
      rw [getD_append_lt arr [p] c hclen, getD_append_lt arr [p] (hpar c) hpclen]
      exact hheap c hc0 hclen
    · intro hl0 c hc0 hcn hpcl
      have := (hpar_eq_iff c arr.length hc0).mp hpcl
      omega
  exact up_heap less key hless hkeyF K arr.length
    (setNodeIndex s p arr.length) (arr ++ [p]) arr.length
    (arr.length + 1) (le_refl _) (by omega) (by rw [hlen1]) hK1 hinv

theorem heapRemove_heap {α : Type} [LinearOrder α]
    (less : Store → BaseHeap → ℕ → ℕ → Bool) (key : Store → ℕ → α)
    (hless : ∀ s arr i j, less s arr i j =
      decide (key s (arr.getD i 0) < key s (arr.getD j 0)))
    (hkeyF : ∀ s s2, fieldsEq s s2 → ∀ q, key s2 q = key s q)
    (s : Store) (arr : BaseHeap) (i : ℕ) (K : ℕ → α) (hi : i < arr.length)
    (hK : ∀ q, key s q = K q) (hheap : heapOn K arr arr.length) :
    ∀ r, heapRemove less s arr i = some r →
      heapOn K r.1.2 (arr.length - 1) := by
  intro r hr
  have hnotle : ¬ arr.length ≤ i := by omega
  by_cases hii : i = arr.length - 1
  · have heq : heapRemove less s arr i =
        some ((s, arr.take (arr.length - 1)), arr.getD (arr.length - 1) 0) := by
      simp only [heapRemove]
      rw [if_neg hnotle, if_pos hii]
    rw [heq] at hr
    have hr12 : r.1.2 = arr.take (arr.length - 1) := by
      rw [← Option.some.inj hr]
    rw [hr12]
    exact heapOn_take K arr (arr.length - 1) (by omega)
      (heapOn_mono (by omega) hheap)
  · have hin : i < arr.length - 1 := by omega
    have hnlt : arr.length - 1 < arr.length := by omega
    have hgd := hswap_getD s arr i (arr.length - 1) hi hnlt
    have hswlen : (hswap s arr i (arr.length - 1)).2.length = arr.length :=
      hswap_len ..
    have hK2 : ∀ q, key (hswap s arr i (arr.length - 1)).1 q = K q :=
      fun q => (hkeyF s _ (hswap_fieldsEq ..) q).trans (hK q)
    have hinv : downInv K (hswap s arr i (arr.length - 1)).2 (arr.length - 1) i := by
      constructor
      · intro c hc0 hcn hpci hci
        have hcne : ¬ c = arr.length - 1 := by omega
        have hpcn : hpar c < arr.length - 1 := lt_trans (hpar_lt c hc0) hcn
        have hpcne : ¬ hpar c = arr.length - 1 := by omega
        rw [hgd c, if_neg hcne, if_neg hci, hgd (hpar c), if_neg hpcne,
          if_neg hpci]
        exact hheap c hc0 (by omega)
      · intro hi0 c hc0 hcn hpci
        have hpii := hpar_lt i hi0
        have hcgt : i < c := by
          have := hpar_lt c hc0
          omega
        rw [hgd c, if_neg (by omega : ¬ c = arr.length - 1),
          if_neg (by omega : ¬ c = i), hgd (hpar i),
          if_neg (by omega : ¬ hpar i = arr.length - 1),
          if_neg (by omega : ¬ hpar i = i)]
        have h1 := hheap i hi0 hi
        have h2 := hheap c hc0 (by omega)
        rw [hpci] at h2
        exact le_trans h1 h2
    obtain ⟨hL, hR⟩ := downGo_entry less key hless hkeyF K (arr.length - 1)
      (hswap s arr i (arr.length - 1)).1 (hswap s arr i (arr.length - 1)).2
      i (arr.length - 1) (by omega) hin (by rw [hswlen]; omega) hK2 hinv
    set D := downGo less (arr.length - 1) (hswap s arr i (arr.length - 1)).1
      (hswap s arr i (arr.length - 1)).2 i (arr.length - 1) with hD
    set G := if i < D.2 then D.1 else upGo less i D.1.1 D.1.2 i with hG
    have heq : heapRemove less s arr i =
        some ((G.1, G.2.take (arr.length - 1)), G.2.getD (arr.length - 1) 0) := by
      simp only [heapRemove, up_eq_upGo]
      rw [if_neg hnotle, if_neg hii, ← hD, ← hG]
    rw [heq] at hr
    have hr12 : r.1.2 = G.2.take (arr.length - 1) := by
      rw [← Option.some.inj hr]
    have hdlen : D.1.2.length = arr.length := by
      rw [hD]
      rw [(downGo_siftOk less (arr.length - 1)
        (hswap s arr i (arr.length - 1)).1 (hswap s arr i (arr.length - 1)).2
        i (arr.length - 1) (by rw [hswlen]; omega)).2.1, hswlen]
    rw [hr12]
    by_cases hmv : i < D.2
    · rw [hG, if_pos hmv]
      exact heapOn_take K _ _ (by rw [hdlen]; omega) (hL hmv)
    · obtain ⟨hfix, hchild⟩ := hR hmv
      rw [hG, if_neg hmv, hfix]
      have hupinv : upInv K (hswap s arr i (arr.length - 1)).2 (arr.length - 1) i := by
        constructor
        · intro c hc0 hcn hci
          by_cases hpci : hpar c = i
          · rw [hpci]
            exact hchild c hc0 hcn hpci
          · exact hinv.1 c hc0 hcn hpci hci
        · intro hi0 c hc0 hcn hpci
          exact hinv.2 hi0 c hc0 hcn hpci
      have hup := up_heap less key hless hkeyF K i
        (hswap s arr i (arr.length - 1)).1 (hswap s arr i (arr.length - 1)).2
        i (arr.length - 1) (le_refl i) hin (by rw [hswlen]; omega) hK2 hupinv
      have huplen := (upGo_siftOk less i (hswap s arr i (arr.length - 1)).1
        (hswap s arr i (arr.length - 1)).2 i
        (by rw [hswlen]; omega)).2.1
      exact heapOn_take K _ _ (by rw [huplen, hswlen]; omega) hup

theorem askLess_eq (s : Store) (arr : BaseHeap) (i j : ℕ) :
    AskOrders.Less s arr i j =
      decide (askKey s (arr.getD i 0) < askKey s (arr.getD j 0)) := by
  unfold AskOrders.Less askKey
  cases hqi : nodeQuote s (arr.getD i 0) with
  | none =>
    cases hqj : nodeQuote s (arr.getD j 0) with
    | none => exact (decide_eq_false (lt_irrefl _)).symm
    | some r => exact (decide_eq_false not_top_lt).symm
  | some l =>
    cases hqj : nodeQuote s (arr.getD j 0) with
    | none => exact (decide_eq_true (WithTop.coe_lt_top _)).symm
    | some r => exact decide_eq_decide.mpr WithTop.coe_lt_coe.symm

theorem bidLess_eq (s : Store) (arr : BaseHeap) (i j : ℕ) :
    BidOrders.Less s arr i j =
      decide (bidKey s (arr.getD i 0) < bidKey s (arr.getD j 0)) := by
  unfold BidOrders.Less bidKey
  cases hqi : nodeQuote s (arr.getD i 0) with
  | none =>
    cases hqj : nodeQuote s (arr.getD j 0) with
    | none => exact (decide_eq_false (lt_irrefl _)).symm
    | some r =>
      exact (decide_eq_false
        (fun h => not_lt_bot (OrderDual.toDual_lt_toDual.mp h))).symm
  | some l =>
    cases hqj : nodeQuote s (arr.getD j 0) with
    | none =>
      symm
      rw [decide_eq_true_iff]
      exact OrderDual.toDual_lt_toDual.mpr (WithBot.bot_lt_coe _)
    | some r =>
      exact decide_eq_decide.mpr
        ((OrderDual.toDual_lt_toDual.trans WithBot.coe_lt_coe).symm)

theorem askKey_fieldsEq (s s2 : Store) (h : fieldsEq s s2) (q : ℕ) :
    askKey s2 q = askKey s q := by
  unfold askKey
  rw [nodeQuote_fieldsEq h, (h.2.2 q).2.2]

theorem bidKey_fieldsEq (s s2 : Store) (h : fieldsEq s s2) (q : ℕ) :
    bidKey s2 q = bidKey s q := by
  unfold bidKey
  rw [nodeQuote_fieldsEq h, (h.2.2 q).2.2]

theorem askKey_append (s : Store) (nd : Node) (q : ℕ) (hq : q < s.nodes.length) :
    askKey { s with nodes := s.nodes ++ [nd] } q = askKey s q := by
  unfold askKey nodeQuote
  rw [getNode_appendNode s nd q hq]

theorem bidKey_append (s : Store) (nd : Node) (q : ℕ) (hq : q < s.nodes.length) :
    bidKey { s with nodes := s.nodes ++ [nd] } q = bidKey s q := by
  unfold bidKey nodeQuote
  rw [getNode_appendNode s nd q hq]

theorem bookRemove_heap {α : Type} [LinearOrder α]
    (less : Store → BaseHeap → ℕ → ℕ → Bool) (key : Store → ℕ → α)
    (hless : ∀ s arr i j, less s arr i j =
      decide (key s (arr.getD i 0) < key s (arr.getD j 0)))
    (hkeyF : ∀ s s2, fieldsEq s s2 → ∀ q, key s2 q = key s q)
    (s : Store) (b : Book) (k : String) (hwf : WF s b)
    (hh : heapOn (key s) b.arr b.arr.length) :
    ∀ s2 b2, Book.Remove less s b k = some (s2, b2) →
      heapOn (key s2) b2.arr b2.arr.length := by
  intro s2 b2 h
  cases hc : mapLookup b.omap k with
  | none =>
    have heq : Book.Remove less s b k = some (s, b) := by
      unfold Book.Remove
      rw [hc]
    rw [heq] at h
    obtain ⟨h1, h2⟩ := Prod.mk.injEq .. ▸ Option.some.inj h
    rw [← h1, ← h2]
    exact hh
  | some p =>
    have heq : Book.Remove less s b k =
        (heapRemove less s b.arr (getNode s p).index).map
          (fun r => (r.1.1, ⟨r.1.2, mapDel b.omap k⟩)) := by
      unfold Book.Remove
      rw [hc]
    obtain ⟨hilen, hie, hkey⟩ := WF_mapped hwf hc
    obtain ⟨r, hreq, hfe, hrlen, _⟩ :=
      heapRemove_spec less s b.arr (getNode s p).index (WF_to_MechInv hwf) hilen
    rw [heq, hreq] at h
    have h2 : (r.1.1, (⟨r.1.2, mapDel b.omap k⟩ : Book)) = (s2, b2) :=
      Option.some.inj h
    obtain ⟨ha2, hb2⟩ := Prod.mk.injEq .. ▸ h2
    have hr := heapRemove_heap less key hless hkeyF s b.arr
      (getNode s p).index (key s) hilen (fun _ => rfl) hh r hreq
    rw [← ha2, ← hb2]
    show heapOn (key r.1.1) r.1.2 r.1.2.length
    rw [hrlen]
    exact heapOn_congr (fun c _ => hkeyF s r.1.1 hfe _) hr

theorem bookPush_heap {α : Type} [LinearOrder α]
    (less : Store → BaseHeap → ℕ → ℕ → Bool) (key : Store → ℕ → α)
    (hless : ∀ s arr i j, less s arr i j =
      decide (key s (arr.getD i 0) < key s (arr.getD j 0)))
    (hkeyF : ∀ s s2, fieldsEq s s2 → ∀ q, key s2 q = key s q)
    (hkeyA : ∀ (s : Store) (nd : Node) (q : ℕ), q < s.nodes.length →
      key { s with nodes := s.nodes ++ [nd] } q = key s q)
    (s : Store) (b : Book) (nd : NodeSpec) (hwf : WF s b)
    (hh : heapOn (key s) b.arr b.arr.length) :
    ∀ s2 b2, Book.Push less s b nd = some (s2, b2) →
      heapOn (key s2) b2.arr b2.arr.length := by
  intro s2 b2 h
  set ndc : Node := ⟨nd.item, nd.Key, nd.Weight, 0⟩ with hndc
  set s0 : Store := { s with nodes := s.nodes ++ [ndc] } with hs0
  set p := s.nodes.length with hp
  have hwf0 : WF s0 b := WF_appendNode s b ndc hwf
  have hh0 : heapOn (key s0) b.arr b.arr.length := by
    refine heapOn_congr (fun c hcn => ?_) hh
    exact hkeyA s ndc _ (hwf.1 c hcn)
  obtain ⟨s1, b1, hrem, hwf1, hfe1, hloc1, hmem1, hmap1, hnone1, hsome1⟩ :=
    bookRemove_spec less s0 b nd.Key hwf0
  have hh1 : heapOn (key s1) b1.arr b1.arr.length :=
    bookRemove_heap less key hless hkeyF s0 b nd.Key hwf0 hh0 s1 b1 hrem
  have hp1 : p < s1.nodes.length := by
    rw [hfe1.2.1]
    show p < (s.nodes ++ [ndc]).length
    rw [List.length_append, List.length_singleton]
    omega
  have hfreshb1 : ¬ slotMem b1.arr p := by
    intro hsm
    obtain ⟨i, hi, hie⟩ := ((hmem1 p).mp hsm).1
    have := hwf.1 i hi
    omega
  obtain ⟨hpfe, hplen, hpmem, hpmech, hploc⟩ :=
    heapPush_spec less s1 b1.arr p (WF_to_MechInv hwf1) hp1 hfreshb1
  set H := heapPush less s1 b1.arr p with hH
  have heval : Book.Push less s b nd =
      some (H.1, ⟨H.2, mapSet b1.omap nd.Key p⟩) := by
    unfold Book.Push
    rw [← hs0]
    show Option.map
      (fun r => ((heapPush less r.1 r.2.arr p).1,
        (⟨(heapPush less r.1 r.2.arr p).2, mapSet r.2.omap nd.Key p⟩ : Book)))
      (Book.Remove less s0 b nd.Key) = some (H.1, ⟨H.2, mapSet b1.omap nd.Key p⟩)
    rw [hrem]
    rfl
  rw [heval] at h
  have h2 : (H.1, (⟨H.2, mapSet b1.omap nd.Key p⟩ : Book)) = (s2, b2) :=
    Option.some.inj h
  obtain ⟨ha2, hb2⟩ := Prod.mk.injEq .. ▸ h2
  have hhp : heapOn (key s1) H.2 (b1.arr.length + 1) := by
    rw [hH]
    exact heapPush_heap less key hless hkeyF s1 b1.arr p (key s1)
      (fun _ => rfl) hh1
  rw [← ha2, ← hb2]
  show heapOn (key H.1) H.2 H.2.length
  rw [hplen]
  exact heapOn_congr (fun c _ => hkeyF s1 H.1 hpfe _) hhp

theorem runPushes_heap {α : Type} [LinearOrder α]
    (less : Store → BaseHeap → ℕ → ℕ → Bool) (key : Store → ℕ → α)
    (hless : ∀ s arr i j, less s arr i j =
      decide (key s (arr.getD i 0) < key s (arr.getD j 0)))
    (hkeyF : ∀ s s2, fieldsEq s s2 → ∀ q, key s2 q = key s q)
    (hkeyA : ∀ (s : Store) (nd : Node) (q : ℕ), q < s.nodes.length →
      key { s with nodes := s.nodes ++ [nd] } q = key s q) :
    ∀ (specs : List NodeSpec) (s : Store) (b : Book), WF s b →
      heapOn (key s) b.arr b.arr.length →
      ∀ s2 b2, runPushes less s b specs = some (s2, b2) →
        WF s2 b2 ∧ heapOn (key s2) b2.arr b2.arr.length := by
  intro specs
  induction specs with
  | nil =>
    intro s b hwf hh s2 b2 h
    obtain ⟨h1, h2⟩ := Prod.mk.injEq .. ▸ Option.some.inj h
    rw [← h1, ← h2]
    exact ⟨hwf, hh⟩
  | cons nd rest ih =>
    intro s b hwf hh s2 b2 h
    obtain ⟨s1, b1, heq1, hwf1, _⟩ := bookPush_spec less s b nd hwf
    have hh1 : heapOn (key s1) b1.arr b1.arr.length :=
      bookPush_heap less key hless hkeyF hkeyA s b nd hwf hh s1 b1 heq1
    have hstep : runPushes less s b (nd :: rest) = runPushes less s1 b1 rest := by
      show (match Book.Push less s b nd with
            | none => none
            | some r => runPushes less r.1 r.2 rest) = runPushes less s1 b1 rest
      rw [heq1]
    rw [hstep] at h
    exact ih s1 b1 hwf1 hh1 s2 b2 h

theorem askSide_peek_best (specs : List NodeSpec) (s0 : Store) (s : Store)
    (b : Book) (h : runPushes AskOrders.Less s0 emptyBook specs = some (s, b))
    (hq : ∃ k, k < b.arr.length ∧ (nodeQuote s (b.arr.getD k 0)).isSome = true) :
    ∃ o, Book.Peek s b = some o ∧
      ∀ c, c < b.arr.length → ∀ q, nodeQuote s (b.arr.getD c 0) = some q →
        o.Price * (getNode s (b.arr.getD 0 0)).Weight ≤
          q.Price * (getNode s (b.arr.getD c 0)).Weight := by
  obtain ⟨hwf, hh⟩ := runPushes_heap AskOrders.Less askKey askLess_eq
    askKey_fieldsEq askKey_append specs s0 emptyBook (WF_empty s0)
    (fun c hc0 hcn => absurd hcn (Nat.not_lt_zero c)) s b h
  obtain ⟨k, hk, hks⟩ := hq
  have hlen0 : 0 < b.arr.length := by omega
  have hroot := heapOn_root_min (askKey s) b.arr b.arr.length hh
  obtain ⟨qk, hqk⟩ := Option.isSome_iff_exists.mp hks
  have hk1 := hroot k hk
  have hkk : askKey s (b.arr.getD k 0) =
      ((qk.Price * (getNode s (b.arr.getD k 0)).Weight : ℚ) : WithTop ℚ) := by
    unfold askKey
    rw [hqk]
  cases hq0 : nodeQuote s (b.arr.getD 0 0) with
  | none =>
    have htop : askKey s (b.arr.getD 0 0) = ⊤ := by
      unfold askKey
      rw [hq0]
    rw [htop, hkk] at hk1
    exact absurd hk1 (not_le.mpr (WithTop.coe_lt_top _))
  | some o =>
    refine ⟨o, ?_, ?_⟩
    · unfold Book.Peek
      rw [if_pos hlen0, hq0]
    · intro c hc q hqc
      have hc1 := hroot c hc
      have h0 : askKey s (b.arr.getD 0 0) =
          ((o.Price * (getNode s (b.arr.getD 0 0)).Weight : ℚ) : WithTop ℚ) := by
        unfold askKey
        rw [hq0]
      have hcc : askKey s (b.arr.getD c 0) =
          ((q.Price * (getNode s (b.arr.getD c 0)).Weight : ℚ) : WithTop ℚ) := by
        unfold askKey
        rw [hqc]
      rw [h0, hcc] at hc1
      exact WithTop.coe_le_coe.mp hc1

theorem bidSide_peek_best (specs : List NodeSpec) (s0 : Store) (s : Store)
    (b : Book) (h : runPushes BidOrders.Less s0 emptyBook specs = some (s, b))
    (hq : ∃ k, k < b.arr.length ∧ (nodeQuote s (b.arr.getD k 0)).isSome = true) :
    ∃ o, Book.Peek s b = some o ∧
      ∀ c, c < b.arr.length → ∀ q, nodeQuote s (b.arr.getD c 0) = some q →
        q.Price * (getNode s (b.arr.getD c 0)).Weight ≤
          o.Price * (getNode s (b.arr.getD 0 0)).Weight := by
  obtain ⟨hwf, hh⟩ := runPushes_heap BidOrders.Less bidKey bidLess_eq
    bidKey_fieldsEq bidKey_append specs s0 emptyBook (WF_empty s0)
    (fun c hc0 hcn => absurd hcn (Nat.not_lt_zero c)) s b h
  obtain ⟨k, hk, hks⟩ := hq
  have hlen0 : 0 < b.arr.length := by omega
  have hroot := heapOn_root_min (bidKey s) b.arr b.arr.length hh
  obtain ⟨qk, hqk⟩ := Option.isSome_iff_exists.mp hks
  have hk1 := hroot k hk
  have hkk : bidKey s (b.arr.getD k 0) = OrderDual.toDual
      ((qk.Price * (getNode s (b.arr.getD k 0)).Weight : ℚ) : WithBot ℚ) := by
    unfold bidKey
    rw [hqk]
  cases hq0 : nodeQuote s (b.arr.getD 0 0) with
  | none =>
    have hbot : bidKey s (b.arr.getD 0 0) = OrderDual.toDual (⊥ : WithBot ℚ) := by
      unfold bidKey
      rw [hq0]
    rw [hbot, hkk] at hk1
    exact absurd (OrderDual.toDual_le_toDual.mp hk1) (WithBot.not_coe_le_bot _)
  | some o =>
    refine ⟨o, ?_, ?_⟩
    · unfold Book.Peek
      rw [if_pos hlen0, hq0]
    · intro c hc q hqc
      have hc1 := hroot c hc
      have h0 : bidKey s (b.arr.getD 0 0) = OrderDual.toDual
          ((o.Price * (getNode s (b.arr.getD 0 0)).Weight : ℚ) : WithBot ℚ) := by
        unfold bidKey
        rw [hq0]
      have hcc : bidKey s (b.arr.getD c 0) = OrderDual.toDual
          ((q.Price * (getNode s (b.arr.getD c 0)).Weight : ℚ) : WithBot ℚ) := by
        unfold bidKey
        rw [hqc]
      rw [h0, hcc] at hc1
      exact WithBot.coe_le_coe.mp (OrderDual.toDual_le_toDual.mp hc1)

/-- **C1**: starting from the empty initial state, after any sequence of
`Push` calls on a side (and provided some entry's quote source currently
yields a quote, so that a best concrete order exists), `Peek()` returns a
concrete order resolved live through the quote sources, and it is the best
one on that side's comparator: on the ask side its price×weight is minimal
among all entries currently yielding a quote, on the bid side maximal. -/
theorem C1_peek_best (specsA specsB : List NodeSpec) (sA0 sB0 : Store)
    (sa : Store) (ba : Book) (sb : Store) (bb : Book)
    (ha : runPushes AskOrders.Less sA0 emptyBook specsA = some (sa, ba))
    (hqa : ∃ k, k < ba.arr.length ∧ (nodeQuote sa (ba.arr.getD k 0)).isSome = true)
    (hb : runPushes BidOrders.Less sB0 emptyBook specsB = some (sb, bb))
    (hqb : ∃ k, k < bb.arr.length ∧ (nodeQuote sb (bb.arr.getD k 0)).isSome = true) :
    (∃ o, Book.Peek sa ba = some o ∧
      ∀ c, c < ba.arr.length → ∀ q, nodeQuote sa (ba.arr.getD c 0) = some q →
        o.Price * (getNode sa (ba.arr.getD 0 0)).Weight ≤
          q.Price * (getNode sa (ba.arr.getD c 0)).Weight) ∧
    (∃ o, Book.Peek sb bb = some o ∧
      ∀ c, c < bb.arr.length → ∀ q, nodeQuote sb (bb.arr.getD c 0) = some q →
        q.Price * (getNode sb (bb.arr.getD c 0)).Weight ≤
          o.Price * (getNode sb (bb.arr.getD 0 0)).Weight) :=
  ⟨askSide_peek_best specsA sA0 sa ba ha hqa,
   bidSide_peek_best specsB sB0 sb bb hb hqb⟩

theorem C1_witness :
    (runPushes AskOrders.Less ⟨[⟨10, 1, "x", "US"⟩], []⟩ emptyBook
        [⟨some 0, "a", 1⟩] =
      some (⟨[⟨10, 1, "x", "US"⟩], [⟨some 0, "a", 1, 0⟩]⟩, ⟨[0], [("a", 0)]⟩)) ∧
    (runPushes BidOrders.Less ⟨[⟨10, 1, "x", "US"⟩], []⟩ emptyBook
        [⟨some 0, "a", 1⟩] =
      some (⟨[⟨10, 1, "x", "US"⟩], [⟨some 0, "a", 1, 0⟩]⟩, ⟨[0], [("a", 0)]⟩)) ∧
    ((∃ o, Book.Peek ⟨[⟨10, 1, "x", "US"⟩], [⟨some 0, "a", 1, 0⟩]⟩
        ⟨[0], [("a", 0)]⟩ = some o ∧
      ∀ c, c < (List.length [0]) → ∀ q,
        nodeQuote ⟨[⟨10, 1, "x", "US"⟩], [⟨some 0, "a", 1, 0⟩]⟩
          (List.getD [0] c 0) = some q →
        o.Price * (getNode ⟨[⟨10, 1, "x", "US"⟩], [⟨some 0, "a", 1, 0⟩]⟩
          (List.getD [0] 0 0)).Weight ≤
        q.Price * (getNode ⟨[⟨10, 1, "x", "US"⟩], [⟨some 0, "a", 1, 0⟩]⟩
          (List.getD [0] c 0)).Weight) ∧
     (∃ o, Book.Peek ⟨[⟨10, 1, "x", "US"⟩], [⟨some 0, "a", 1, 0⟩]⟩
        ⟨[0], [("a", 0)]⟩ = some o ∧
      ∀ c, c < (List.length [0]) → ∀ q,
        nodeQuote ⟨[⟨10, 1, "x", "US"⟩], [⟨some 0, "a", 1, 0⟩]⟩
          (List.getD [0] c 0) = some q →
        q.Price * (getNode ⟨[⟨10, 1, "x", "US"⟩], [⟨some 0, "a", 1, 0⟩]⟩
          (List.getD [0] c 0)).Weight ≤
        o.Price * (getNode ⟨[⟨10, 1, "x", "US"⟩], [⟨some 0, "a", 1, 0⟩]⟩
          (List.getD [0] 0 0)).Weight)) :=
  ⟨rfl, rfl,
   C1_peek_best [⟨some 0, "a", 1⟩] [⟨some 0, "a", 1⟩]
     ⟨[⟨10, 1, "x", "US"⟩], []⟩ ⟨[⟨10, 1, "x", "US"⟩], []⟩
     ⟨[⟨10, 1, "x", "US"⟩], [⟨some 0, "a", 1, 0⟩]⟩ ⟨[0], [("a", 0)]⟩
     ⟨[⟨10, 1, "x", "US"⟩], [⟨some 0, "a", 1, 0⟩]⟩ ⟨[0], [("a", 0)]⟩
     rfl ⟨0, by decide, rfl⟩ rfl ⟨0, by decide, rfl⟩⟩

/-! ### `Copy` machinery -/

theorem getNode_setNode_ne (s : Store) (x : ℕ) (nd : Node) (q : ℕ)
    (h : q ≠ x) : getNode (setNode s x nd) q = getNode s q := by
  show (s.nodes.set x nd).getD q node0 = s.nodes.getD q node0
  rw [List.getD_eq_getElem?_getD, List.getElem?_set_ne (fun he => h he.symm),
    ← List.getD_eq_getElem?_getD]

theorem nodeQuote_setNode_ne (s : Store) (x : ℕ) (nd : Node) (q : ℕ)
    (h : q ≠ x) : nodeQuote (setNode s x nd) q = nodeQuote s q := by
  unfold nodeQuote
  rw [getNode_setNode_ne s x nd q h]
  rfl

theorem nodeQuote_setOrder_ne (s : Store) (x : ℕ) (o : Order) (p : ℕ)
    (h : ∀ qc, (getNode s p).item = some qc → qc ≠ x) :
    nodeQuote (setOrder s x o) p = nodeQuote s p := by
  show ((getNode s p).item.bind fun q => (s.orders.set x o)[q]?) =
    ((getNode s p).item.bind fun q => s.orders[q]?)
  cases hi : (getNode s p).item with
  | none => rfl
  | some qc =>
    show ((s.orders.set x o)[qc]? : Option Order) = s.orders[qc]?
    rw [List.getElem?_set_ne (fun he => h qc hi he.symm)]

theorem nodeQuote_item_ext (s s2 : Store) (x : ℕ)
    (hitem : (getNode s2 x).item = (getNode s x).item)
    (ho : ∃ ext, s2.orders = s.orders ++ ext)
    (hs : (nodeQuote s x).isSome = true) : nodeQuote s2 x = nodeQuote s x := by
  obtain ⟨ext, hext⟩ := ho
  cases hi : (getNode s x).item with
  | none =>
    unfold nodeQuote
    rw [hitem, hi]
    rfl
  | some qc =>
    have hs2 : (s.orders[qc]? : Option Order).isSome = true := by
      unfold nodeQuote at hs
      rw [hi] at hs
      exact hs
    have hq : qc < s.orders.length := by
      by_contra hq
      rw [List.getElem?_eq_none (Nat.le_of_not_lt hq)] at hs2
      exact Bool.noConfusion hs2
    unfold nodeQuote
    rw [hitem, hi]
    show (s2.orders[qc]? : Option Order) = s.orders[qc]?
    rw [hext, List.getElem?_append, if_pos hq]

theorem bookRead_setNode_out (s : Store) (b : Book) (x : ℕ) (nd : Node)
    (h : ∀ p ∈ b.arr, p ≠ x) :
    bookRead (setNode s x nd) b = bookRead s b := by
  unfold bookRead
  apply List.map_congr_left
  intro p hp
  rw [getNode_setNode_ne s x nd p (h p hp), nodeQuote_setNode_ne s x nd p (h p hp)]

theorem bookRead_setOrder (s : Store) (b : Book) (x : ℕ) (o : Order)
    (h : ∀ p ∈ b.arr, ∀ qc, (getNode s p).item = some qc → qc ≠ x) :
    bookRead (setOrder s x o) b = bookRead s b := by
  unfold bookRead
  apply List.map_congr_left
  intro p hp
  have hgn : getNode (setOrder s x o) p = getNode s p := rfl
  rw [hgn, nodeQuote_setOrder_ne s x o p (h p hp)]

theorem WF_orders_ext (s : Store) (os : List Order) (b : Book) (h : WF s b) :
    WF { s with orders := os } b := h

theorem copySide_cons_eq (less : Store → BaseHeap → ℕ → ℕ → Bool)
    (e : String × ℕ) (rest : OrdersMap) (s : Store) (b : Book) (o : Order)
    (ho : nodeQuote s e.2 = some o) :
    copySide less (e :: rest) s b =
      match Book.Push less { s with orders := s.orders ++ [o] } b
          ⟨some s.orders.length, (getNode s e.2).Key, (getNode s e.2).Weight⟩ with
      | none => none
      | some r => copySide less rest r.1 r.2 := by
  show (match nodeQuote s e.2 with
        | none => none
        | some o2 =>
          match Book.Push less { s with orders := s.orders ++ [o2] } b
              ⟨some s.orders.length, (getNode s e.2).Key,
               (getNode s e.2).Weight⟩ with
          | none => none
          | some r => copySide less rest r.1 r.2) = _
  rw [ho]

theorem copySide_spec (less : Store → BaseHeap → ℕ → ℕ → Bool) (nlo olo : ℕ) :
    ∀ (m : OrdersMap) (s : Store) (b : Book),
      WF s b →
      nlo ≤ s.nodes.length → olo ≤ s.orders.length →
      (∀ x, slotMem b.arr x → nlo ≤ x) →
      (∀ x, slotMem b.arr x → ∃ qc, (getNode s x).item = some qc ∧
        olo ≤ qc ∧ qc < s.orders.length) →
      (∀ e ∈ m, e.2 < nlo ∧ (nodeQuote s e.2).isSome = true) →
      ((m.map Prod.fst).Nodup) →
      (∀ e ∈ m, mapLookup b.omap e.1 = none) →
      (∀ e ∈ m, (getNode s e.2).Key = e.1) →
      ∃ r, copySide less m s b = some r ∧ WF r.1 r.2 ∧
        (∀ q, q < nlo → getNode r.1 q = getNode s q) ∧
        (∃ ext, r.1.orders = s.orders ++ ext) ∧
        s.nodes.length ≤ r.1.nodes.length ∧
        (∀ x, slotMem r.2.arr x → nlo ≤ x) ∧
        (∀ x, slotMem r.2.arr x → ∃ qc, (getNode r.1 x).item = some qc ∧
          olo ≤ qc ∧ qc < r.1.orders.length) ∧
        r.2.arr.length = b.arr.length + m.length ∧
        (∀ x, slotMem b.arr x → slotMem r.2.arr x) ∧
        (∀ q, q < s.nodes.length →
          (getNode r.1 q).item = (getNode s q).item ∧
          (getNode r.1 q).Key = (getNode s q).Key ∧
          (getNode r.1 q).Weight = (getNode s q).Weight) ∧
        (∀ e ∈ m, ∃ x, slotMem r.2.arr x ∧
          (getNode r.1 x).Key = e.1 ∧
          (getNode r.1 x).Weight = (getNode s e.2).Weight ∧
          nodeQuote r.1 x = nodeQuote s e.2) := by
  intro m
  induction m with
  | nil =>
    intro s b hwf hnlo holo hfresh hrange hm hnodup hmap hkeys
    exact ⟨(s, b), rfl, hwf, fun q _ => rfl, ⟨[], (List.append_nil _).symm⟩,
      le_refl _, hfresh, hrange, (Nat.add_zero _).symm, fun x hx => hx,
      fun q _ => ⟨rfl, rfl, rfl⟩, fun e he => absurd he (List.not_mem_nil e)⟩
  | cons e rest ih =>
    intro s b hwf hnlo holo hfresh hrange hm hnodup hmap hkeys
    obtain ⟨hep, hesome⟩ := hm e (List.mem_cons_self e rest)
    obtain ⟨o, ho⟩ := Option.isSome_iff_exists.mp hesome
    have hke : (getNode s e.2).Key = e.1 := hkeys e (List.mem_cons_self e rest)
    obtain ⟨hnotin, hnodup2⟩ :=
      List.nodup_cons.mp (by rw [← List.map_cons]; exact hnodup)
    obtain ⟨s2, b2, heq2, hwf2, hord2, hnlen2, hloc2, hitem2, hkey2, hwt2,
      hmem2, hmap2, hlen2, hfields2⟩ :=
      bookPush_spec less { s with orders := s.orders ++ [o] } b
        ⟨some s.orders.length, (getNode s e.2).Key, (getNode s e.2).Weight⟩
        (WF_orders_ext s (s.orders ++ [o]) b hwf)
    have hn2 : s2.nodes.length = s.nodes.length + 1 := hnlen2
    have hitem2s : (getNode s2 s.nodes.length).item = some s.orders.length :=
      hitem2
    have hkey2s : (getNode s2 s.nodes.length).Key = (getNode s e.2).Key := hkey2
    have hwt2s : (getNode s2 s.nodes.length).Weight = (getNode s e.2).Weight :=
      hwt2
    have hmem2s : ∀ x, slotMem b2.arr x ↔ (x = s.nodes.length ∨
        (slotMem b.arr x ∧ (getNode s x).Key ≠ (getNode s e.2).Key)) := hmem2
    have hmap2s : ∀ k2, mapLookup b2.omap k2 =
        if k2 = (getNode s e.2).Key then some s.nodes.length
        else mapLookup b.omap k2 := hmap2
    have hlen2s : b2.arr.length =
        if mapLookup b.omap (getNode s e.2).Key = none then b.arr.length + 1
        else b.arr.length := hlen2
    have hfields2s : ∀ q, q < s.nodes.length →
        (getNode s2 q).item = (getNode s q).item ∧
        (getNode s2 q).Key = (getNode s q).Key ∧
        (getNode s2 q).Weight = (getNode s q).Weight := hfields2
    have hloc2s : ∀ q, q < s.nodes.length → ¬ slotMem b.arr q →
        getNode s2 q = getNode s q := hloc2
    have hord2s : s2.orders = s.orders ++ [o] := hord2
    have holen2 : s2.orders.length = s.orders.length + 1 := by
      rw [hord2s, List.length_append, List.length_singleton]
    have hnq2 : ∀ q, q < nlo → (nodeQuote s q).isSome = true →
        nodeQuote s2 q = nodeQuote s q := by
      intro q hq hqs
      exact nodeQuote_item_ext s s2 q (hfields2s q (by omega)).1
        ⟨[o], hord2s⟩ hqs
    have hstep : copySide less (e :: rest) s b = copySide less rest s2 b2 := by
      rw [copySide_cons_eq less e rest s b o ho, heq2]
    obtain ⟨r, hreq, hrwf, hrpres, hrext, hrnlen, hrfresh, hrrange, hrlen,
      hrpersist, hrfields, hrcorr⟩ := ih s2 b2 hwf2
      (by omega)
      (by omega)
      (by
        intro x hx
        rcases (hmem2s x).mp hx with h | h
        · omega
        · exact hfresh x h.1)
      (by
        intro x hx
        rcases (hmem2s x).mp hx with h | h
        · subst h
          exact ⟨s.orders.length, hitem2s, by omega, by omega⟩
        · obtain ⟨qc, hqc1, hqc2, hqc3⟩ := hrange x h.1
          obtain ⟨i, hi, hie⟩ := h.1
          have hxlt : x < s.nodes.length := by
            rw [← hie]
            exact hwf.1 i hi
          exact ⟨qc, ((hfields2s x hxlt).1).trans hqc1, hqc2, by omega⟩)
      (by
        intro e2 he2
        obtain ⟨h1, h2⟩ := hm e2 (List.mem_cons_of_mem e he2)
        refine ⟨h1, ?_⟩
        rw [hnq2 e2.2 h1 h2]
        exact h2)
      hnodup2
      (by
        intro e2 he2
        rw [hmap2s e2.1, if_neg, hmap e2 (List.mem_cons_of_mem e he2)]
        rw [hke]
        intro hcon
        exact hnotin (hcon ▸ List.mem_map_of_mem Prod.fst he2))
      (by
        intro e2 he2
        obtain ⟨h1, _⟩ := hm e2 (List.mem_cons_of_mem e he2)
        rw [(hfields2s e2.2 (by omega)).2.1]
        exact hkeys e2 (List.mem_cons_of_mem e he2))
    have hb2len : b2.arr.length = b.arr.length + 1 := by
      rw [hlen2s, if_pos]
      rw [hke]
      exact hmap e (List.mem_cons_self e rest)
    have hpersist1 : ∀ x, slotMem b.arr x → slotMem b2.arr x := by
      intro x hx
      refine (hmem2s x).mpr (Or.inr ⟨hx, fun hcon => ?_⟩)
      have := WF_arr_key_mem hwf hx hcon
      rw [hke] at this
      rw [hmap e (List.mem_cons_self e rest)] at this
      exact Option.noConfusion this
    refine ⟨r, hstep.trans hreq, hrwf, ?_, ?_, by omega, hrfresh, hrrange,
      ?_, ?_, ?_, ?_⟩
    · intro q hq
      rw [hrpres q hq, hloc2s q (by omega)
        (fun hs => absurd (hfresh q hs) (by omega))]
    · obtain ⟨ext2, hext2⟩ := hrext
      exact ⟨[o] ++ ext2, by rw [hext2, hord2s, List.append_assoc]⟩
    · rw [hrlen, hb2len, List.length_cons]
      omega
    · intro x hx
      exact hrpersist x (hpersist1 x hx)
    · intro q hq
      obtain ⟨f1, f2, f3⟩ := hrfields q (by omega)
      obtain ⟨g1, g2, g3⟩ := hfields2s q hq
      exact ⟨f1.trans g1, f2.trans g2, f3.trans g3⟩
    · intro e2 he2
      rcases List.mem_cons.mp he2 with he2e | he2r
      · subst he2e
        have hpslot : slotMem b2.arr s.nodes.length :=
          (hmem2s s.nodes.length).mpr (Or.inl rfl)
        obtain ⟨f1, f2, f3⟩ := hrfields s.nodes.length (by omega)
        have hq2some : nodeQuote s2 s.nodes.length = some o := by
          unfold nodeQuote
          rw [hitem2s]
          show (s2.orders[s.orders.length]? : Option Order) = some o
          rw [hord2s, List.getElem?_append, if_neg (lt_irrefl _), Nat.sub_self]
          rfl
        refine ⟨s.nodes.length, hrpersist s.nodes.length hpslot, ?_, ?_, ?_⟩
        · rw [f2, hkey2s, hke]
        · rw [f3, hwt2s]
        · rw [nodeQuote_item_ext s2 r.1 s.nodes.length f1 hrext
            (by rw [hq2some]; rfl), hq2some, ho]
      · obtain ⟨x, hx1, hx2, hx3, hx4⟩ := hrcorr e2 he2r
        obtain ⟨h1, h2⟩ := hm e2 (List.mem_cons_of_mem e he2r)
        refine ⟨x, hx1, hx2, ?_, ?_⟩
        · rw [hx3, (hfields2s e2.2 (by omega)).2.2]
        · rw [hx4, hnq2 e2.2 h1 h2]

theorem slotMem_nil (x : ℕ) : ¬ slotMem ([] : BaseHeap) x := by
  rintro ⟨k, hk, _⟩
  simp at hk

theorem slotMem_of_mem {arr : BaseHeap} {x : ℕ} (h : x ∈ arr) :
    slotMem arr x := by
  obtain ⟨i, hi, hie⟩ := List.mem_iff_getElem.mp h
  refine ⟨i, hi, ?_⟩
  rw [List.getD_eq_getElem?_getD, List.getElem?_eq_getElem hi]
  exact hie

theorem Copy_spec (s : Store) (src : OrderBook)
    (hwa : WF s src.ask) (hwb : WF s src.bid)
    (hqa : ∀ e ∈ src.ask.omap, (nodeQuote s e.2).isSome = true)
    (hqb : ∀ e ∈ src.bid.omap, (nodeQuote s e.2).isSome = true) :
    ∃ s2 dst, Copy s src NewOrderBook = some (s2, dst) ∧
      dst.ask.arr.length = src.ask.arr.length ∧
      dst.bid.arr.length = src.bid.arr.length ∧
      (∀ q, q < s.nodes.length → getNode s2 q = getNode s q) ∧
      (∃ ext, s2.orders = s.orders ++ ext) ∧
      (∀ x, slotMem dst.ask.arr x → s.nodes.length ≤ x) ∧
      (∀ x, slotMem dst.bid.arr x → s.nodes.length ≤ x) ∧
      (∀ x, slotMem dst.ask.arr x → ∃ qc, (getNode s2 x).item = some qc ∧
        s.orders.length ≤ qc) ∧
      (∀ x, slotMem dst.bid.arr x → ∃ qc, (getNode s2 x).item = some qc ∧
        s.orders.length ≤ qc) ∧
      (∀ e ∈ src.ask.omap, ∃ x, slotMem dst.ask.arr x ∧
        (getNode s2 x).Key = e.1 ∧
        (getNode s2 x).Weight = (getNode s e.2).Weight ∧
        nodeQuote s2 x = nodeQuote s e.2) ∧
      (∀ e ∈ src.bid.omap, ∃ x, slotMem dst.bid.arr x ∧
        (getNode s2 x).Key = e.1 ∧
        (getNode s2 x).Weight = (getNode s e.2).Weight ∧
        nodeQuote s2 x = nodeQuote s e.2) := by
  have hmvalid : ∀ (bk : Book), WF s bk → ∀ e ∈ bk.omap, e.2 < s.nodes.length := by
    intro bk hw e he
    obtain ⟨i, hi, hie⟩ := hw.2.2.2.2.1 e he
    rw [← hie]
    exact hw.1 i hi
  obtain ⟨ra, hra, hrawf, hrapres, hraext, hranlen, hrafresh, hrarange, hralen,
    _, hrafields, hracorr⟩ :=
    copySide_spec AskOrders.Less s.nodes.length s.orders.length src.ask.omap s
      emptyBook (WF_empty s) (le_refl _) (le_refl _)
      (fun x hx => absurd hx (slotMem_nil x))
      (fun x hx => absurd hx (slotMem_nil x))
      (fun e he => ⟨hmvalid src.ask hwa e he, hqa e he⟩)
      hwa.2.2.2.2.2.2.1
      (fun e _ => rfl)
      (fun e he => hwa.2.2.2.1 e he)
  have hraitem : ∀ e ∈ src.bid.omap,
      (getNode ra.1 e.2).item = (getNode s e.2).item := by
    intro e he
    rw [hrapres e.2 (hmvalid src.bid hwb e he)]
  obtain ⟨rb, hrb, hrbwf, hrbpres, hrbext, hrbnlen, hrbfresh, hrbrange, hrblen,
    _, hrbfields, hrbcorr⟩ :=
    copySide_spec BidOrders.Less s.nodes.length s.orders.length src.bid.omap
      ra.1 emptyBook (WF_empty ra.1) (by omega)
      (by
        obtain ⟨ext, hext⟩ := hraext
        rw [hext, List.length_append]
        omega)
      (fun x hx => absurd hx (slotMem_nil x))
      (fun x hx => absurd hx (slotMem_nil x))
      (fun e he => ⟨hmvalid src.bid hwb e he, by
        rw [nodeQuote_item_ext s ra.1 e.2 (hraitem e he) hraext (hqb e he)]
        exact hqb e he⟩)
      hwb.2.2.2.2.2.2.1
      (fun e _ => rfl)
      (fun e he => by
        rw [hrapres e.2 (hmvalid src.bid hwb e he)]
        exact hwb.2.2.2.1 e he)
  have hcopy : Copy s src NewOrderBook = some (rb.1, ⟨ra.2, rb.2⟩) := by
    show (match copySide AskOrders.Less src.ask.omap s emptyBook with
          | none => none
          | some ra2 =>
            match copySide BidOrders.Less src.bid.omap ra2.1 emptyBook with
            | none => none
            | some rb2 => some (rb2.1, (⟨ra2.2, rb2.2⟩ : OrderBook))) = _
    rw [hra]
    show (match copySide BidOrders.Less src.bid.omap ra.1 emptyBook with
          | none => none
          | some rb2 => some (rb2.1, (⟨ra.2, rb2.2⟩ : OrderBook))) = _
    rw [hrb]
  have hnqbid : ∀ e ∈ src.bid.omap, nodeQuote ra.1 e.2 = nodeQuote s e.2 :=
    fun e he => nodeQuote_item_ext s ra.1 e.2 (hraitem e he) hraext (hqb e he)
  have hslotra : ∀ x, slotMem ra.2.arr x → x < ra.1.nodes.length := by
    intro x hx
    obtain ⟨i, hi, hie⟩ := hx
    rw [← hie]
    exact hrawf.1 i hi
  refine ⟨rb.1, ⟨ra.2, rb.2⟩, hcopy, ?_, ?_, ?_, ?_, hrafresh, hrbfresh,
    ?_, ?_, ?_, ?_⟩
  · show ra.2.arr.length = src.ask.arr.length
    rw [hralen]
    have := hwa.2.2.2.2.2.2.2
    have h0 : (emptyBook.arr : BaseHeap).length = 0 := rfl
    omega
  · show rb.2.arr.length = src.bid.arr.length
    rw [hrblen]
    have := hwb.2.2.2.2.2.2.2
    have h0 : (emptyBook.arr : BaseHeap).length = 0 := rfl
    omega
  · intro q hq
    rw [hrbpres q (by omega), hrapres q hq]
  · obtain ⟨ext1, hext1⟩ := hraext
    obtain ⟨ext2, hext2⟩ := hrbext
    exact ⟨ext1 ++ ext2, by rw [hext2, hext1, List.append_assoc]⟩
  · intro x hx
    obtain ⟨qc, hqc1, hqc2, _⟩ := hrarange x hx
    refine ⟨qc, ?_, hqc2⟩
    rw [(hrbfields x (hslotra x hx)).1, hqc1]
  · intro x hx
    obtain ⟨qc, hqc1, hqc2, _⟩ := hrbrange x hx
    exact ⟨qc, hqc1, hqc2⟩
  · intro e he
    obtain ⟨x, hx1, hx2, hx3, hx4⟩ := hracorr e he
    have hxlt : x < ra.1.nodes.length := hslotra x hx1
    refine ⟨x, hx1, ?_, ?_, ?_⟩
    · rw [(hrbfields x hxlt).2.1, hx2]
    · rw [(hrbfields x hxlt).2.2, hx3]
    · rw [nodeQuote_item_ext ra.1 rb.1 x (hrbfields x hxlt).1 hrbext
        (by rw [hx4]; exact hqa e he), hx4]
  · intro e he
    obtain ⟨x, hx1, hx2, hx3, hx4⟩ := hrbcorr e he
    refine ⟨x, hx1, hx2, ?_, ?_⟩
    · rw [hx3, hrapres e.2 (hmvalid src.bid hwb e he)]
    · rw [hx4, hnqbid e he]

theorem WF_arrPtr_lt (s : Store) (bk : Book) (hw : WF s bk) :
    ∀ p ∈ bk.arr, p < s.nodes.length := by
  intro p hp
  obtain ⟨i, hi, hie⟩ := slotMem_of_mem hp
  rw [← hie]
  exact hw.1 i hi

theorem WF_arr_target_lt (s : Store) (bk : Book) (hw : WF s bk)
    (hq : ∀ e ∈ bk.omap, (nodeQuote s e.2).isSome = true) :
    ∀ p ∈ bk.arr, ∀ qc, (getNode s p).item = some qc →
      qc < s.orders.length := by
  intro p hp qc hqc
  obtain ⟨i, hi, hie⟩ := slotMem_of_mem hp
  have hml : mapLookup bk.omap (getNode s p).Key = some p := by
    have := hw.2.2.2.2.2.1 i hi
    rw [hie] at this
    exact this
  have hmem := mapLookup_eq_some _ _ _ hml
  have hqs := hq _ hmem
  unfold nodeQuote at hqs
  rw [hqc] at hqs
  have hqs2 : (s.orders[qc]? : Option Order).isSome = true := hqs
  by_contra hcon
  rw [List.getElem?_eq_none (Nat.le_of_not_lt hcon)] at hqs2
  exact Bool.noConfusion hqs2

/-- **C10**: `Copy` dereferences every source entry's current quote
(`o := *n.Peek()`) with no nil check; under the precondition that every entry
on both sides of the source currently yields a quote, `Copy` into a freshly
initialized destination is total (the nil-dereference branch is
unreachable). -/
theorem C10_copy_total (s : Store) (src : OrderBook)
    (hwa : WF s src.ask) (hwb : WF s src.bid)
    (hqa : ∀ e ∈ src.ask.omap, (nodeQuote s e.2).isSome = true)
    (hqb : ∀ e ∈ src.bid.omap, (nodeQuote s e.2).isSome = true) :
    (Copy s src NewOrderBook).isSome = true := by
  obtain ⟨s2, dst, hc, _⟩ := Copy_spec s src hwa hwb hqa hqb
  rw [hc]
  rfl

/-- **C3**: after `Copy(src, dst)` into a freshly initialized destination,
each side of `dst` has exactly as many entries as the corresponding side of
`src`, and for every source entry there is a destination entry with the same
key and weight whose quote is the same order value but held in a freshly
allocated node cell and order cell; mutating any node or order cell reachable
from `dst` is invisible when reading `src`, and mutating any node or order
cell reachable from `src` is invisible when reading `dst`. -/
theorem C3_copy_independence (s : Store) (src : OrderBook) (s2 : Store)
    (dst : OrderBook)
    (hwa : WF s src.ask) (hwb : WF s src.bid)
    (hqa : ∀ e ∈ src.ask.omap, (nodeQuote s e.2).isSome = true)
    (hqb : ∀ e ∈ src.bid.omap, (nodeQuote s e.2).isSome = true)
    (h : Copy s src NewOrderBook = some (s2, dst)) :
    (dst.ask.arr.length = src.ask.arr.length ∧
     dst.bid.arr.length = src.bid.arr.length) ∧
    (∀ e ∈ src.ask.omap, ∃ x, slotMem dst.ask.arr x ∧ s.nodes.length ≤ x ∧
      (getNode s2 x).Key = e.1 ∧
      (getNode s2 x).Weight = (getNode s e.2).Weight ∧
      nodeQuote s2 x = nodeQuote s e.2 ∧
      (∃ qc, (getNode s2 x).item = some qc ∧ s.orders.length ≤ qc)) ∧
    (∀ e ∈ src.bid.omap, ∃ x, slotMem dst.bid.arr x ∧ s.nodes.length ≤ x ∧
      (getNode s2 x).Key = e.1 ∧
      (getNode s2 x).Weight = (getNode s e.2).Weight ∧
      nodeQuote s2 x = nodeQuote s e.2 ∧
      (∃ qc, (getNode s2 x).item = some qc ∧ s.orders.length ≤ qc)) ∧
    (∀ x, (slotMem dst.ask.arr x ∨ slotMem dst.bid.arr x) → ∀ nd,
      bookRead (setNode s2 x nd) src.ask = bookRead s2 src.ask ∧
      bookRead (setNode s2 x nd) src.bid = bookRead s2 src.bid) ∧
    (∀ x p, (slotMem dst.ask.arr p ∨ slotMem dst.bid.arr p) →
      (getNode s2 p).item = some x → ∀ o,
      bookRead (setOrder s2 x o) src.ask = bookRead s2 src.ask ∧
      bookRead (setOrder s2 x o) src.bid = bookRead s2 src.bid) ∧
    (∀ x, (x ∈ src.ask.arr ∨ x ∈ src.bid.arr) → ∀ nd,
      bookRead (setNode s2 x nd) dst.ask = bookRead s2 dst.ask ∧
      bookRead (setNode s2 x nd) dst.bid = bookRead s2 dst.bid) ∧
    (∀ x p, (p ∈ src.ask.arr ∨ p ∈ src.bid.arr) →
      (getNode s2 p).item = some x → ∀ o,
      bookRead (setOrder s2 x o) dst.ask = bookRead s2 dst.ask ∧
      bookRead (setOrder s2 x o) dst.bid = bookRead s2 dst.bid) := by
  obtain ⟨s2x, dstx, hc, hl1, hl2, hpres, hext, hfa, hfb, hra, hrb, hca, hcb⟩ :=
    Copy_spec s src hwa hwb hqa hqb
  rw [hc] at h
  obtain ⟨h1, h2⟩ := Prod.mk.injEq .. ▸ Option.some.inj h
  subst h1
  subst h2
  have hsrcitem : ∀ (bk : Book), WF s bk →
      (∀ e ∈ bk.omap, (nodeQuote s e.2).isSome = true) →
      ∀ p ∈ bk.arr, ∀ qc, (getNode s2x p).item = some qc →
        qc < s.orders.length := by
    intro bk hw hq p hp qc hqc
    have hplt := WF_arrPtr_lt s bk hw p hp
    rw [congrArg Node.item (hpres p hplt)] at hqc
    exact WF_arr_target_lt s bk hw hq p hp qc hqc
  refine ⟨⟨hl1, hl2⟩, ?_, ?_, ?_, ?_, ?_, ?_⟩
  · intro e he
    obtain ⟨x, hx1, hx2, hx3, hx4⟩ := hca e he
    exact ⟨x, hx1, hfa x hx1, hx2, hx3, hx4, hra x hx1⟩
  · intro e he
    obtain ⟨x, hx1, hx2, hx3, hx4⟩ := hcb e he
    exact ⟨x, hx1, hfb x hx1, hx2, hx3, hx4, hrb x hx1⟩
  · intro x hx nd
    have hxge : s.nodes.length ≤ x := by
      rcases hx with hx | hx
      · exact hfa x hx
      · exact hfb x hx
    constructor
    · refine bookRead_setNode_out s2x src.ask x nd (fun p hp => ?_)
      have := WF_arrPtr_lt s src.ask hwa p hp
      omega
    · refine bookRead_setNode_out s2x src.bid x nd (fun p hp => ?_)
      have := WF_arrPtr_lt s src.bid hwb p hp
      omega
  · intro x p hps hitem o
    have hge : s.orders.length ≤ x := by
      rcases hps with hp | hp
      · obtain ⟨qc, hqc1, hqc2⟩ := hra p hp
        have := Option.some.inj (hqc1.symm.trans hitem)
        omega
      · obtain ⟨qc, hqc1, hqc2⟩ := hrb p hp
        have := Option.some.inj (hqc1.symm.trans hitem)
        omega
    constructor
    · refine bookRead_setOrder s2x src.ask x o (fun p2 hp2 qc hqc => ?_)
      have := hsrcitem src.ask hwa hqa p2 hp2 qc hqc
      omega
    · refine bookRead_setOrder s2x src.bid x o (fun p2 hp2 qc hqc => ?_)
      have := hsrcitem src.bid hwb hqb p2 hp2 qc hqc
      omega
  · intro x hx nd
    have hxlt : x < s.nodes.length := by
      rcases hx with hx | hx
      · exact WF_arrPtr_lt s src.ask hwa x hx
      · exact WF_arrPtr_lt s src.bid hwb x hx
    constructor
    · refine bookRead_setNode_out s2x dstx.ask x nd (fun p hp => ?_)
      have := hfa p (slotMem_of_mem hp)
      omega
    · refine bookRead_setNode_out s2x dstx.bid x nd (fun p hp => ?_)
      have := hfb p (slotMem_of_mem hp)
      omega
  · intro x p hps hitem o
    have hxlt : x < s.orders.length := by
      rcases hps with hp | hp
      · exact hsrcitem src.ask hwa hqa p hp x hitem
      · exact hsrcitem src.bid hwb hqb p hp x hitem
    constructor
    · refine bookRead_setOrder s2x dstx.ask x o (fun p2 hp2 qc hqc => ?_)
      obtain ⟨qc2, hqc1, hqc2ge⟩ := hra p2 (slotMem_of_mem hp2)
      have := Option.some.inj (hqc1.symm.trans hqc)
      omega
    · refine bookRead_setOrder s2x dstx.bid x o (fun p2 hp2 qc hqc => ?_)
      obtain ⟨qc2, hqc1, hqc2ge⟩ := hrb p2 (slotMem_of_mem hp2)
      have := Option.some.inj (hqc1.symm.trans hqc)
      omega

theorem C10_witness :
    WF ⟨[⟨10, 1, "x", "US"⟩, ⟨5, 2, "y", "US"⟩],
        [⟨some 0, "a", 1, 0⟩, ⟨some 1, "b", 1, 0⟩]⟩
      (⟨⟨[0], [("a", 0)]⟩, ⟨[1], [("b", 1)]⟩⟩ : OrderBook).ask ∧
    WF ⟨[⟨10, 1, "x", "US"⟩, ⟨5, 2, "y", "US"⟩],
        [⟨some 0, "a", 1, 0⟩, ⟨some 1, "b", 1, 0⟩]⟩
      (⟨⟨[0], [("a", 0)]⟩, ⟨[1], [("b", 1)]⟩⟩ : OrderBook).bid ∧
    (∀ e ∈ (⟨⟨[0], [("a", 0)]⟩, ⟨[1], [("b", 1)]⟩⟩ : OrderBook).ask.omap,
      (nodeQuote ⟨[⟨10, 1, "x", "US"⟩, ⟨5, 2, "y", "US"⟩],
        [⟨some 0, "a", 1, 0⟩, ⟨some 1, "b", 1, 0⟩]⟩ e.2).isSome = true) ∧
    (∀ e ∈ (⟨⟨[0], [("a", 0)]⟩, ⟨[1], [("b", 1)]⟩⟩ : OrderBook).bid.omap,
      (nodeQuote ⟨[⟨10, 1, "x", "US"⟩, ⟨5, 2, "y", "US"⟩],
        [⟨some 0, "a", 1, 0⟩, ⟨some 1, "b", 1, 0⟩]⟩ e.2).isSome = true) ∧
    (Copy ⟨[⟨10, 1, "x", "US"⟩, ⟨5, 2, "y", "US"⟩],
        [⟨some 0, "a", 1, 0⟩, ⟨some 1, "b", 1, 0⟩]⟩
      ⟨⟨[0], [("a", 0)]⟩, ⟨[1], [("b", 1)]⟩⟩ NewOrderBook).isSome = true :=
  ⟨by decide, by decide, by decide, by decide,
   C10_copy_total
     ⟨[⟨10, 1, "x", "US"⟩, ⟨5, 2, "y", "US"⟩],
      [⟨some 0, "a", 1, 0⟩, ⟨some 1, "b", 1, 0⟩]⟩
     ⟨⟨[0], [("a", 0)]⟩, ⟨[1], [("b", 1)]⟩⟩
     (by decide) (by decide) (by decide) (by decide)⟩

theorem C3_witness :
    (Copy ⟨[⟨10, 1, "x", "US"⟩, ⟨5, 2, "y", "US"⟩],
        [⟨some 0, "a", 1, 0⟩, ⟨some 1, "b", 1, 0⟩]⟩
      ⟨⟨[0], [("a", 0)]⟩, ⟨[1], [("b", 1)]⟩⟩ NewOrderBook =
      some (⟨[⟨10, 1, "x", "US"⟩, ⟨5, 2, "y", "US"⟩,
              ⟨10, 1, "x", "US"⟩, ⟨5, 2, "y", "US"⟩],
             [⟨some 0, "a", 1, 0⟩, ⟨some 1, "b", 1, 0⟩,
              ⟨some 2, "a", 1, 0⟩, ⟨some 3, "b", 1, 0⟩]⟩,
            ⟨⟨[2], [("a", 2)]⟩, ⟨[3], [("b", 3)]⟩⟩)) ∧
    ((⟨⟨[2], [("a", 2)]⟩, ⟨[3], [("b", 3)]⟩⟩ : OrderBook).ask.arr.length =
       (⟨⟨[0], [("a", 0)]⟩, ⟨[1], [("b", 1)]⟩⟩ : OrderBook).ask.arr.length ∧
     (⟨⟨[2], [("a", 2)]⟩, ⟨[3], [("b", 3)]⟩⟩ : OrderBook).bid.arr.length =
       (⟨⟨[0], [("a", 0)]⟩, ⟨[1], [("b", 1)]⟩⟩ : OrderBook).bid.arr.length) :=
  ⟨rfl,
   (C3_copy_independence
     ⟨[⟨10, 1, "x", "US"⟩, ⟨5, 2, "y", "US"⟩],
      [⟨some 0, "a", 1, 0⟩, ⟨some 1, "b", 1, 0⟩]⟩
     ⟨⟨[0], [("a", 0)]⟩, ⟨[1], [("b", 1)]⟩⟩
     ⟨[⟨10, 1, "x", "US"⟩, ⟨5, 2, "y", "US"⟩,
       ⟨10, 1, "x", "US"⟩, ⟨5, 2, "y", "US"⟩],
      [⟨some 0, "a", 1, 0⟩, ⟨some 1, "b", 1, 0⟩,
       ⟨some 2, "a", 1, 0⟩, ⟨some 3, "b", 1, 0⟩]⟩
     ⟨⟨[2], [("a", 2)]⟩, ⟨[3], [("b", 3)]⟩⟩
     (by decide) (by decide) (by decide) (by decide) rfl).1⟩

end OB
